import Mathlib

/-
Verification of the owner-drawn tree control in
`wx/lib/agw/customtreectrl.py` (classes `GenericTreeItem` and
`CustomTreeCtrl`).

The data model and all operations below are a shallow embedding of that
Python source.  A `GenericTreeItem` becomes a finitely branching tree
(`Item`) whose per-node record `Fields` carries exactly the attributes the
verified operations read or write (`_type`, `_checked`, `_is3State`,
`_enabled`, `_hidden`, `_isCollapsed`, `_hasHilight`, `_hasPlus`,
`_separator`, the image indices and the cached geometry `_x`, `_y`,
`_width`, `_height`).  Python mutates items in place and navigates through
parent pointers; in the embedding an item inside a tree is addressed by
the list of child indices leading to it from the root, and an operation on
an item returns the rebuilt root.  Object identity of items is modelled by
the `id` field; theorems that need identity assume the ids in a tree are
distinct (`Nodup` of the preorder listing), which holds for any tree built
by the control since every node is a distinct Python object.

Event-handler interaction (`GetEventHandler().ProcessEvent`) is modelled
by an oracle `List Bool`: each vetoable `EVT_TREE_ITEM_CHECKING` dispatch
consumes the head of the oracle (`true` means the handler blocked the
change, i.e. `ProcessEvent` returned a truthy value); an exhausted oracle
means no veto.  Every dispatched event is recorded in an output trace.

External toolkit services (device-context text metrics, image lists,
client size, scroll position) are passed in as explicit environment
records; drawing-only side effects (`RefreshLine`, window moves, image
drawing) have no observable effect on the verified state and are omitted,
as are the label-edit controller and the drag-and-drop machinery, which
the verified operations only touch through early-exit guards that are
inactive when no edit or drag is in progress.
-/

/-- Python integer `wx.CHK_UNCHECKED = 0`; also models Python `False`
stored in `GenericTreeItem._checked`. -/
def CHK_UNCHECKED : Nat := 0

/-- Python integer `wx.CHK_CHECKED = 1`; also models Python `True`
stored in `GenericTreeItem._checked`. -/
def CHK_CHECKED : Nat := 1

/-- Python integer `wx.CHK_UNDETERMINED = 2`. -/
def CHK_UNDETERMINED : Nat := 2

/-- Per-item attributes of `GenericTreeItem` used by the verified
operations.  `checked` holds `0`/`1` for the Python booleans
`False`/`True` and `2` for `wx.CHK_UNDETERMINED`; `ctype` is `_type`
(0 normal, 1 checkbox, 2 radiobutton). -/
structure Fields where
  id : Nat
  text : String
  ctype : Nat
  is3State : Bool
  checked : Nat
  enabled : Bool
  hidden : Bool
  collapsed : Bool
  hilight : Bool
  hasPlus : Bool
  separator : Bool
  imgNormal : Int
  imgSelected : Int
  imgExpanded : Int
  imgSelExpanded : Int
  x : Int
  y : Int
  width : Int
  height : Int
deriving DecidableEq

/-- A `GenericTreeItem` together with its `_children` list. -/
inductive Item : Type where
  | node : Fields → List Item → Item

/-- The attribute record of an item. -/
def Item.fld : Item → Fields
  | .node f _ => f

/-- The `_children` list of an item. -/
def Item.children : Item → List Item
  | .node _ cs => cs

/-- `GenericTreeItem.IsEnabled`: hidden items always report disabled. -/
def isEnabledF (f : Fields) : Bool :=
  if f.hidden then false else f.enabled

/-- `GenericTreeItem.IsExpanded`: hidden items always report collapsed. -/
def isExpandedF (f : Fields) : Bool :=
  if f.hidden then false else !f.collapsed

/-- `GenericTreeItem.GetValue` / `IsChecked`: both return `_checked`
(`Get3StateValue` also returns `_checked` when the item is 3-state). -/
def getValueF (f : Fields) : Nat :=
  f.checked

/-- Truthiness of `item.IsChecked()` in a Python condition: `0`/`False`
is falsy, `1`/`True` and `2` are truthy. -/
def isCheckedB (f : Fields) : Bool :=
  f.checked != 0

/-- `GenericTreeItem.Check(checked)`.  The Python body asserts
`checked in [True, False]`; every call site modelled here passes a
boolean (`0` or `1`). -/
def checkF (f : Fields) (c : Nat) : Fields :=
  { f with checked := c }

/-- `GenericTreeItem.Set3StateValue(state)`.  The Python body asserts
`state` is one of the three `wx.CHK_*` constants and raises when a
2-state item is set to `CHK_UNDETERMINED`; the one modelled call site
(`CheckItem`) only reaches it for 3-state items. -/
def set3StateValueF (f : Fields) (s : Nat) : Fields :=
  { f with checked := s }

/-- `GenericTreeItem.HasPlus`: `self._hasPlus or self.HasChildren()`. -/
def hasPlusI (it : Item) : Bool :=
  it.fld.hasPlus || !it.children.isEmpty

/-- Address of an item inside a tree: the list of child indices leading
to it from the root (the root itself has address `[]`). -/
abbrev TPath := List Nat

/-- Look up the item at an address. -/
def getAt (t : Item) : TPath → Option Item
  | [] => some t
  | i :: p =>
    match t.children[i]? with
    | some c => getAt c p
    | none => none

/-- Rebuild a tree with the subtree at an address transformed by `g`
(identity when the address is invalid). -/
def modifyAt (g : Item → Item) (t : Item) : TPath → Item
  | [] => g t
  | i :: p =>
    match t.children[i]? with
    | some c => .node t.fld (t.children.set i (modifyAt g c p))
    | none => t

/-- Replace the subtree at an address. -/
def setAt (t : Item) (p : TPath) (x : Item) : Item :=
  modifyAt (fun _ => x) t p

/-- The attribute record of the item at an address. -/
def fieldsAt (t : Item) (p : TPath) : Option Fields :=
  (getAt t p).map Item.fld

/-- Tree events observable by the host application.  `checking` is the
vetoable `EVT_TREE_ITEM_CHECKING`, `checked` is `EVT_TREE_ITEM_CHECKED`,
`deleted` is `EVT_TREE_DELETE_ITEM`; the payload is the id of the item
carried by the event. -/
inductive Evt : Type where
  | checking : Nat → Evt
  | checked : Nat → Evt
  | deleted : Nat → Evt
deriving DecidableEq

/-- `CustomTreeCtrl.EnableItem(item, enable)` restricted to its effect on
the item record: skip when `IsEnabled()` already equals `enable`;
otherwise a disable of a selected item first deselects it
(`SelectItem(item, False)` reduces to `SetHilight(False)`), then
`item.Enable(enable)` stores the flag.  The `wx.ClientDC` refresh has no
modelled effect. -/
def enableItemF (f : Fields) (enable : Bool) : Fields :=
  if isEnabledF f == enable then f
  else
    let f1 := if !enable && f.hilight then { f with hilight := false } else f
    { f1 with enabled := enable }

/-- `CustomTreeCtrl.CheckItem2(item, checked)`: the silent check used by
bulk operations; no events are sent.  (`GenericTreeItem.Check` asserts
its argument is boolean; all modelled call sites pass `0` or `1`.) -/
def checkItem2F (f : Fields) (c : Nat) : Fields :=
  if f.ctype == 0 then f else checkF f c

mutual

/-- The loop of `CustomTreeCtrl.EnableChildren(item, enable)`: each child
passes through `EnableItem` and then the recursive `EnableChildren`
call, whose radio guard is inlined here (`EnableItem` never changes
`_type` or `_checked`, so the guard reads the updated record).  Inside
the source loop the condition
`child.GetType != 2 or (child.GetType() == 2 and item.IsChecked())`
compares the bound method `GetType` with the integer `2`, which is
always true in Python, so the recursion into each child is
unconditional. -/
def enableChildrenL : List Item → Bool → List Item
  | [], _ => []
  | c :: rest, enable =>
    (let f1 := enableItemF c.fld enable
     if f1.ctype == 2 && enable && !isCheckedB f1 then Item.node f1 c.children
     else Item.node f1 (enableChildrenK c enable)) ::
      enableChildrenL rest enable

/-- The recursive `EnableChildren` call on one child: process its
children (`EnableItem` changes no child list, so the guard above reads
the updated record while the recursion descends into the original
children). -/
def enableChildrenK : Item → Bool → List Item
  | .node _ cs, enable => enableChildrenL cs enable

end

/-- `CustomTreeCtrl.EnableChildren(item, enable)`.  The guard
`item.GetType() == 2 and enable and not item.IsChecked()` stops an
enable pass at an unchecked radio item. -/
def enableChildren (it : Item) (enable : Bool) : Item :=
  if it.fld.ctype == 2 && enable && !isCheckedB it.fld then it
  else .node it.fld (enableChildrenL it.children enable)

/-- `CustomTreeCtrl.UnCheckRadioParent(item, checked)`, acting on the
item at address `p`.  It fires a vetoable `EVT_TREE_ITEM_CHECKING` for
the item itself and returns `False` on veto; otherwise it stores the new
check state, enables or disables the item children according to the
truthiness of `checked`, fires `EVT_TREE_ITEM_CHECKED` and returns
`True`.  The result is (new tree, event trace, remaining oracle,
returned boolean). -/
def unCheckRadioParent (t : Item) (p : TPath) (c : Nat) (orc : List Bool) :
    Item × List Evt × List Bool × Bool :=
  match getAt t p with
  | none => (t, [], orc, false)
  | some it =>
    if orc.headD false then (t, [.checking it.fld.id], orc.tail, false)
    else
      let t1 := modifyAt
        (fun x => enableChildren (.node (checkF x.fld c) x.children) (c != 0))
        t p
      (t1, [.checking it.fld.id, .checked it.fld.id], orc.tail, true)

/-- The loop body of `CustomTreeCtrl.CheckSameLevel`: every radio sibling
other than the item itself (position `i` among the parent children) is
silently re-checked via `CheckItem2` and gets `EnableChildren` applied;
the inner source condition `child.GetType != 2 or ...` is the same
always-true method-versus-integer comparison noted at
`enableChildren`. -/
def checkSameLevelL : List Item → Nat → Nat → Nat → List Item
  | [], _, _, _ => []
  | ch :: rest, j, i, c =>
    (if ch.fld.ctype == 2 && j != i then
      enableChildren (.node (checkItem2F ch.fld c) ch.children) (c != 0)
    else ch) :: checkSameLevelL rest (j + 1) i c

/-- `CustomTreeCtrl.CheckSameLevel(item, checked)`, acting on the item at
address `p`: silently unchecks the radio siblings of the item (the
children of its parent other than itself).  A root item has no parent
and nothing happens. -/
def checkSameLevel (t : Item) (p : TPath) (c : Nat) : Item :=
  match p with
  | [] => t
  | _ :: _ =>
    modifyAt
      (fun par => .node par.fld
        (checkSameLevelL par.children 0 (p.getLastD 0) c))
      t p.dropLast

mutual

/-- The loop of `CustomTreeCtrl.AutoCheckChild(item, checked)`: checkbox
children that are enabled are silently set to `checked` through
`CheckItem2`, and the traversal recurses into every child regardless of
its type (the recursive call processes the children of the just-updated
child; `CheckItem2` never changes the child list). -/
def autoCheckChildL : List Item → Nat → List Item
  | [], _ => []
  | ch :: rest, c =>
    Item.node
      (if ch.fld.ctype == 1 && isEnabledF ch.fld then checkItem2F ch.fld c
       else ch.fld)
      (autoCheckChildK ch c) :: autoCheckChildL rest c

/-- The recursive `AutoCheckChild` call on one child: process its
children. -/
def autoCheckChildK : Item → Nat → List Item
  | .node _ cs, c => autoCheckChildL cs c

end

mutual

/-- The loop of `CustomTreeCtrl.AutoToggleChild(item)`: enabled checkbox
children are silently set to `not child.IsChecked()`, and the traversal
recurses into every child. -/
def autoToggleChildL : List Item → List Item
  | [] => []
  | ch :: rest =>
    Item.node
      (if ch.fld.ctype == 1 && isEnabledF ch.fld then
        checkItem2F ch.fld (if isCheckedB ch.fld then 0 else 1)
      else ch.fld)
      (autoToggleChildK ch) :: autoToggleChildL rest

/-- The recursive `AutoToggleChild` call on one child: process its
children. -/
def autoToggleChildK : Item → List Item
  | .node _ cs => autoToggleChildL cs

end

/-- The sibling scan of `CustomTreeCtrl.AutoCheckParent`: the parent is
re-checked only when every enabled checkbox child already agrees with
`checked`. -/
def allAgreeL (cs : List Item) (c : Nat) : Bool :=
  cs.all fun ch =>
    !(ch.fld.ctype == 1 && isEnabledF ch.fld) || ch.fld.checked == c

/-- The upward walk of `CustomTreeCtrl.AutoCheckParent(item, checked)`
on the reversed address of the item (the head of the reversed address is
the index of the item among its siblings, the reversed tail is the
reversed address of the parent): stop when the parent is missing or not
a checkbox, or when some enabled checkbox child disagrees; otherwise
silently check the parent and continue upward. -/
def autoCheckParentRev (t : Item) : List Nat → Nat → Item
  | [], _ => t
  | _ :: restRev, c =>
    let pp := restRev.reverse
    match getAt t pp with
    | none => t
    | some par =>
      if par.fld.ctype != 1 then t
      else if allAgreeL par.children c then
        autoCheckParentRev
          (modifyAt (fun x => .node (checkItem2F x.fld c) x.children) t pp)
          restRev c
      else t

/-- `CustomTreeCtrl.AutoCheckParent(item, checked)`, acting on the item
at address `p` (an item at the root address has no parent and nothing
happens). -/
def autoCheckParentUp (t : Item) (p : TPath) (c : Nat) : Item :=
  autoCheckParentRev t p.reverse c

/-- `CustomTreeCtrl.CheckItem(item, checked)`, acting on the item at
address `p` with the control agw-style flags `TR_AUTO_CHECK_CHILD`,
`TR_AUTO_CHECK_PARENT` and `TR_AUTO_TOGGLE_CHILD` passed explicitly.
Radio items go through `UnCheckRadioParent` (vetoable, for the item
itself) and then `CheckSameLevel`; checkbox items fire their own
vetoable `EVT_TREE_ITEM_CHECKING`, store the state through
`Set3StateValue` or `Check`, run the optional automatic propagation and
fire `EVT_TREE_ITEM_CHECKED`. -/
def checkItem (t : Item) (p : TPath) (c : Nat)
    (autoChild autoParent autoToggle : Bool) (orc : List Bool) :
    Item × List Evt × List Bool :=
  match getAt t p with
  | none => (t, [], orc)
  | some it =>
    if it.fld.ctype == 0 then (t, [], orc)
    else if it.fld.ctype == 2 then
      if c == 0 && isCheckedB it.fld then (t, [], orc)
      else
        let r := unCheckRadioParent t p c orc
        if !r.2.2.2 then (r.1, r.2.1, r.2.2.1)
        else (checkSameLevel r.1 p 0, r.2.1, r.2.2.1)
    else
      if orc.headD false then (t, [.checking it.fld.id], orc.tail)
      else
        let t1 := modifyAt
          (fun x => .node
            (if x.fld.is3State then set3StateValueF x.fld c
             else checkF x.fld c) x.children) t p
        let t2 := if autoChild then
            match getAt t1 p with
            | some x => modifyAt
                (fun y => .node y.fld (autoCheckChildL y.children
                  (getValueF x.fld))) t1 p
            | none => t1
          else t1
        let t3 := if autoParent then
            match getAt t2 p with
            | some x => autoCheckParentUp t2 p (getValueF x.fld)
            | none => t2
          else if autoToggle then
            modifyAt (fun y => .node y.fld (autoToggleChildL y.children)) t2 p
          else t2
        (t3, [.checking it.fld.id, .checked it.fld.id], orc.tail)

mutual

/-- The ids of all items of a tree in depth-first preorder (the order in
which `GenericTreeItem` stores and traverses children). -/
def preorder : Item → List Nat
  | .node f cs => f.id :: preorderL cs

/-- Preorder ids of a forest. -/
def preorderL : List Item → List Nat
  | [] => []
  | c :: cs => preorder c ++ preorderL cs

end

mutual

/-- `GenericTreeItem.GetChildrenCount(recursively=True)`: the number of
descendants of an item, the item itself excluded. -/
def childrenCount : Item → Nat
  | .node _ cs => cs.length + childrenCountL cs

/-- Sum of the recursive children counts of a forest. -/
def childrenCountL : List Item → Nat
  | [] => 0
  | c :: cs => childrenCount c + childrenCountL cs

end

/-- `CustomTreeCtrl.GetCount()`: total number of items, where a hidden
root (`TR_HIDE_ROOT`) is not counted.  `anchor` is `self._anchor`
(`none` when the tree is empty). -/
def getCount (anchor : Option Item) (hideRoot : Bool) : Nat :=
  match anchor with
  | none => 0
  | some a => childrenCount a + (if hideRoot then 0 else 1)

/-- Number of checked radio items in a children list (the quantity the
radio-exclusivity invariant bounds). -/
def radioCheckedCount (cs : List Item) : Nat :=
  (cs.filter fun c => c.fld.ctype == 2 && c.fld.checked != 0).length

mutual

/-- Radio-exclusivity invariant: in every children list of the tree, at
most one radio item is checked. -/
def radioInvB : Item → Bool
  | .node _ cs => decide (radioCheckedCount cs ≤ 1) && radioInvL cs

/-- Radio-exclusivity invariant for a forest. -/
def radioInvL : List Item → Bool
  | [] => true
  | c :: cs => radioInvB c && radioInvL cs

end

mutual

/-- The `EVT_TREE_DELETE_ITEM` trace of `GenericTreeItem.DeleteChildren`:
for each child, the deletion event for the child itself precedes the
events of its own children. -/
def deleteChildrenTrace : Item → List Evt
  | .node _ cs => deleteChildrenTraceL cs

/-- Deletion-event trace of a forest. -/
def deleteChildrenTraceL : List Item → List Evt
  | [] => []
  | c :: cs =>
    (Evt.deleted c.fld.id :: deleteChildrenTrace c) ++ deleteChildrenTraceL cs

end

/-- `CustomTreeCtrl.Delete(item)`, acting on the item at address `p` of
the anchor tree: the item is removed from its parent children list (the
whole tree vanishes when the root is deleted), the events of
`item.DeleteChildren(self)` are fired and then `SendDeleteEvent(item)`
fires the event for the item itself.  Selection/edit bookkeeping
(`_current`, `_select_me`, `_key_current`, the label editor) and window
destruction have no effect on the modelled state and are omitted.  The
result is the new anchor (`none` when the root was deleted) and the
event trace. -/
def deleteItemOp (t : Item) (p : TPath) : Option Item × List Evt :=
  match getAt t p with
  | none => (some t, [])
  | some it =>
    let evts := deleteChildrenTrace it ++ [Evt.deleted it.fld.id]
    match p with
    | [] => (none, evts)
    | _ :: _ =>
      (some (modifyAt
        (fun par => .node par.fld (par.children.eraseIdx (p.getLastD 0)))
        t p.dropLast), evts)

/-- Python `list.insert(index, item)`: clamps the index into range, so
the result always grows by one element. -/
def pyInsert (cs : List Item) (i : Nat) (x : Item) : List Item :=
  cs.take i ++ x :: cs.drop i

/-- The record built by the `GenericTreeItem` constructor for a fresh
item: unchecked, 2-state, shown, collapsed, unselected, and disabled
when the parent is an unchecked radio item. -/
def newItemF (nid : Nat) (text : String) (ctype : Nat) (sep : Bool)
    (parentF : Fields) : Fields :=
  { id := nid, text := text, ctype := ctype, is3State := false, checked := 0,
    enabled := !(parentF.ctype == 2 && !isCheckedB parentF),
    hidden := false, collapsed := true, hilight := false, hasPlus := false,
    separator := sep, imgNormal := -1, imgSelected := -1, imgExpanded := -1,
    imgSelExpanded := -1, x := 0, y := 0, width := 0, height := 0 }

/-- `CustomTreeCtrl.DoInsertItem(parent, previous, text, ct_type, ...)`,
inserting a fresh item (no embedded window) at position `previous` of
the children of the item at address `pp`.  The guard conditions that
raise in Python are modelled as `none`: a `ct_type` outside `0..2` and a
separator with a non-blank label (the window and multiline guards are
vacuous for the modelled window-less single-line items). -/
def doInsertItem (t : Item) (pp : TPath) (previous : Nat) (nid : Nat)
    (text : String) (ctype : Nat) (sep : Bool) : Option Item :=
  if ctype > 2 then none
  else if sep && text.trim != "" then none
  else
    match getAt t pp with
    | none => none
    | some par =>
      some (modifyAt
        (fun x => .node x.fld
          (pyInsert x.children previous
            (.node (newItemF nid text ctype sep par.fld) [])))
        t pp)

/-- Hit-test flag `TREE_HITTEST_ABOVE`. -/
def TREE_HITTEST_ABOVE : Nat := 0x1

/-- Hit-test flag `TREE_HITTEST_BELOW`. -/
def TREE_HITTEST_BELOW : Nat := 0x2

/-- Hit-test flag `TREE_HITTEST_NOWHERE`. -/
def TREE_HITTEST_NOWHERE : Nat := 0x4

/-- Hit-test flag `TREE_HITTEST_ONITEMBUTTON`. -/
def TREE_HITTEST_ONITEMBUTTON : Nat := 0x8

/-- Hit-test flag `TREE_HITTEST_ONITEMICON`. -/
def TREE_HITTEST_ONITEMICON : Nat := 0x10

/-- Hit-test flag `TREE_HITTEST_ONITEMINDENT`. -/
def TREE_HITTEST_ONITEMINDENT : Nat := 0x20

/-- Hit-test flag `TREE_HITTEST_ONITEMLABEL`. -/
def TREE_HITTEST_ONITEMLABEL : Nat := 0x40

/-- Hit-test flag `TREE_HITTEST_ONITEMRIGHT`. -/
def TREE_HITTEST_ONITEMRIGHT : Nat := 0x80

/-- Hit-test flag `TREE_HITTEST_TOLEFT`. -/
def TREE_HITTEST_TOLEFT : Nat := 0x200

/-- Hit-test flag `TREE_HITTEST_TORIGHT`. -/
def TREE_HITTEST_TORIGHT : Nat := 0x400

/-- Hit-test flag `TREE_HITTEST_ONITEMUPPERPART`. -/
def TREE_HITTEST_ONITEMUPPERPART : Nat := 0x800

/-- Hit-test flag `TREE_HITTEST_ONITEMLOWERPART`. -/
def TREE_HITTEST_ONITEMLOWERPART : Nat := 0x1000

/-- Hit-test flag `TREE_HITTEST_ONITEMCHECKICON` (source value `0x4000`). -/
def TREE_HITTEST_ONITEMCHECKICON : Nat := 0x4000

/-- Hit-test flag `TREE_HITTEST_ONITEM`. -/
def TREE_HITTEST_ONITEM : Nat :=
  TREE_HITTEST_ONITEMICON ||| TREE_HITTEST_ONITEMLABEL |||
    TREE_HITTEST_ONITEMCHECKICON

/-- Control-level context consumed by the hit tester: platform, style
flags and toolkit queries (`GetSpacing`, `HasButtons`, `GetLineHeight`
inputs, image-list sizes). -/
structure HTEnv where
  mac : Bool
  hasButtons : Bool
  spacing : Int
  hideRoot : Bool
  fullRow : Bool
  varHeight : Bool
  ctlLineHeight : Int
  hasImages : Bool
  imgWidth : Int → Int
  chkWidth : Int → Int

/-- `CustomTreeCtrl.GetLineHeight(item)`: the cached item height under
`TR_HAS_VARIABLE_ROW_HEIGHT`, else the uniform control line height. -/
def lineHeightOf (varHeight : Bool) (ctlLineHeight : Int) (f : Fields) :
    Int :=
  if varHeight then f.height else ctlLineHeight

/-- The in-span part of `GenericTreeItem.HitTest`: the point lies in the
vertical span of the item, which is therefore returned, and the region
flags are classified (upper/lower half, expand button, check icon, icon,
label, indent, right of label). -/
def hitTestSpan (env : HTEnv) (pt : Int × Int) (f : Fields)
    (plus : Bool) (flags : Nat) : Nat :=
  let h := lineHeightOf env.varHeight env.ctlLineHeight f
  let yMid := f.y + Int.fdiv h 2
  let flags1 := if pt.2 < yMid then flags ||| TREE_HITTEST_ONITEMUPPERPART
    else flags ||| TREE_HITTEST_ONITEMLOWERPART
  let xCross := f.x - env.spacing
  let onButton :=
    if env.mac then
      pt.1 > xCross - 4 && pt.1 < xCross + 10 && pt.2 > yMid - 4 &&
        pt.2 < yMid + 10 && plus && env.hasButtons
    else
      pt.1 > xCross - 6 && pt.1 < xCross + 6 && pt.2 > yMid - 6 &&
        pt.2 < yMid + 6 && plus && env.hasButtons
  if onButton then flags1 ||| TREE_HITTEST_ONITEMBUTTON
  else if pt.1 ≥ f.x && pt.1 ≤ f.x + f.width then
    let imageW : Int :=
      if f.imgNormal != -1 && env.hasImages then env.imgWidth f.imgNormal
      else -1
    let wcheck : Int := if f.ctype != 0 then env.chkWidth 0 else 0
    if wcheck != 0 && pt.1 ≤ f.x + wcheck + 1 then
      flags1 ||| TREE_HITTEST_ONITEMCHECKICON
    else if imageW != -1 && pt.1 ≤ f.x + wcheck + imageW + 1 then
      flags1 ||| TREE_HITTEST_ONITEMICON
    else
      flags1 ||| TREE_HITTEST_ONITEMLABEL
  else
    let flags2 := if pt.1 < f.x then
        (if env.fullRow then flags1 ||| TREE_HITTEST_ONITEM
         else flags1 ||| TREE_HITTEST_ONITEMINDENT)
      else flags1
    if pt.1 > f.x + f.width then
      (if env.fullRow then flags2 ||| TREE_HITTEST_ONITEM
       else flags2 ||| TREE_HITTEST_ONITEMRIGHT)
    else flags2

mutual

/-- `GenericTreeItem.HitTest(point, theCtrl, flags, level)`.  Hidden
items are never evaluated and their entire subtree is skipped; a hidden
root under `TR_HIDE_ROOT` only forwards to its children; an item whose
vertical span contains the point is returned with classified flags; a
collapsed item stops the descent. -/
def hitTestItem (env : HTEnv) (pt : Int × Int) :
    Item → Nat → Nat → Option Item × Nat
  | .node f cs, flags, level =>
    if f.hidden then (none, flags)
    else if !(level == 0 && env.hideRoot) then
      let h := lineHeightOf env.varHeight env.ctlLineHeight f
      if pt.2 > f.y && pt.2 < f.y + h then
        (some (.node f cs),
          hitTestSpan env pt f (f.hasPlus || !cs.isEmpty) flags)
      else if !(isExpandedF f) then (none, 0)
      else hitTestItemL env pt cs flags (level + 1)
    else hitTestItemL env pt cs flags (level + 1)

/-- The child loop of `GenericTreeItem.HitTest`: flags accumulate across
the children; when no child is hit the flags are reset to `0`. -/
def hitTestItemL (env : HTEnv) (pt : Int × Int) :
    List Item → Nat → Nat → Option Item × Nat
  | [], _, _ => (none, 0)
  | c :: rest, flags, level =>
    match hitTestItem env pt c flags level with
    | (some r, fl) => (some r, fl)
    | (none, fl) => hitTestItemL env pt rest fl level

end

/-- Window-level context of `CustomTreeCtrl.HitTest`: the window size
(`GetSize`) and the scroll offset added by
`CalcUnscrolledPosition`. -/
structure WinEnv where
  sizeW : Int
  sizeH : Int
  scrollX : Int
  scrollY : Int

/-- `CustomTreeCtrl.HitTest(point)`: points outside the window rectangle
produce only directional flags and no item; an empty tree and a missed
tree produce `TREE_HITTEST_NOWHERE`; a hit on a disabled item is
reported as no item with the computed flags kept. -/
def hitTest (wenv : WinEnv) (env : HTEnv) (anchor : Option Item)
    (pt : Int × Int) : Option Item × Nat :=
  let flags0 :=
    (if pt.1 < 0 then TREE_HITTEST_TOLEFT else 0) |||
    (if pt.1 > wenv.sizeW then TREE_HITTEST_TORIGHT else 0) |||
    (if pt.2 < 0 then TREE_HITTEST_ABOVE else 0) |||
    (if pt.2 > wenv.sizeH then TREE_HITTEST_BELOW else 0)
  if flags0 != 0 then (none, flags0)
  else
    match anchor with
    | none => (none, TREE_HITTEST_NOWHERE)
    | some a =>
      let upt := (pt.1 + wenv.scrollX, pt.2 + wenv.scrollY)
      match hitTestItem env upt a flags0 0 with
      | (none, _) => (none, TREE_HITTEST_NOWHERE)
      | (some hit, fl) =>
        if !(isEnabledF hit.fld) then (none, fl) else (some hit, fl)

/-- `_PIXELS_PER_UNIT` from the source. -/
def PIXELS_PER_UNIT : Int := 10

/-- Context of `CustomTreeCtrl.IsVisible`: scroll view start
(`GetViewStart`), client size and the line-height inputs used by
`GetBoundingRect`. -/
structure VisEnv where
  viewStartX : Int
  viewStartY : Int
  clientW : Int
  clientH : Int
  varHeight : Bool
  ctlLineHeight : Int

/-- The ancestor walk of `CustomTreeCtrl.IsVisible`: every proper
ancestor of the item at address `p` must report `IsExpanded`. -/
def ancestorsExpanded : Item → TPath → Bool
  | _, [] => true
  | t, i :: p =>
    isExpandedF t.fld &&
      (match t.children[i]? with
       | some c => ancestorsExpanded c p
       | none => true)

/-- `CustomTreeCtrl.IsVisible(item)` for the item at address `p`: hidden
items are never visible; all ancestors must be expanded; the bounding
rectangle (`GetBoundingRect`, scroll-adjusted item geometry with the
line height) must be non-degenerate and intersect the client area.  The
Python test `if not rect` is skipped because a `wx.Rect` object is
always truthy. -/
def isVisible (env : VisEnv) (t : Item) (p : TPath) : Bool :=
  match getAt t p with
  | none => false
  | some it =>
    if it.fld.hidden then false
    else if !ancestorsExpanded t p then false
    else
      let rx := it.fld.x - env.viewStartX * PIXELS_PER_UNIT
      let ry := it.fld.y - env.viewStartY * PIXELS_PER_UNIT
      let rw := it.fld.width
      let rh := lineHeightOf env.varHeight env.ctlLineHeight it.fld
      if rw == 0 || rh == 0 then false
      else if ry + rh - 1 < 0 || ry > env.clientH then false
      else if rx + rw - 1 < 0 || rx > env.clientW then false
      else true

/-- Device-context and image queries consumed by
`CustomTreeCtrl.CalculateSize`: the text extent of a label under the
item font (`GetFullMultiLineTextExtent`) and the image-list entry
sizes. -/
structure SizeEnv where
  textW : String → Int
  textH : String → Int
  imgW : Int → Int
  imgH : Int → Int
  chkW : Int → Int
  hasImages : Bool
  clientW : Int

/-- `GenericTreeItem.GetCurrentImage`. -/
def getCurrentImage (f : Fields) : Int :=
  let image : Int :=
    if isExpandedF f then
      let i1 := if f.hilight then f.imgSelExpanded else -1
      if i1 == -1 then f.imgExpanded else i1
    else
      if f.hilight then f.imgSelected else -1
  if image == -1 then f.imgNormal else image

/-- `GenericTreeItem.GetCurrentCheckedImage`: `none` for normal items,
otherwise the fixed `_checkedimages` slot for the item type and check
state. -/
def getCurrentCheckedImage (f : Fields) : Option Int :=
  if f.ctype == 0 then none
  else if isCheckedB f then
    if f.ctype == 1 then
      if f.checked == CHK_CHECKED then some 0 else some 2
    else some 3
  else
    if f.ctype == 1 then some 1 else some 4

/-- `CustomTreeCtrl.CalculateSize(item, dc)` on the attribute record of
one item, given the freeze counter, the dirty flag and the running
maximum line height; returns the updated record, dirty flag and line
height.  When frozen it only marks the control dirty; a hidden item gets
height `0`; otherwise width and height are computed from the text
extent, the current image, the check image and the 2-pixel margins (no
embedded window is modelled, and a separator stretches to the client
width). -/
def calculateSizeF (env : SizeEnv) (freezeCount : Nat) (dirty : Bool)
    (lineHeight : Int) (f : Fields) : Fields × Bool × Int :=
  if freezeCount != 0 then (f, true, lineHeight)
  else if f.hidden then ({ f with height := 0 }, dirty, lineHeight)
  else
    let textW := env.textW f.text
    let textH := env.textH f.text + 2
    let image := getCurrentImage f
    let imageW : Int :=
      if image != -1 && env.hasImages then env.imgW image + 4 else 0
    let imageH : Int :=
      if image != -1 && env.hasImages then env.imgH image else 0
    let totalH0 := if imageH > textH then imageH else textH
    let wcheck : Int :=
      match getCurrentCheckedImage f with
      | some ci => env.chkW ci + 4
      | none => 0
    let totalH := if totalH0 < 30 then totalH0 + 2
      else totalH0 + Int.fdiv totalH0 10
    let lineHeight1 := if totalH > lineHeight then totalH else lineHeight
    let totalWidth := if f.separator then env.clientW
      else imageW + textW + wcheck + 2
    ({ f with width := totalWidth, height := totalH }, dirty, lineHeight1)

/-- Layout events: `layout` marks one execution of the geometry
recomputation body of `CalculatePositions`; `refresh` marks a repaint
request (`Refresh`). -/
inductive LEvt : Type where
  | layout : LEvt
  | refresh : LEvt
deriving DecidableEq

mutual

/-- `CustomTreeCtrl.CalculateLevel(item, dc, level, y)` (alignment pass
disabled, i.e. without `TR_ALIGN_WINDOWS`): size the item, position it
at the indented `x` and running `y`, skip the height of hidden items,
stop at collapsed items, and recurse into the children of an expanded
item; a hidden root is not evaluated but its children always are.
Returns the rebuilt item, the new `y` and the running maximum line
height. -/
def calcLevel (env : SizeEnv) (indent spacing : Int)
    (hideRoot varHeight : Bool) :
    Item → Nat → Int → Int → Item × Int × Int
  | .node f cs, level, y, lh =>
    if hideRoot && level == 0 then
      let r := calcLevelL env indent spacing hideRoot varHeight cs
        (level + 1) y lh
      (.node f r.1, r.2.1, r.2.2)
    else
      let x := (level : Int) * indent + (if hideRoot then 0 else indent)
      let s := calculateSizeF env 0 false lh f
      let f1 := { s.1 with x := x + spacing, y := y }
      if f1.hidden then (.node f1 cs, y, s.2.2)
      else
        let height := lineHeightOf varHeight s.2.2 f1
        let y1 := y + height
        if !isExpandedF f1 then (.node f1 cs, y1, s.2.2)
        else
          let r := calcLevelL env indent spacing hideRoot varHeight cs
            (level + 1) y1 s.2.2
          (.node f1 r.1, r.2.1, r.2.2)

/-- The child loop of `CalculateLevel`: thread `y` and the running line
height left to right. -/
def calcLevelL (env : SizeEnv) (indent spacing : Int)
    (hideRoot varHeight : Bool) :
    List Item → Nat → Int → Int → List Item × Int × Int
  | [], _, y, lh => ([], y, lh)
  | c :: cs, level, y, lh =>
    let r := calcLevel env indent spacing hideRoot varHeight c level y lh
    let rest := calcLevelL env indent spacing hideRoot varHeight cs
      level r.2.1 r.2.2
    (r.1 :: rest.1, rest.2.1, rest.2.2)

end

/-- The layout-relevant control state: the anchor tree, the freeze
counter (`_freezeCount`), the dirty flag (`_dirty`) and the uniform
line height (`_lineHeight`). -/
structure LState where
  anchor : Option Item
  freezeCount : Nat
  dirty : Bool
  lineHeight : Int

/-- `CustomTreeCtrl.CalculatePositions()`: nothing happens on an empty
tree; while frozen the control is only marked dirty (layout is CPU
intensive); otherwise the whole visible tree is repositioned starting at
`y = 2` and a `layout` event is recorded. -/
def calculatePositions (env : SizeEnv) (indent spacing : Int)
    (hideRoot varHeight : Bool) (st : LState) : LState × List LEvt :=
  match st.anchor with
  | none => (st, [])
  | some a =>
    if st.freezeCount != 0 then ({ st with dirty := true }, [])
    else
      let r := calcLevel env indent spacing hideRoot varHeight a 0 2
        st.lineHeight
      ({ st with anchor := some r.1, lineHeight := r.2.2 }, [LEvt.layout])

/-- Host-driven operations of the freeze/thaw scenario: `freeze` and
`thaw` adjust the reference count, `insert` is a `DoInsertItem` bulk
mutation, `idle` is one `OnInternalIdle` cycle, `calcPos` a direct
`CalculatePositions` call. -/
inductive LOp : Type where
  | freeze : LOp
  | thaw : LOp
  | insert : TPath → Nat → Nat → String → Nat → Bool → LOp
  | idle : LOp
  | calcPos : LOp

/-- One step of the layout state machine.  `thaw` on an unfrozen control
raises (`none`); the outermost `thaw` issues the deferred repaint;
`insert` marks the control dirty (`self._dirty = True` in
`DoInsertItem`); `idle` recomputes the layout and repaints only when the
control is dirty and not frozen (`OnInternalIdle`; its selection
bookkeeping touches only selection pointers and is omitted). -/
def runLOp (env : SizeEnv) (indent spacing : Int)
    (hideRoot varHeight : Bool) (st : LState) :
    LOp → Option (LState × List LEvt)
  | .freeze => some ({ st with freezeCount := st.freezeCount + 1 }, [])
  | .thaw =>
    if st.freezeCount == 0 then none
    else
      let fc := st.freezeCount - 1
      some ({ st with freezeCount := fc },
        if fc == 0 then [LEvt.refresh] else [])
  | .insert pp prev nid text ctype sep =>
    match st.anchor with
    | none => none
    | some a =>
      match doInsertItem a pp prev nid text ctype sep with
      | none => none
      | some a1 => some ({ st with anchor := some a1, dirty := true }, [])
  | .idle =>
    if !st.dirty then some (st, [])
    else if st.freezeCount != 0 then some (st, [])
    else
      let r := calculatePositions env indent spacing hideRoot varHeight
        { st with dirty := false }
      some (r.1, r.2 ++ [LEvt.refresh])
  | .calcPos =>
    some (calculatePositions env indent spacing hideRoot varHeight st)

/-- Run a sequence of layout operations, accumulating events; a raising
step aborts the run. -/
def runLOps (env : SizeEnv) (indent spacing : Int)
    (hideRoot varHeight : Bool) : LState → List LOp →
    Option (LState × List LEvt)
  | st, [] => some (st, [])
  | st, op :: ops =>
    match runLOp env indent spacing hideRoot varHeight st op with
    | none => none
    | some (st1, evts) =>
      match runLOps env indent spacing hideRoot varHeight st1 ops with
      | none => none
      | some (st2, evts2) => some (st2, evts ++ evts2)

mutual

/-- `CustomTreeCtrl.TagAllChildrenUntilLast(crt_item, last_item,
select)`: highlight the item, stop with `true` at the last item
(identified by id), otherwise descend depth-first. -/
def tagAll : Item → Nat → Bool → Item × Bool
  | .node f cs, lastId, select =>
    let f1 := { f with hilight := select }
    if f.id == lastId then (.node f1 cs, true)
    else
      let r := tagAllL cs lastId select
      (.node f1 r.1, r.2)

/-- The child loop of `TagAllChildrenUntilLast`: stop at the first child
whose subtree contained the last item. -/
def tagAllL : List Item → Nat → Bool → List Item × Bool
  | [], _, _ => ([], false)
  | c :: cs, lastId, select =>
    let rc := tagAll c lastId select
    if rc.2 then (rc.1 :: cs, true)
    else
      let rest := tagAllL cs lastId select
      (rc.1 :: rest.1, rest.2)

end

/-- `CustomTreeCtrl.TagNextChildren(crt_item, last_item, select)` on the
reversed address of the current item (the head of the reversed address
is the index of the item among its siblings): tag the younger siblings
of the item (each with its full subtree) until the last item is found,
then continue from the parent; at the root the source falls back to
`TagAllChildrenUntilLast(root)`. -/
def tagNextRev : Item → List Nat → Nat → Bool → Item × Bool
  | t, [], lastId, select => tagAll t lastId select
  | t, idx :: restRev, lastId, select =>
    let pp := restRev.reverse
    match getAt t pp with
    | none => (t, false)
    | some par =>
      let r := tagAllL (par.children.drop (idx + 1)) lastId select
      let t1 := setAt t pp (.node par.fld (par.children.take (idx + 1) ++ r.1))
      if r.2 then (t1, true) else tagNextRev t1 restRev lastId select

/-- `CustomTreeCtrl.TagNextChildren` for the item at address `p`. -/
def tagNext (t : Item) (p : TPath) (lastId : Nat) (select : Bool) :
    Item × Bool :=
  tagNextRev t p.reverse lastId select

/-- `CustomTreeCtrl.SelectItemRange(item1, item2)` for items at
addresses `p1`, `p2`: requires `TR_MULTIPLE` or `TR_EXTENDED` (else the
source raises, modelled as `none`); the earlier item by `GetY()` is the
start of the range; `curSelected` is `self._current.IsSelected()`, the
highlight value applied to the whole range. -/
def selectItemRange (t : Item) (p1 p2 : TPath) (curSelected : Bool)
    (multiple extended : Bool) : Option Item :=
  if !multiple && !extended then none
  else
    match getAt t p1, getAt t p2 with
    | some it1, some it2 =>
      let firstP := if it1.fld.y < it2.fld.y then p1 else p2
      let lastF := if it1.fld.y < it2.fld.y then it2.fld else it1.fld
      match getAt t firstP with
      | none => none
      | some fi =>
        let ra := tagAll fi lastF.id curSelected
        let t1 := setAt t firstP ra.1
        some (if ra.2 then t1
          else (tagNext t1 firstP lastF.id curSelected).1)
    | _, _ => none

/-- The space-key toggle of `CustomTreeCtrl.OnKeyDown`: for an enabled
check or radio item, the next state is `(state+1) % 3` for a 3-state
checkbox and the boolean negation otherwise, applied through
`CheckItem`. -/
def spaceToggle (t : Item) (p : TPath)
    (autoChild autoParent autoToggle : Bool) (orc : List Bool) :
    Item × List Evt × List Bool :=
  match getAt t p with
  | none => (t, [], orc)
  | some it =>
    if !(isEnabledF it.fld) then (t, [], orc)
    else if it.fld.ctype > 0 then
      let c := if it.fld.is3State then (getValueF it.fld + 1) % 3
        else (if isCheckedB it.fld then 0 else 1)
      checkItem t p c autoChild autoParent autoToggle orc
    else (t, [], orc)

/-- Operations allowed inside the frozen bulk-mutation region of the
freeze/thaw scenario: insertions and idle cycles. -/
def isBulkOp : LOp → Bool
  | .insert _ _ _ _ _ _ => true
  | .idle => true
  | _ => false

/-- Recognizer for insertion operations. -/
def isInsertOp : LOp → Bool
  | .insert _ _ _ _ _ _ => true
  | _ => false

/-- Concrete item record used by the witness scenarios. -/
def exF (nid ct ck : Nat) (en : Bool) : Fields :=
  { id := nid, text := "", ctype := ct, is3State := false, checked := ck,
    enabled := en, hidden := false, collapsed := true, hilight := false,
    hasPlus := false, separator := false, imgNormal := -1, imgSelected := -1,
    imgExpanded := -1, imgSelExpanded := -1, x := 0, y := 0, width := 0,
    height := 0 }

/-- Witness tree: a plain parent with two radio children, the second one
checked, each radio child holding one plain child of its own. -/
def exRadioTree : Item :=
  .node (exF 0 0 0 true)
    [.node (exF 1 2 0 true) [.node (exF 3 0 0 true) []],
     .node (exF 2 2 1 true) [.node (exF 4 0 0 false) []]]

/-- Witness tree: a root holding one 3-state checkbox child. -/
def ex3Tree : Item :=
  .node (exF 0 0 0 true)
    [.node { exF 5 1 0 true with is3State := true } []]

/-- Witness tree: an expanded zero-height root with one laid-out but
disabled child. -/
def exDisTree : Item :=
  .node { exF 0 0 0 true with collapsed := false }
    [.node { exF 2 0 0 false with y := 5, height := 10, width := 50 } []]

/-- Witness tree: an expanded root with one hidden child (itself marked
expanded) and one laid-out visible child. -/
def exHidTree : Item :=
  .node { exF 0 0 0 true with collapsed := false }
    [.node
      { exF 1 0 0 true with
        hidden := true, y := 5, height := 10, width := 50,
        collapsed := false } [],
     .node { exF 2 0 0 true with y := 5, height := 10, width := 50 } []]

/-- Witness tree: four plain nodes with laid-out `y` coordinates. -/
def exSelTree : Item :=
  .node { exF 0 0 0 true with y := 0 }
    [.node { exF 1 0 0 true with y := 10 }
      [.node { exF 2 0 0 true with y := 20 } []],
     .node { exF 3 0 0 true with y := 30 } []]

/-- Witness window environment. -/
def exW : WinEnv :=
  { sizeW := 100, sizeH := 100, scrollX := 0, scrollY := 0 }

/-- Witness hit-test environment. -/
def exHT : HTEnv :=
  { mac := false, hasButtons := false, spacing := 0, hideRoot := false,
    fullRow := false, varHeight := true, ctlLineHeight := 10,
    hasImages := false, imgWidth := fun _ => 0, chkWidth := fun _ => 0 }

/-- Witness visibility environment. -/
def exVis : VisEnv :=
  { viewStartX := 0, viewStartY := 0, clientW := 100, clientH := 100,
    varHeight := true, ctlLineHeight := 10 }

/-- Witness device-context environment. -/
def exSenv : SizeEnv :=
  { textW := fun _ => 20, textH := fun _ => 12, imgW := fun _ => 0,
    imgH := fun _ => 0, chkW := fun _ => 0, hasImages := false,
    clientW := 200 }

/-- A descendant address is blocked for an `EnableChildren(item, True)`
pass when some strict intermediate node on the way (a proper descendant
of the root argument that still has the addressed node strictly below
it) is an unchecked radio item: the source loop then skips the
recursive `EnableChildren` call under that node. -/
def blockedAlong : Item → TPath → Bool
  | _, [] => false
  | t, i :: q =>
    match t.children[i]? with
    | none => false
    | some c =>
      ((!q.isEmpty) && c.fld.ctype == 2 && !isCheckedB c.fld) ||
        blockedAlong c q

/-- Witness tree for the enable pass: a checked radio root with a
disabled plain child and a disabled unchecked radio child holding a
disabled grandchild. -/
def exC4Tree : Item :=
  .node (exF 10 2 1 true)
    [.node (exF 11 0 0 false) [],
     .node (exF 12 2 0 false) [.node (exF 13 0 0 false) []]]

/-- Depth-first (preorder) order on item addresses: an ancestor comes
before its descendants, and sibling subtrees are ordered by child
index.  This is the order in which `TagAllChildrenUntilLast` and
`TagNextChildren` visit the tree. -/
def dfsLe : TPath → TPath → Bool
  | [], _ => true
  | _ :: _, [] => false
  | a :: q1, b :: q2 =>
    if a < b then true else if b < a then false else dfsLe q1 q2

/-- Whether address `q` lies strictly after the whole subtree rooted at
address `a` in depth-first order: neither at or before `a`, nor inside
the subtree of `a`. -/
def afterSubB (a q : TPath) : Bool :=
  !(dfsLe q a) && !(a.isPrefixOf q)

/-- Restriction of an address predicate to the subtree at `p`: the
lifted predicate holds at `p ++ r` exactly when the original holds at
`r`, and nowhere else. -/
def liftP : TPath → (TPath → Bool) → TPath → Bool
  | [], ψ, q => ψ q
  | _ :: _, _, [] => false
  | i :: p', ψ, j :: q' => if i = j then liftP p' ψ q' else false

mutual

/-- Set the hilight flag to `sel` on every node whose address satisfies
`φ`, leaving all other fields and all other nodes untouched: the
reference transform the tagging sweep of `SelectItemRange` is proved
equal to. -/
def mapWhere (sel : Bool) (φ : TPath → Bool) : Item → Item
  | .node f cs =>
    .node (if φ [] then { f with hilight := sel } else f)
      (mapWhereL sel φ 0 cs)

/-- `mapWhere` on a forest, `i0` being the index of the first element
among its siblings. -/
def mapWhereL (sel : Bool) (φ : TPath → Bool) : Nat → List Item → List Item
  | _, [] => []
  | i, c :: rest =>
    mapWhere sel (fun r => φ (i :: r)) c :: mapWhereL sel φ (i + 1) rest

end

/-- Witness tree for the range selection: a root with three children,
the middle one carrying two grandchildren; `y` coordinates are laid out
in depth-first order. -/
def exC6Tree : Item :=
  .node { exF 20 0 0 true with y := 0 }
    [.node { exF 21 0 0 true with y := 10 } [],
     .node { exF 22 0 0 true with y := 20 }
       [.node { exF 23 0 0 true with y := 30 } [],
        .node { exF 24 0 0 true with y := 40 } []],
     .node { exF 25 0 0 true with y := 50 } []]

/-- Structural induction principle for `Item` (the nested `List Item`
occurrence keeps Lean from generating a usable one automatically). -/
theorem Item.strongInd (P : Item → Prop)
    (h : ∀ f cs, (∀ c ∈ cs, P c) → P (.node f cs)) : ∀ it, P it := by
  intro it
  have key : ∀ k (it : Item), sizeOf it ≤ k → P it := by
    intro k
    induction k with
    | zero =>
      intro it hle
      cases it with
      | node f cs => simp at hle
    | succ k ih =>
      intro it hle
      cases it with
      | node f cs =>
        apply h
        intro c hc
        apply ih
        have := List.sizeOf_lt_of_mem hc
        simp at hle
        omega
  exact key (sizeOf it) it le_rfl

theorem getAt_nil (it : Item) : getAt it [] = some it := rfl

theorem getAt_cons (t : Item) (i : Nat) (p : TPath) :
    getAt t (i :: p) =
      match t.children[i]? with
      | some c => getAt c p
      | none => none := rfl

theorem modifyAt_nil (g : Item → Item) (it : Item) :
    modifyAt g it [] = g it := rfl

theorem modifyAt_cons (g : Item → Item) (t : Item) (i : Nat) (p : TPath) :
    modifyAt g t (i :: p) =
      match t.children[i]? with
      | some c => .node t.fld (t.children.set i (modifyAt g c p))
      | none => t := rfl

theorem children_node (f : Fields) (cs : List Item) :
    (Item.node f cs).children = cs := rfl

theorem fld_node (f : Fields) (cs : List Item) :
    (Item.node f cs).fld = f := rfl

/-- Looking up the address just modified yields the transformed item. -/
theorem getAt_modifyAt_self (g : Item → Item) :
    ∀ (p : TPath) (t it : Item), getAt t p = some it →
      getAt (modifyAt g t p) p = some (g it) := by
  intro p
  induction p with
  | nil =>
    intro t it h
    simp [getAt] at h
    subst h
    rfl
  | cons i p ih =>
    intro t it h
    rw [getAt_cons] at h
    rw [modifyAt_cons]
    cases hc : t.children[i]? with
    | none => simp [hc] at h
    | some c =>
      simp only [hc] at h
      have hi : i < t.children.length := (List.getElem?_eq_some_iff.mp hc).1
      rw [getAt_cons]
      simp only [children_node]
      rw [List.getElem?_set_eq_of_lt _ (by simpa using hi)]
      exact ih c it h

theorem getAt_cons_some {t c : Item} {i : Nat} (hc : t.children[i]? = some c)
    (p : TPath) : getAt t (i :: p) = getAt c p := by
  rw [getAt_cons, hc]

theorem getAt_cons_none {t : Item} {i : Nat} (hc : t.children[i]? = none)
    (p : TPath) : getAt t (i :: p) = none := by
  rw [getAt_cons, hc]

theorem modifyAt_cons_some (g : Item → Item) {t c : Item} {i : Nat}
    (hc : t.children[i]? = some c) (p : TPath) :
    modifyAt g t (i :: p) = .node t.fld (t.children.set i (modifyAt g c p)) := by
  rw [modifyAt_cons, hc]

theorem modifyAt_cons_none (g : Item → Item) {t : Item} {i : Nat}
    (hc : t.children[i]? = none) (p : TPath) :
    modifyAt g t (i :: p) = t := by
  rw [modifyAt_cons, hc]

/-- Addresses compose: looking up a concatenated address chains the two
lookups. -/
theorem getAt_append : ∀ (q r : TPath) (t : Item),
    getAt t (q ++ r) = (getAt t q).bind (fun s => getAt s r) := by
  intro q
  induction q with
  | nil => intro r t; rfl
  | cons i q ih =>
    intro r t
    rw [List.cons_append, getAt_cons, getAt_cons]
    cases hc : t.children[i]? with
    | none => rfl
    | some c => exact ih r c

/-- Modification at a concatenated address factors through the front
address. -/
theorem modifyAt_append (g : Item → Item) : ∀ (q r : TPath) (t : Item),
    modifyAt g t (q ++ r) = modifyAt (fun s => modifyAt g s r) t q := by
  intro q
  induction q with
  | nil => intro r t; rfl
  | cons i q ih =>
    intro r t
    rw [List.cons_append, modifyAt_cons, modifyAt_cons]
    cases hc : t.children[i]? with
    | none => rfl
    | some c => simp only [ih r c]

/-- Two modifications at the same address compose. -/
theorem modifyAt_modifyAt (g1 g2 : Item → Item) : ∀ (p : TPath) (t : Item),
    modifyAt g1 (modifyAt g2 t p) p = modifyAt (fun s => g1 (g2 s)) t p := by
  intro p
  induction p with
  | nil => intro t; rfl
  | cons i p ih =>
    intro t
    cases hc : t.children[i]? with
    | none => rw [modifyAt_cons_none g2 hc, modifyAt_cons_none g1 hc,
        modifyAt_cons_none _ hc]
    | some c =>
      have hi : i < t.children.length := (List.getElem?_eq_some_iff.mp hc).1
      rw [modifyAt_cons_some g2 hc]
      have hc2 : (Item.node t.fld
          (t.children.set i (modifyAt g2 c p))).children[i]?
          = some (modifyAt g2 c p) := by
        simp only [children_node]
        exact List.getElem?_set_eq_of_lt _ (by simpa using hi)
      rw [modifyAt_cons_some g1 hc2, modifyAt_cons_some _ hc]
      simp only [children_node, fld_node, List.set_set, ih c]

/-- A modification at a non-root address keeps the root record. -/
theorem fld_modifyAt (g : Item → Item) (t : Item) (i : Nat) (p : TPath) :
    (modifyAt g t (i :: p)).fld = t.fld := by
  rw [modifyAt_cons]
  cases hc : t.children[i]? with
  | none => rfl
  | some c => rfl

/-- Sibling lookups are unaffected by setting another child. -/
theorem getAt_node_set_ne (f : Fields) (cs : List Item) (i j : Nat)
    (c : Item) (r : TPath) (hne : i ≠ j) :
    getAt (.node f (cs.set i c)) (j :: r) = getAt (.node f cs) (j :: r) := by
  rw [getAt_cons, getAt_cons]
  simp only [children_node]
  rw [List.getElem?_set_ne hne]

theorem testBit_true_ne_zero (i : Nat) {x : Nat} (h : x.testBit i = true) :
    x ≠ 0 := by
  rintro rfl
  simp at h

/-- The window-edge flag word computed by the prologue of
`CustomTreeCtrl.HitTest`. -/
theorem hitTest_of_flags_ne (wenv : WinEnv) (henv : HTEnv)
    (anchor : Option Item) (pt : Int × Int)
    (h : ((if pt.1 < 0 then TREE_HITTEST_TOLEFT else 0) |||
      (if pt.1 > wenv.sizeW then TREE_HITTEST_TORIGHT else 0) |||
      (if pt.2 < 0 then TREE_HITTEST_ABOVE else 0) |||
      (if pt.2 > wenv.sizeH then TREE_HITTEST_BELOW else 0)) ≠ 0) :
    hitTest wenv henv anchor pt =
      (none, (if pt.1 < 0 then TREE_HITTEST_TOLEFT else 0) |||
        (if pt.1 > wenv.sizeW then TREE_HITTEST_TORIGHT else 0) |||
        (if pt.2 < 0 then TREE_HITTEST_ABOVE else 0) |||
        (if pt.2 > wenv.sizeH then TREE_HITTEST_BELOW else 0)) := by
  simp only [hitTest]
  rw [if_pos]
  simpa using h

/-- Claim C5: for every point lying outside the client rectangle,
`CustomTreeCtrl.HitTest` returns no item together with at least one
directional flag (`TREE_HITTEST_TOLEFT`, `TORIGHT`, `ABOVE` or `BELOW`)
and never returns a node. -/
theorem claim_C5 (wenv : WinEnv) (henv : HTEnv) (anchor : Option Item)
    (pt : Int × Int)
    (hout : pt.1 < 0 ∨ pt.1 > wenv.sizeW ∨ pt.2 < 0 ∨ pt.2 > wenv.sizeH) :
    (hitTest wenv henv anchor pt).1 = none ∧
      ((hitTest wenv henv anchor pt).2 &&& TREE_HITTEST_TOLEFT ≠ 0 ∨
       (hitTest wenv henv anchor pt).2 &&& TREE_HITTEST_TORIGHT ≠ 0 ∨
       (hitTest wenv henv anchor pt).2 &&& TREE_HITTEST_ABOVE ≠ 0 ∨
       (hitTest wenv henv anchor pt).2 &&& TREE_HITTEST_BELOW ≠ 0) := by
  have hbit : ((if pt.1 < 0 then TREE_HITTEST_TOLEFT else 0) |||
      (if pt.1 > wenv.sizeW then TREE_HITTEST_TORIGHT else 0) |||
      (if pt.2 < 0 then TREE_HITTEST_ABOVE else 0) |||
      (if pt.2 > wenv.sizeH then TREE_HITTEST_BELOW else 0)).testBit 9 = true ∨
      ((if pt.1 < 0 then TREE_HITTEST_TOLEFT else 0) |||
      (if pt.1 > wenv.sizeW then TREE_HITTEST_TORIGHT else 0) |||
      (if pt.2 < 0 then TREE_HITTEST_ABOVE else 0) |||
      (if pt.2 > wenv.sizeH then TREE_HITTEST_BELOW else 0)).testBit 10 = true ∨
      ((if pt.1 < 0 then TREE_HITTEST_TOLEFT else 0) |||
      (if pt.1 > wenv.sizeW then TREE_HITTEST_TORIGHT else 0) |||
      (if pt.2 < 0 then TREE_HITTEST_ABOVE else 0) |||
      (if pt.2 > wenv.sizeH then TREE_HITTEST_BELOW else 0)).testBit 0 = true ∨
      ((if pt.1 < 0 then TREE_HITTEST_TOLEFT else 0) |||
      (if pt.1 > wenv.sizeW then TREE_HITTEST_TORIGHT else 0) |||
      (if pt.2 < 0 then TREE_HITTEST_ABOVE else 0) |||
      (if pt.2 > wenv.sizeH then TREE_HITTEST_BELOW else 0)).testBit 1 = true := by
    rcases hout with h | h | h | h
    · left
      have hc : (if pt.1 < 0 then TREE_HITTEST_TOLEFT else 0).testBit 9
          = true := by
        rw [if_pos h]; decide
      simp only [Nat.testBit_lor, hc, Bool.or_true, Bool.true_or]
    · right; left
      have hc : (if pt.1 > wenv.sizeW then TREE_HITTEST_TORIGHT else 0).testBit
          10 = true := by
        rw [if_pos h]; decide
      simp only [Nat.testBit_lor, hc, Bool.or_true, Bool.true_or]
    · right; right; left
      have hc : (if pt.2 < 0 then TREE_HITTEST_ABOVE else 0).testBit 0
          = true := by
        rw [if_pos h]; decide
      simp only [Nat.testBit_lor, hc, Bool.or_true, Bool.true_or]
    · right; right; right
      have hc : (if pt.2 > wenv.sizeH then TREE_HITTEST_BELOW else 0).testBit 1
          = true := by
        rw [if_pos h]; decide
      simp only [Nat.testBit_lor, hc, Bool.or_true, Bool.true_or]
  have hne : ((if pt.1 < 0 then TREE_HITTEST_TOLEFT else 0) |||
      (if pt.1 > wenv.sizeW then TREE_HITTEST_TORIGHT else 0) |||
      (if pt.2 < 0 then TREE_HITTEST_ABOVE else 0) |||
      (if pt.2 > wenv.sizeH then TREE_HITTEST_BELOW else 0)) ≠ 0 := by
    rcases hbit with h | h | h | h
    · exact testBit_true_ne_zero 9 h
    · exact testBit_true_ne_zero 10 h
    · exact testBit_true_ne_zero 0 h
    · exact testBit_true_ne_zero 1 h
  rw [hitTest_of_flags_ne wenv henv anchor pt hne]
  refine ⟨rfl, ?_⟩
  rcases hbit with h | h | h | h
  · left
    apply testBit_true_ne_zero 9
    rw [Nat.testBit_land, h]
    decide
  · right; left
    apply testBit_true_ne_zero 10
    rw [Nat.testBit_land, h]
    decide
  · right; right; left
    apply testBit_true_ne_zero 0
    rw [Nat.testBit_land, h]
    decide
  · right; right; right
    apply testBit_true_ne_zero 1
    rw [Nat.testBit_land, h]
    decide

theorem claim_C5_witness :
    ((-5 : Int) < 0 ∨ (-5 : Int) > (100 : Int) ∨ (20 : Int) < 0 ∨
      (20 : Int) > (100 : Int)) ∧
    ((hitTest { sizeW := 100, sizeH := 100, scrollX := 0, scrollY := 0 }
        { mac := false, hasButtons := false, spacing := 0, hideRoot := false,
          fullRow := false, varHeight := true, ctlLineHeight := 10,
          hasImages := false, imgWidth := fun _ => 0,
          chkWidth := fun _ => 0 } none ((-5 : Int), (20 : Int))).1 = none ∧
      ((hitTest { sizeW := 100, sizeH := 100, scrollX := 0, scrollY := 0 }
        { mac := false, hasButtons := false, spacing := 0, hideRoot := false,
          fullRow := false, varHeight := true, ctlLineHeight := 10,
          hasImages := false, imgWidth := fun _ => 0,
          chkWidth := fun _ => 0 } none ((-5 : Int), (20 : Int))).2 &&&
          TREE_HITTEST_TOLEFT ≠ 0 ∨
       (hitTest { sizeW := 100, sizeH := 100, scrollX := 0, scrollY := 0 }
        { mac := false, hasButtons := false, spacing := 0, hideRoot := false,
          fullRow := false, varHeight := true, ctlLineHeight := 10,
          hasImages := false, imgWidth := fun _ => 0,
          chkWidth := fun _ => 0 } none ((-5 : Int), (20 : Int))).2 &&&
          TREE_HITTEST_TORIGHT ≠ 0 ∨
       (hitTest { sizeW := 100, sizeH := 100, scrollX := 0, scrollY := 0 }
        { mac := false, hasButtons := false, spacing := 0, hideRoot := false,
          fullRow := false, varHeight := true, ctlLineHeight := 10,
          hasImages := false, imgWidth := fun _ => 0,
          chkWidth := fun _ => 0 } none ((-5 : Int), (20 : Int))).2 &&&
          TREE_HITTEST_ABOVE ≠ 0 ∨
       (hitTest { sizeW := 100, sizeH := 100, scrollX := 0, scrollY := 0 }
        { mac := false, hasButtons := false, spacing := 0, hideRoot := false,
          fullRow := false, varHeight := true, ctlLineHeight := 10,
          hasImages := false, imgWidth := fun _ => 0,
          chkWidth := fun _ => 0 } none ((-5 : Int), (20 : Int))).2 &&&
          TREE_HITTEST_BELOW ≠ 0)) :=
  ⟨by decide, claim_C5 _ _ none ((-5 : Int), (20 : Int)) (by decide)⟩

/-- The edge flag word is nonzero for a point outside the window. -/
theorem edge_flags_ne (wenv : WinEnv) (pt : Int × Int)
    (hout : pt.1 < 0 ∨ pt.1 > wenv.sizeW ∨ pt.2 < 0 ∨ pt.2 > wenv.sizeH) :
    ((if pt.1 < 0 then TREE_HITTEST_TOLEFT else 0) |||
      (if pt.1 > wenv.sizeW then TREE_HITTEST_TORIGHT else 0) |||
      (if pt.2 < 0 then TREE_HITTEST_ABOVE else 0) |||
      (if pt.2 > wenv.sizeH then TREE_HITTEST_BELOW else 0)) ≠ 0 := by
  rcases hout with h | h | h | h
  · apply testBit_true_ne_zero 9
    have hc : (if pt.1 < 0 then TREE_HITTEST_TOLEFT else 0).testBit 9
        = true := by
      rw [if_pos h]; decide
    simp only [Nat.testBit_lor, hc, Bool.or_true, Bool.true_or]
  · apply testBit_true_ne_zero 10
    have hc : (if pt.1 > wenv.sizeW then TREE_HITTEST_TORIGHT else 0).testBit 10
        = true := by
      rw [if_pos h]; decide
    simp only [Nat.testBit_lor, hc, Bool.or_true, Bool.true_or]
  · apply testBit_true_ne_zero 0
    have hc : (if pt.2 < 0 then TREE_HITTEST_ABOVE else 0).testBit 0
        = true := by
      rw [if_pos h]; decide
    simp only [Nat.testBit_lor, hc, Bool.or_true, Bool.true_or]
  · apply testBit_true_ne_zero 1
    have hc : (if pt.2 > wenv.sizeH then TREE_HITTEST_BELOW else 0).testBit 1
        = true := by
      rw [if_pos h]; decide
    simp only [Nat.testBit_lor, hc, Bool.or_true, Bool.true_or]

/-- `CustomTreeCtrl.HitTest` only ever returns enabled items: a hit on a
disabled item is converted to `None` by the `IsItemEnabled` guard. -/
theorem hitTest_some_enabled (wenv : WinEnv) (henv : HTEnv)
    (anchor : Option Item) (pt : Int × Int) (hit2 : Item) (fl2 : Nat)
    (h : hitTest wenv henv anchor pt = (some hit2, fl2)) :
    isEnabledF hit2.fld = true := by
  by_cases h1 : pt.1 < 0
  · rw [hitTest_of_flags_ne wenv henv anchor pt
      (edge_flags_ne wenv pt (Or.inl h1))] at h
    simp at h
  by_cases h2 : pt.1 > wenv.sizeW
  · rw [hitTest_of_flags_ne wenv henv anchor pt
      (edge_flags_ne wenv pt (Or.inr (Or.inl h2)))] at h
    simp at h
  by_cases h3 : pt.2 < 0
  · rw [hitTest_of_flags_ne wenv henv anchor pt
      (edge_flags_ne wenv pt (Or.inr (Or.inr (Or.inl h3))))] at h
    simp at h
  by_cases h4 : pt.2 > wenv.sizeH
  · rw [hitTest_of_flags_ne wenv henv anchor pt
      (edge_flags_ne wenv pt (Or.inr (Or.inr (Or.inr h4))))] at h
    simp at h
  have h0 : ((if pt.1 < 0 then TREE_HITTEST_TOLEFT else 0) |||
      (if pt.1 > wenv.sizeW then TREE_HITTEST_TORIGHT else 0) |||
      (if pt.2 < 0 then TREE_HITTEST_ABOVE else 0) |||
      (if pt.2 > wenv.sizeH then TREE_HITTEST_BELOW else 0)) = 0 := by
    rw [if_neg h1, if_neg h2, if_neg h3, if_neg h4]
    decide
  simp only [hitTest, h0] at h
  rw [if_neg (by decide)] at h
  cases anchor with
  | none => simp at h
  | some a =>
    dsimp only at h
    cases hr : hitTestItem henv (pt.1 + wenv.scrollX, pt.2 + wenv.scrollY)
        a 0 0 with
    | mk o fl =>
      rw [hr] at h
      cases o with
      | none => simp at h
      | some hh =>
        dsimp only at h
        by_cases he : isEnabledF hh.fld
        · rw [he] at h
          simp at h
          rw [← h.1]
          exact he
        · simp only [Bool.not_eq_true] at he
          rw [he] at h
          simp at h

/-- Claim C10: when the item-level hit test resolves the point to a
disabled item, the public `CustomTreeCtrl.HitTest` returns `None`
together with the region flags computed for that item, and more
generally a disabled node is never returned. -/
theorem claim_C10 (wenv : WinEnv) (henv : HTEnv) (a : Item)
    (pt : Int × Int) (hit : Item) (fl : Nat)
    (hin : ¬(pt.1 < 0) ∧ ¬(pt.1 > wenv.sizeW) ∧ ¬(pt.2 < 0) ∧
      ¬(pt.2 > wenv.sizeH))
    (hraw : hitTestItem henv (pt.1 + wenv.scrollX, pt.2 + wenv.scrollY) a 0 0
      = (some hit, fl))
    (hdis : isEnabledF hit.fld = false) :
    hitTest wenv henv (some a) pt = (none, fl) ∧
      ∀ (anchor : Option Item) (q : Int × Int) (hit2 : Item) (fl2 : Nat),
        hitTest wenv henv anchor q = (some hit2, fl2) →
        isEnabledF hit2.fld = true := by
  constructor
  · have h0 : ((if pt.1 < 0 then TREE_HITTEST_TOLEFT else 0) |||
        (if pt.1 > wenv.sizeW then TREE_HITTEST_TORIGHT else 0) |||
        (if pt.2 < 0 then TREE_HITTEST_ABOVE else 0) |||
        (if pt.2 > wenv.sizeH then TREE_HITTEST_BELOW else 0)) = 0 := by
      rw [if_neg hin.1, if_neg hin.2.1, if_neg hin.2.2.1, if_neg hin.2.2.2]
      decide
    simp only [hitTest, h0]
    rw [if_neg (by decide)]
    rw [hraw]
    dsimp only
    rw [hdis]
    simp
  · intro anchor q hit2 fl2 h
    exact hitTest_some_enabled wenv henv anchor q hit2 fl2 h

theorem claim_C10_witness :
    hitTest exW exHT (some exDisTree) (1, 8) = (none, 2112) ∧
      ∀ (anchor : Option Item) (q : Int × Int) (hit2 : Item) (fl2 : Nat),
        hitTest exW exHT anchor q = (some hit2, fl2) →
        isEnabledF hit2.fld = true :=
  claim_C10 exW exHT exDisTree (1, 8)
    (.node { exF 2 0 0 false with y := 5, height := 10, width := 50 } []) 2112
    (by decide) rfl (by decide)

/-- Unfolding of the checkbox branch of `CheckItem` without automatic
propagation flags and without a veto: the item record is updated through
`Set3StateValue`/`Check` and the checking/checked pair is fired. -/
theorem checkItem_checkbox (t : Item) (p : TPath) (c : Nat)
    (orc : List Bool) (it : Item) (hget : getAt t p = some it)
    (hty : it.fld.ctype = 1) (hveto : orc.headD false = false) :
    checkItem t p c false false false orc =
      (modifyAt (fun x => .node
        (if x.fld.is3State then set3StateValueF x.fld c else checkF x.fld c)
        x.children) t p,
       [.checking it.fld.id, .checked it.fld.id], orc.tail) := by
  unfold checkItem
  rw [hget]
  dsimp only
  rw [hty, hveto]
  simp

/-- Unfolding of the space-key toggle for an enabled 3-state checkbox
with no propagation flags and no veto. -/
theorem spaceToggle_3state (t : Item) (p : TPath) (orc : List Bool)
    (it : Item) (hget : getAt t p = some it) (hty : it.fld.ctype = 1)
    (h3 : it.fld.is3State = true) (hen : isEnabledF it.fld = true)
    (hveto : orc.headD false = false) :
    spaceToggle t p false false false orc =
      (modifyAt (fun x => .node
        (if x.fld.is3State then
          set3StateValueF x.fld ((it.fld.checked + 1) % 3)
        else checkF x.fld ((it.fld.checked + 1) % 3)) x.children) t p,
       [.checking it.fld.id, .checked it.fld.id], orc.tail) := by
  unfold spaceToggle
  rw [hget]
  dsimp only
  rw [hen, hty, h3]
  have hcc := checkItem_checkbox t p ((it.fld.checked + 1) % 3) orc it hget
    hty hveto
  simpa [getValueF] using hcc

/-- One toggle of an enabled 3-state checkbox advances its state to
`(state+1) % 3` and leaves the rest of its record and its children
untouched. -/
theorem spaceToggle_3state_state (t : Item) (p : TPath) (it : Item)
    (hget : getAt t p = some it) (hty : it.fld.ctype = 1)
    (h3 : it.fld.is3State = true) (hen : isEnabledF it.fld = true) :
    getAt (spaceToggle t p false false false []).1 p =
      some (.node { it.fld with checked := (it.fld.checked + 1) % 3 }
        it.children) ∧
    (spaceToggle t p false false false []).2.1 =
      [.checking it.fld.id, .checked it.fld.id] := by
  rw [spaceToggle_3state t p [] it hget hty h3 hen rfl]
  refine ⟨?_, rfl⟩
  rw [getAt_modifyAt_self _ p t it hget]
  rw [h3]
  simp [set3StateValueF]

/-- Claim C7: three successive space toggles of an unchecked enabled
3-state checkbox (each computing the next state as `(state+1) % 3` and
applying it through `CheckItem`, with no `EVT_TREE_ITEM_CHECKING` veto
and no automatic propagation styles) cycle its state
`CHK_UNCHECKED → CHK_CHECKED → CHK_UNDETERMINED → CHK_UNCHECKED`. -/
theorem claim_C7 (t : Item) (p : TPath) (it : Item)
    (hget : getAt t p = some it) (hty : it.fld.ctype = 1)
    (h3 : it.fld.is3State = true) (hen : isEnabledF it.fld = true)
    (hck : it.fld.checked = CHK_UNCHECKED) :
    fieldsAt (spaceToggle t p false false false []).1 p =
      some { it.fld with checked := CHK_CHECKED } ∧
    fieldsAt (spaceToggle (spaceToggle t p false false false []).1
        p false false false []).1 p =
      some { it.fld with checked := CHK_UNDETERMINED } ∧
    fieldsAt (spaceToggle (spaceToggle (spaceToggle t p false false false []).1
        p false false false []).1 p false false false []).1 p =
      some { it.fld with checked := CHK_UNCHECKED } := by
  obtain ⟨hg1, -⟩ := spaceToggle_3state_state t p it hget hty h3 hen
  rw [hck] at hg1
  have e1 : (CHK_UNCHECKED + 1) % 3 = CHK_CHECKED := by decide
  rw [e1] at hg1
  set it1 : Item :=
    .node { it.fld with checked := CHK_CHECKED } it.children with hit1
  have hty1 : it1.fld.ctype = 1 := by simp [hit1, fld_node]; exact hty
  have h31 : it1.fld.is3State = true := by simp [hit1, fld_node]; exact h3
  have hen1 : isEnabledF it1.fld = true := by
    simp only [hit1, fld_node, isEnabledF] at *
    exact hen
  obtain ⟨hg2, -⟩ := spaceToggle_3state_state _ p it1 hg1 hty1 h31 hen1
  have e2 : (it1.fld.checked + 1) % 3 = CHK_UNDETERMINED := by
    simp [hit1, fld_node]
    decide
  rw [e2] at hg2
  have hch2 : (Item.node { it1.fld with checked := CHK_UNDETERMINED }
      it1.children) = .node { it.fld with checked := CHK_UNDETERMINED }
      it.children := by
    simp [hit1, fld_node, children_node]
  rw [hch2] at hg2
  set it2 : Item :=
    .node { it.fld with checked := CHK_UNDETERMINED } it.children with hit2
  have hty2 : it2.fld.ctype = 1 := by simp [hit2, fld_node]; exact hty
  have h32 : it2.fld.is3State = true := by simp [hit2, fld_node]; exact h3
  have hen2 : isEnabledF it2.fld = true := by
    simp only [hit2, fld_node, isEnabledF] at *
    exact hen
  obtain ⟨hg3, -⟩ := spaceToggle_3state_state _ p it2 hg2 hty2 h32 hen2
  have e3 : (it2.fld.checked + 1) % 3 = CHK_UNCHECKED := by
    simp [hit2, fld_node]
    decide
  rw [e3] at hg3
  have hch3 : (Item.node { it2.fld with checked := CHK_UNCHECKED }
      it2.children) = .node { it.fld with checked := CHK_UNCHECKED }
      it.children := by
    simp [hit2, fld_node, children_node]
  rw [hch3] at hg3
  refine ⟨?_, ?_, ?_⟩
  · rw [fieldsAt, hg1, hit1]
    simp [fld_node]
  · rw [fieldsAt, hg2, hit2]
    simp [fld_node]
  · rw [fieldsAt, hg3]
    simp [fld_node]

theorem claim_C7_witness :
    fieldsAt (spaceToggle ex3Tree [0] false false false []).1 [0] =
      some { { exF 5 1 0 true with is3State := true } with
        checked := CHK_CHECKED } ∧
    fieldsAt (spaceToggle (spaceToggle ex3Tree [0] false false false []).1
        [0] false false false []).1 [0] =
      some { { exF 5 1 0 true with is3State := true } with
        checked := CHK_UNDETERMINED } ∧
    fieldsAt (spaceToggle (spaceToggle
        (spaceToggle ex3Tree [0] false false false []).1
        [0] false false false []).1 [0] false false false []).1 [0] =
      some { { exF 5 1 0 true with is3State := true } with
        checked := CHK_UNCHECKED } :=
  claim_C7 ex3Tree [0] (.node { exF 5 1 0 true with is3State := true } [])
    rfl (by decide) (by decide) (by decide) (by decide)

/-- The top record of `EnableChildren` is the record of its argument. -/
theorem enableChildren_fld (it : Item) (e : Bool) :
    (enableChildren it e).fld = it.fld := by
  unfold enableChildren
  split
  · rfl
  · rfl

/-- Unfolding of the radio branch of `CheckItem` (the automatic
propagation flags play no role there): the vetoable checking event
concerns the item itself; on success the item state is stored, its
children are enabled or disabled by `UnCheckRadioParent`, the checked
event fires and `CheckSameLevel` silently handles the siblings. -/
theorem checkItem_radio (t : Item) (p : TPath) (c : Nat) (orc : List Bool)
    (aC aP aT : Bool) (it : Item) (hget : getAt t p = some it)
    (hty : it.fld.ctype = 2)
    (hno : (c == 0 && isCheckedB it.fld) = false) :
    checkItem t p c aC aP aT orc =
      if orc.headD false then (t, [Evt.checking it.fld.id], orc.tail)
      else (checkSameLevel
        (modifyAt (fun x => enableChildren (.node (checkF x.fld c) x.children)
          (c != 0)) t p) p 0,
        [Evt.checking it.fld.id, Evt.checked it.fld.id], orc.tail) := by
  unfold checkItem
  rw [hget]
  dsimp only
  rw [hty, hno]
  unfold unCheckRadioParent
  rw [hget]
  dsimp only
  simp only [List.headD_eq_head?]
  by_cases hv : orc.head?.getD false
  · simp [hv]
  · simp only [Bool.not_eq_true] at hv
    simp [hv]

/-- `CheckSameLevel` on a non-root address is a local rewrite of the
parent children list. -/
theorem checkSameLevel_concat (t : Item) (q : TPath) (i : Nat) (c : Nat) :
    checkSameLevel t (q ++ [i]) c =
      modifyAt (fun par => .node par.fld
        (checkSameLevelL par.children 0 i c)) t q := by
  unfold checkSameLevel
  have hne : q ++ [i] ≠ [] := by simp
  cases hq : q ++ [i] with
  | nil => exact absurd hq hne
  | cons a l =>
    rw [← hq, List.dropLast_concat, List.getLastD_concat, hq]

/-- Elementwise description of the `CheckSameLevel` sibling loop. -/
theorem checkSameLevelL_getElem : ∀ (cs : List Item) (j0 i c j : Nat),
    (checkSameLevelL cs j0 i c)[j]? = (cs[j]?).map (fun ch =>
      if ch.fld.ctype == 2 && (j0 + j) != i then
        enableChildren (.node (checkItem2F ch.fld c) ch.children) (c != 0)
      else ch) := by
  intro cs
  induction cs with
  | nil => intro j0 i c j; simp [checkSameLevelL]
  | cons ch rest ih =>
    intro j0 i c j
    cases j with
    | zero => simp [checkSameLevelL]
    | succ j =>
      simp only [checkSameLevelL, List.getElem?_cons_succ, ih (j0 + 1) i c j]
      have : j0 + 1 + j = j0 + (j + 1) := by omega
      rw [this]

/-- Claim C2, counterexample to the stated order and cancelability: in
`exRadioTree` the checked radio peer (id 2) is unchecked by
`CheckItem` on its sibling (id 1), yet the only events fired are the
checking/checked pair for the target itself — no vetoable checking
notification is dispatched for the peer, and no event at all precedes
the target's own check. -/
theorem claim_C2_counterexample :
    (fieldsAt exRadioTree [1]).map Fields.checked = some CHK_CHECKED ∧
    (fieldsAt (checkItem exRadioTree [0] 1 false false false []).1 [1]).map
      Fields.checked = some CHK_UNCHECKED ∧
    (checkItem exRadioTree [0] 1 false false false []).2.1 =
      [Evt.checking 1, Evt.checked 1] ∧
    Evt.checking 2 ∉ (checkItem exRadioTree [0] 1 false false false []).2.1
    := by
  refine ⟨by decide, by decide, by decide, by decide⟩

/-- Claim C2 (amended): checking a radio item fires one vetoable
checking notification, for the target item itself; a veto aborts with
no state change.  Otherwise the target is checked, its subtree is
enabled or disabled by the new state (`EnableChildren`, characterised in
C4), a checked notification fires for the target, and only then does
`CheckSameLevel` silently uncheck every peer radio sibling and disable
its subtree, with no per-peer notification; non-radio siblings are
untouched. -/
theorem claim_C2 (t : Item) (q : TPath) (i : Nat) (c : Nat)
    (orc : List Bool) (aC aP aT : Bool) (par it : Item)
    (hpar : getAt t q = some par) (hch : par.children[i]? = some it)
    (hty : it.fld.ctype = 2)
    (hno : (c == 0 && isCheckedB it.fld) = false) :
    (orc.headD false = true →
      checkItem t (q ++ [i]) c aC aP aT orc =
        (t, [Evt.checking it.fld.id], orc.tail)) ∧
    (orc.headD false = false →
      (checkItem t (q ++ [i]) c aC aP aT orc).2.1 =
        [Evt.checking it.fld.id, Evt.checked it.fld.id] ∧
      (checkItem t (q ++ [i]) c aC aP aT orc).2.2 = orc.tail ∧
      getAt (checkItem t (q ++ [i]) c aC aP aT orc).1 (q ++ [i]) =
        some (enableChildren (.node (checkF it.fld c) it.children)
          (c != 0)) ∧
      fieldsAt (checkItem t (q ++ [i]) c aC aP aT orc).1 (q ++ [i]) =
        some { it.fld with checked := c } ∧
      (∀ j ch, j ≠ i → par.children[j]? = some ch → ch.fld.ctype = 2 →
        getAt (checkItem t (q ++ [i]) c aC aP aT orc).1 (q ++ [j]) =
          some (enableChildren (.node (checkF ch.fld 0) ch.children)
            false) ∧
        fieldsAt (checkItem t (q ++ [i]) c aC aP aT orc).1 (q ++ [j]) =
          some { ch.fld with checked := 0 }) ∧
      (∀ j ch, j ≠ i → par.children[j]? = some ch → ch.fld.ctype ≠ 2 →
        getAt (checkItem t (q ++ [i]) c aC aP aT orc).1 (q ++ [j]) =
          some ch)) := by
  have hget : getAt t (q ++ [i]) = some it := by
    rw [getAt_append, hpar]
    show getAt par [i] = some it
    rw [getAt_cons_some hch]
    rfl
  have hrw := checkItem_radio t (q ++ [i]) c orc aC aP aT it hget hty hno
  constructor
  · intro hv
    rw [hrw, if_pos hv]
  · intro hv
    have hv2 : ¬(orc.headD false = true) := by rw [hv]; simp
    rw [hrw, if_neg hv2]
    refine ⟨rfl, rfl, ?_⟩
    set g : Item → Item := fun x =>
      enableChildren (.node (checkF x.fld c) x.children) (c != 0) with hg
    have hi : i < par.children.length := (List.getElem?_eq_some_iff.mp hch).1
    have hstep : checkSameLevel (modifyAt g t (q ++ [i])) (q ++ [i]) 0 =
        modifyAt (fun s => .node (modifyAt g s [i]).fld
          (checkSameLevelL (modifyAt g s [i]).children 0 i 0)) t q := by
      rw [modifyAt_append g q [i] t, checkSameLevel_concat, modifyAt_modifyAt]
    have hGpar : modifyAt g par [i] =
        .node par.fld (par.children.set i (g it)) := by
      rw [modifyAt_cons_some g hch, modifyAt_nil]
    have hroot : getAt (checkSameLevel (modifyAt g t (q ++ [i]))
        (q ++ [i]) 0) q = some (.node par.fld
          (checkSameLevelL (par.children.set i (g it)) 0 i 0)) := by
      rw [hstep, getAt_modifyAt_self _ q t par hpar, hGpar]
      rfl
    have hAt : ∀ j : Nat, getAt (checkSameLevel (modifyAt g t (q ++ [i]))
        (q ++ [i]) 0) (q ++ [j]) =
          ((par.children.set i (g it))[j]?).map (fun ch =>
            if ch.fld.ctype == 2 && (0 + j) != i then
              enableChildren (.node (checkItem2F ch.fld 0) ch.children)
                ((0 : Nat) != 0)
            else ch) := by
      intro j
      rw [getAt_append, hroot]
      show getAt (Item.node par.fld
        (checkSameLevelL (par.children.set i (g it)) 0 i 0)) (j :: []) = _
      rw [getAt_cons, children_node, checkSameLevelL_getElem]
      cases ((par.children.set i (g it))[j]?) with
      | none => rfl
      | some ch => rfl
    have htop : getAt (checkSameLevel (modifyAt g t (q ++ [i]))
        (q ++ [i]) 0) (q ++ [i]) = some (g it) := by
      rw [hAt i]
      rw [List.getElem?_set_eq_of_lt _ hi]
      have hcond : ((g it).fld.ctype == 2 && (0 + i) != i) = false := by
        simp
      rw [Option.map_some']
      rw [hcond]
      simp
    refine ⟨htop, ?_, ?_, ?_⟩
    · rw [fieldsAt, htop]
      simp only [Option.map_some', hg]
      rw [enableChildren_fld]
      rfl
    · intro j ch hne hchj htyj
      have hj : getAt (checkSameLevel (modifyAt g t (q ++ [i]))
          (q ++ [i]) 0) (q ++ [j]) =
          some (enableChildren (.node (checkF ch.fld 0) ch.children)
            false) := by
        rw [hAt j, List.getElem?_set_ne (fun h => hne h.symm), hchj]
        have hcond : (ch.fld.ctype == 2 && (0 + j) != i) = true := by
          simp [htyj]
          omega
        rw [Option.map_some', hcond]
        have h2f : checkItem2F ch.fld 0 = checkF ch.fld 0 := by
          unfold checkItem2F
          rw [if_neg]
          simp [htyj]
        rw [if_pos rfl, h2f]
        rfl
      refine ⟨hj, ?_⟩
      rw [fieldsAt, hj]
      simp only [Option.map_some']
      rw [enableChildren_fld]
      rfl
    · intro j ch hne hchj htyj
      rw [hAt j, List.getElem?_set_ne (fun h => hne h.symm), hchj]
      have hcond : (ch.fld.ctype == 2 && (0 + j) != i) = false := by
        simp [htyj]
      rw [Option.map_some', hcond]
      simp

theorem claim_C2_witness :
    (checkItem exRadioTree ([] ++ [0]) 1 false false false []).2.1 =
      [Evt.checking 1, Evt.checked 1] ∧
    fieldsAt (checkItem exRadioTree ([] ++ [0]) 1 false false false []).1
      ([] ++ [0]) = some { exF 1 2 0 true with checked := 1 } := by
  have h := (claim_C2 exRadioTree [] 0 1 [] false false false exRadioTree
    (.node (exF 1 2 0 true) [.node (exF 3 0 0 true) []]) rfl rfl
    (by decide) (by decide)).2 rfl
  exact ⟨h.1, h.2.2.2.1⟩

/-- A successful hit in the child loop comes from one child. -/
theorem hitTestItemL_split (env : HTEnv) (pt : Int × Int) :
    ∀ (cs : List Item) (flags level : Nat) (hit : Item) (fl : Nat),
      hitTestItemL env pt cs flags level = (some hit, fl) →
      ∃ (i : Nat) (c : Item) (flags2 : Nat), cs[i]? = some c ∧
        hitTestItem env pt c flags2 level = (some hit, fl) := by
  intro cs
  induction cs with
  | nil =>
    intro flags level hit fl h
    simp [hitTestItemL] at h
  | cons c rest ih =>
    intro flags level hit fl h
    unfold hitTestItemL at h
    cases hc : hitTestItem env pt c flags level with
    | mk o fl2 =>
      rw [hc] at h
      cases o with
      | some r =>
        dsimp only at h
        refine ⟨0, c, flags, List.getElem?_cons_zero, ?_⟩
        rw [hc]
        rw [Prod.mk.injEq] at h
        rw [h.1, h.2]
      | none =>
        dsimp only at h
        obtain ⟨i, c2, flags2, hci, hcall⟩ := ih fl2 level hit fl h
        exact ⟨i + 1, c2, flags2, by simpa using hci, hcall⟩

/-- `GenericTreeItem.HitTest` only returns items whose whole access path
(including the item itself) is un-hidden: a hidden item and its entire
subtree are skipped. -/
theorem hitTestItem_unhidden_path (env : HTEnv) (pt : Int × Int) :
    ∀ (t : Item) (flags level : Nat) (hit : Item) (fl : Nat),
      hitTestItem env pt t flags level = (some hit, fl) →
      ∃ qp : TPath, getAt t qp = some hit ∧
        ∀ r : TPath, r <+: qp →
          ∃ n, getAt t r = some n ∧ n.fld.hidden = false := by
  apply Item.strongInd (fun t => ∀ (flags level : Nat) (hit : Item)
    (fl : Nat), hitTestItem env pt t flags level = (some hit, fl) →
    ∃ qp : TPath, getAt t qp = some hit ∧
      ∀ r : TPath, r <+: qp →
        ∃ n, getAt t r = some n ∧ n.fld.hidden = false)
  intro f cs ih flags level hit fl hres
  unfold hitTestItem at hres
  by_cases hh : f.hidden
  · rw [if_pos hh] at hres
    simp at hres
  rw [if_neg hh] at hres
  have hchild : ∀ flags2 : Nat,
      hitTestItemL env pt cs flags2 (level + 1) = (some hit, fl) →
      ∃ qp : TPath, getAt (.node f cs) qp = some hit ∧
        ∀ r : TPath, r <+: qp →
          ∃ n, getAt (.node f cs) r = some n ∧ n.fld.hidden = false := by
    intro flags2 hL
    obtain ⟨i, c, flags3, hci, hcall⟩ := hitTestItemL_split env pt cs
      flags2 (level + 1) hit fl hL
    have hmem : c ∈ cs := List.getElem?_mem hci
    obtain ⟨qp, hq, hpref⟩ := ih c hmem flags3 (level + 1) hit fl hcall
    have hci2 : (Item.node f cs).children[i]? = some c := hci
    refine ⟨i :: qp, ?_, ?_⟩
    · rw [getAt_cons_some hci2, hq]
    · intro r hr
      cases r with
      | nil =>
        refine ⟨.node f cs, rfl, ?_⟩
        simpa using hh
      | cons j r2 =>
        obtain ⟨hj, hr2⟩ := List.cons_prefix_cons.mp hr
        subst hj
        obtain ⟨n, hn, hnh⟩ := hpref r2 hr2
        refine ⟨n, ?_, hnh⟩
        rw [getAt_cons_some hci2, hn]
  by_cases hroot : (level == 0 && env.hideRoot)
  · rw [if_neg (by simp [hroot])] at hres
    exact hchild flags hres
  · rw [if_pos (by simp at hroot ⊢; tauto)] at hres
    by_cases hspan : pt.2 > f.y ∧
        pt.2 < f.y + lineHeightOf env.varHeight env.ctlLineHeight f
    · rw [if_pos (by simp [hspan.1, hspan.2])] at hres
      rw [Prod.mk.injEq] at hres
      refine ⟨[], ?_, ?_⟩
      · rw [getAt_nil, hres.1]
      · intro r hr
        rw [List.prefix_nil.mp hr]
        refine ⟨.node f cs, rfl, ?_⟩
        simpa using hh
    · rw [if_neg (by simpa using hspan)] at hres
      by_cases hexp : isExpandedF f
      · rw [if_neg (by simp [hexp])] at hres
        exact hchild flags hres
      · rw [if_pos (by simpa using hexp)] at hres
        simp at hres

/-- Claim C3: for a hidden item, regardless of its expand state,
`IsVisible` returns false; the item-level `HitTest` skips the item and
its whole subtree (returning no item and the incoming flags), and in
general any returned item sits on a fully un-hidden access path; and an
unfrozen layout pass (`CalculateSize`) assigns the item height `0`. -/
theorem claim_C3 (venv : VisEnv) (senv : SizeEnv) (env : HTEnv)
    (pt : Int × Int) (t : Item) (p : TPath) (it : Item)
    (flags level : Nat) (dirty : Bool) (lh : Int)
    (hget : getAt t p = some it) (hhid : it.fld.hidden = true) :
    isVisible venv t p = false ∧
    hitTestItem env pt it flags level = (none, flags) ∧
    (∀ (t2 : Item) (flags2 level2 : Nat) (hit : Item) (fl : Nat),
      hitTestItem env pt t2 flags2 level2 = (some hit, fl) →
      ∃ qp : TPath, getAt t2 qp = some hit ∧
        ∀ r : TPath, r <+: qp →
          ∃ n, getAt t2 r = some n ∧ n.fld.hidden = false) ∧
    (calculateSizeF senv 0 dirty lh it.fld).1.height = 0 := by
  refine ⟨?_, ?_, ?_, ?_⟩
  · unfold isVisible
    rw [hget]
    dsimp only
    rw [hhid]
    simp
  · cases it with
    | node f cs =>
      rw [fld_node] at hhid
      unfold hitTestItem
      rw [if_pos hhid]
  · intro t2 flags2 level2 hit fl h
    exact hitTestItem_unhidden_path env pt t2 flags2 level2 hit fl h
  · unfold calculateSizeF
    rw [if_neg (by decide)]
    rw [if_pos hhid]

theorem claim_C3_witness :
    isVisible exVis exHidTree [0] = false ∧
    hitTestItem exHT (1, 8)
      (.node
        { exF 1 0 0 true with
          hidden := true, y := 5, height := 10, width := 50,
          collapsed := false } []) 0 1 = (none, 0) ∧
    (∀ (t2 : Item) (flags2 level2 : Nat) (hit : Item) (fl : Nat),
      hitTestItem exHT (1, 8) t2 flags2 level2 = (some hit, fl) →
      ∃ qp : TPath, getAt t2 qp = some hit ∧
        ∀ r : TPath, r <+: qp →
          ∃ n, getAt t2 r = some n ∧ n.fld.hidden = false) ∧
    (calculateSizeF exSenv 0 false 0
      (Item.node
        { exF 1 0 0 true with
          hidden := true, y := 5, height := 10, width := 50,
          collapsed := false } []).fld).1.height = 0 :=
  claim_C3 exVis exSenv exHT (1, 8) exHidTree [0]
    (.node
      { exF 1 0 0 true with
        hidden := true, y := 5, height := 10, width := 50,
        collapsed := false } []) 0 1 false 0 rfl (by decide)

/-- Running a concatenation of layout operations splits into the two
runs. -/
theorem runLOps_append (env : SizeEnv) (ind sp : Int) (hr vh : Bool) :
    ∀ (l1 l2 : List LOp) (st : LState),
      runLOps env ind sp hr vh st (l1 ++ l2) =
        match runLOps env ind sp hr vh st l1 with
        | none => none
        | some (s1, t1) =>
          match runLOps env ind sp hr vh s1 l2 with
          | none => none
          | some (s2, t2) => some (s2, t1 ++ t2) := by
  intro l1
  induction l1 with
  | nil =>
    intro l2 st
    simp only [List.nil_append, runLOps]
    cases runLOps env ind sp hr vh st l2 with
    | none => rfl
    | some r => rfl
  | cons op l1 ih =>
    intro l2 st
    simp only [List.cons_append, runLOps]
    cases runLOp env ind sp hr vh st op with
    | none => rfl
    | some r =>
      dsimp only
      simp only [List.append_eq]
      rw [ih l2 r.1]
      cases runLOps env ind sp hr vh r.1 l1 with
      | none => rfl
      | some r2 =>
        dsimp only
        cases runLOps env ind sp hr vh r2.1 l2 with
        | none => rfl
        | some r3 => simp

/-- While the control is frozen, a run of bulk operations (insertions
and idle cycles) emits no events at all, keeps the freeze count, keeps
an existing anchor, only ever raises the dirty flag, and leaves it
raised when at least one insertion is present. -/
theorem frozen_bulk_run (env : SizeEnv) (ind sp : Int) (hr vh : Bool) :
    ∀ (ops : List LOp) (st : LState) (st2 : LState) (tr : List LEvt),
      st.freezeCount ≠ 0 → (∀ op ∈ ops, isBulkOp op = true) →
      runLOps env ind sp hr vh st ops = some (st2, tr) →
      tr = [] ∧ st2.freezeCount = st.freezeCount ∧
        (st.dirty = true → st2.dirty = true) ∧
        (st.anchor.isSome = true → st2.anchor.isSome = true) ∧
        ((∃ op ∈ ops, isInsertOp op = true) →
          st2.dirty = true ∧ st2.anchor.isSome = true) := by
  intro ops
  induction ops with
  | nil =>
    intro st st2 tr hfz hops hrun
    simp only [runLOps, Option.some.injEq, Prod.mk.injEq] at hrun
    obtain ⟨h1, h2⟩ := hrun
    subst h1
    subst h2
    refine ⟨rfl, rfl, fun h => h, fun h => h, ?_⟩
    rintro ⟨o, ho, -⟩
    simp at ho
  | cons op ops ih =>
    intro st st2 tr hfz hops hrun
    simp only [runLOps] at hrun
    have hop : isBulkOp op = true := hops op (by simp)
    cases op with
    | freeze => simp [isBulkOp] at hop
    | thaw => simp [isBulkOp] at hop
    | calcPos => simp [isBulkOp] at hop
    | idle =>
      have hstep : runLOp env ind sp hr vh st LOp.idle = some (st, []) := by
        unfold runLOp
        dsimp only
        by_cases hd : st.dirty
        · rw [if_neg (by simp [hd]), if_pos (by simpa using hfz)]
        · rw [if_pos (by simp [hd])]
      rw [hstep] at hrun
      dsimp only at hrun
      cases hrest : runLOps env ind sp hr vh st ops with
      | none => rw [hrest] at hrun; simp at hrun
      | some r2 =>
        rw [hrest] at hrun
        dsimp only at hrun
        simp only [Option.some.injEq, Prod.mk.injEq, List.nil_append] at hrun
        obtain ⟨hst2, htr⟩ := hrun
        obtain ⟨ht, hfc, hdm, ham, hi⟩ := ih st r2.1 r2.2 hfz
          (fun o ho => hops o (by simp [ho])) (by rw [hrest])
        subst hst2
        refine ⟨by rw [← htr, ht], hfc, hdm, ham, ?_⟩
        intro hex
        obtain ⟨o, ho, hio⟩ := hex
        rcases List.mem_cons.mp ho with hoe | hom
        · subst hoe; simp [isInsertOp] at hio
        · exact hi ⟨o, hom, hio⟩
    | insert pp prev nid text ctype sep =>
      unfold runLOp at hrun
      cases hanc : st.anchor with
      | none => rw [hanc] at hrun; simp at hrun
      | some a =>
        rw [hanc] at hrun
        dsimp only at hrun
        cases hins : doInsertItem a pp prev nid text ctype sep with
        | none => rw [hins] at hrun; simp at hrun
        | some a1 =>
          rw [hins] at hrun
          dsimp only at hrun
          cases hrest : runLOps env ind sp hr vh
              { st with anchor := some a1, dirty := true } ops with
          | none => rw [hrest] at hrun; simp at hrun
          | some r2 =>
            rw [hrest] at hrun
            dsimp only at hrun
            simp only [Option.some.injEq, Prod.mk.injEq, List.nil_append]
              at hrun
            obtain ⟨hst2, htr⟩ := hrun
            obtain ⟨ht, hfc, hdm, ham, hi⟩ := ih
              { st with anchor := some a1, dirty := true } r2.1 r2.2
              (by simpa using hfz)
              (fun o ho => hops o (by simp [ho])) (by rw [hrest])
            subst hst2
            refine ⟨by rw [← htr, ht], by simpa using hfc, ?_, ?_, ?_⟩
            · intro _
              exact hdm rfl
            · intro _
              exact ham rfl
            · intro _
              exact ⟨hdm rfl, ham rfl⟩

/-- Claim C9: while the freeze count is positive no layout recomputation
occurs — `CalculatePositions` and `CalculateSize` only mark the control
dirty and leave the tree and the item record unchanged — and a
`Freeze`, bulk insertions (with any number of interleaved idle cycles),
`Thaw`, idle sequence performs exactly one layout recomputation, flushed
after the outermost `Thaw` (whose `Refresh` is the only event fired
before it): the whole event trace is refresh–layout–refresh. -/
theorem claim_C9 (env : SizeEnv) (ind sp : Int) (hr vh : Bool)
    (st : LState) (ops : List LOp) (st2 : LState) (tr : List LEvt)
    (hfree : st.freezeCount = 0)
    (hops : ∀ op ∈ ops, isBulkOp op = true)
    (hins : ∃ op ∈ ops, isInsertOp op = true)
    (hrun : runLOps env ind sp hr vh st
      (LOp.freeze :: (ops ++ [LOp.thaw, LOp.idle])) = some (st2, tr)) :
    tr = [LEvt.refresh, LEvt.layout, LEvt.refresh] ∧
    tr.count LEvt.layout = 1 ∧
    (∀ st3 : LState, st3.freezeCount ≠ 0 →
      (calculatePositions env ind sp hr vh st3).2 = [] ∧
      (calculatePositions env ind sp hr vh st3).1.anchor = st3.anchor) ∧
    (∀ (fc : Nat) (d : Bool) (lh : Int) (f : Fields), fc ≠ 0 →
      calculateSizeF env fc d lh f = (f, true, lh)) := by
  have hfrozenPos : ∀ st3 : LState, st3.freezeCount ≠ 0 →
      (calculatePositions env ind sp hr vh st3).2 = [] ∧
      (calculatePositions env ind sp hr vh st3).1.anchor = st3.anchor := by
    intro st3 h3
    unfold calculatePositions
    cases hone : st3.anchor with
    | none =>
      exact ⟨rfl, hone⟩
    | some a =>
      dsimp only
      rw [if_pos (by simpa using h3)]
      exact ⟨rfl, rfl⟩
  have hfrozenSize : ∀ (fc : Nat) (d : Bool) (lh : Int) (f : Fields),
      fc ≠ 0 → calculateSizeF env fc d lh f = (f, true, lh) := by
    intro fc d lh f hfc
    unfold calculateSizeF
    rw [if_pos (by simpa using hfc)]
  have hfz1 : runLOp env ind sp hr vh st LOp.freeze =
      some ({ st with freezeCount := st.freezeCount + 1 }, []) := rfl
  simp only [runLOps, hfz1] at hrun
  rw [runLOps_append] at hrun
  cases hmid : runLOps env ind sp hr vh
      { st with freezeCount := st.freezeCount + 1 } ops with
  | none => rw [hmid] at hrun; simp at hrun
  | some rM =>
    rw [hmid] at hrun
    dsimp only at hrun
    obtain ⟨htrM, hfcM, -, -, hinsM⟩ := frozen_bulk_run env ind sp hr vh ops
      { st with freezeCount := st.freezeCount + 1 } rM.1 rM.2
      (by simp) hops (by rw [hmid])
    obtain ⟨hdirtyM, hancM⟩ := hinsM hins
    have hfcM1 : rM.1.freezeCount = 1 := by
      rw [hfcM]
      simp [hfree]
    obtain ⟨a, hanc⟩ := Option.isSome_iff_exists.mp hancM
    have hthaw : runLOp env ind sp hr vh rM.1 LOp.thaw =
        some ({ rM.1 with freezeCount := 0 }, [LEvt.refresh]) := by
      unfold runLOp
      dsimp only
      rw [if_neg (by simp [hfcM1])]
      rw [hfcM1]
      simp
    have hidle : runLOp env ind sp hr vh { rM.1 with freezeCount := 0 }
        LOp.idle =
        some ((calculatePositions env ind sp hr vh
          { rM.1 with freezeCount := 0, dirty := false }).1,
          [LEvt.layout, LEvt.refresh]) := by
      unfold runLOp
      dsimp only
      rw [if_neg (by simp [hdirtyM])]
      rw [if_neg (by simp)]
      have hcp : (calculatePositions env ind sp hr vh
          { rM.1 with freezeCount := 0, dirty := false }).2 =
          [LEvt.layout] := by
        unfold calculatePositions
        dsimp only
        rw [hanc]
        dsimp only
        rw [if_neg (by simp)]
      cases hcpv : calculatePositions env ind sp hr vh
          { rM.1 with freezeCount := 0, dirty := false } with
      | mk s1 t1 =>
        rw [hcpv] at hcp
        dsimp only at hcp
        rw [hcp]
        rfl
    have hsuffix : runLOps env ind sp hr vh rM.1 [LOp.thaw, LOp.idle] =
        some ((calculatePositions env ind sp hr vh
          { rM.1 with freezeCount := 0, dirty := false }).1,
          [LEvt.refresh, LEvt.layout, LEvt.refresh]) := by
      simp only [runLOps, hthaw, hidle]
      rfl
    rw [hsuffix] at hrun
    dsimp only at hrun
    simp only [Option.some.injEq, Prod.mk.injEq] at hrun
    obtain ⟨-, htr⟩ := hrun
    rw [← htr, htrM]
    refine ⟨rfl, rfl, hfrozenPos, hfrozenSize⟩

theorem claim_C9_witness :
    ((runLOps exSenv 5 3 false true
      { anchor := some exRadioTree, freezeCount := 0, dirty := false,
        lineHeight := 0 }
      (LOp.freeze :: ([LOp.insert [] 0 100 "a" 0 false, LOp.idle,
        LOp.insert [] 1 101 "b" 0 false, LOp.idle] ++
        [LOp.thaw, LOp.idle]))).map (fun r => r.2)) =
      some [LEvt.refresh, LEvt.layout, LEvt.refresh] := by
  cases hrun : runLOps exSenv 5 3 false true
      { anchor := some exRadioTree, freezeCount := 0, dirty := false,
        lineHeight := 0 }
      (LOp.freeze :: ([LOp.insert [] 0 100 "a" 0 false, LOp.idle,
        LOp.insert [] 1 101 "b" 0 false, LOp.idle] ++
        [LOp.thaw, LOp.idle])) with
  | none =>
    have : (runLOps exSenv 5 3 false true
        { anchor := some exRadioTree, freezeCount := 0, dirty := false,
          lineHeight := 0 }
        (LOp.freeze :: ([LOp.insert [] 0 100 "a" 0 false, LOp.idle,
          LOp.insert [] 1 101 "b" 0 false, LOp.idle] ++
          [LOp.thaw, LOp.idle]))).isSome = true := by decide
    rw [hrun] at this
    simp at this
  | some r =>
    have h := claim_C9 exSenv 5 3 false true
      { anchor := some exRadioTree, freezeCount := 0, dirty := false,
        lineHeight := 0 }
      [LOp.insert [] 0 100 "a" 0 false, LOp.idle,
        LOp.insert [] 1 101 "b" 0 false, LOp.idle] r.1 r.2 rfl
      (by decide) (by decide) hrun
    rw [Option.map_some']
    rw [h.1]

/-- The deletion-event trace of a forest is one `EVT_TREE_DELETE_ITEM`
per node, in preorder. -/
theorem deleteChildrenTraceL_eq :
    ∀ cs : List Item, deleteChildrenTraceL cs = (preorderL cs).map .deleted
    := by
  have key : ∀ t : Item,
      (Evt.deleted t.fld.id :: deleteChildrenTrace t) =
        (preorder t).map .deleted := by
    apply Item.strongInd
      (fun t => (Evt.deleted t.fld.id :: deleteChildrenTrace t) =
        (preorder t).map .deleted)
    intro f cs ih
    unfold deleteChildrenTrace preorder
    rw [fld_node]
    simp only [List.map_cons, List.cons.injEq, true_and]
    induction cs with
    | nil => simp [deleteChildrenTraceL, preorderL]
    | cons c rest ihl =>
      unfold deleteChildrenTraceL preorderL
      rw [List.map_append]
      rw [← ih c (by simp)]
      simp only [List.cons_append, List.cons.injEq, true_and]
      rw [ihl (fun c2 hc2 => ih c2 (by simp [hc2]))]
  intro cs
  induction cs with
  | nil => rfl
  | cons c rest ihl =>
    unfold deleteChildrenTraceL preorderL
    rw [List.map_append, ← key c, ihl]

/-- Unfolding equation for the recursive count at a node. -/
theorem childrenCount_node (f : Fields) (cs : List Item) :
    childrenCount (.node f cs) = cs.length + childrenCountL cs := rfl

/-- Unfolding equation for the forest count. -/
theorem childrenCountL_cons (c : Item) (cs : List Item) :
    childrenCountL (c :: cs) = childrenCount c + childrenCountL cs := rfl

/-- Length of the preorder listing: one entry per node. -/
theorem preorder_length :
    ∀ t : Item, (preorder t).length = childrenCount t + 1 := by
  apply Item.strongInd (fun t => (preorder t).length = childrenCount t + 1)
  intro f cs ih
  unfold preorder childrenCount
  simp only [List.length_cons, Nat.add_left_inj]
  induction cs with
  | nil => simp [preorderL, childrenCountL]
  | cons c rest ihl =>
    unfold preorderL childrenCountL
    rw [List.length_append]
    rw [ih c (by simp), ihl (fun c2 hc2 => ih c2 (by simp [hc2]))]
    simp only [List.length_cons]
    omega

/-- One-place surgery in a children list shifts the recursive count by
the count difference of the replaced child. -/
theorem childrenCountL_set :
    ∀ (cs : List Item) (i : Nat) (c c2 : Item), cs[i]? = some c →
      childrenCountL (cs.set i c2) + childrenCount c =
        childrenCountL cs + childrenCount c2 := by
  intro cs
  induction cs with
  | nil => intro i c c2 h; simp at h
  | cons d rest ih =>
    intro i c c2 h
    cases i with
    | zero =>
      simp only [List.getElem?_cons_zero, Option.some.injEq] at h
      subst h
      simp only [List.set_cons_zero]
      unfold childrenCountL
      omega
    | succ i =>
      simp only [List.getElem?_cons_succ] at h
      simp only [List.set_cons_succ]
      unfold childrenCountL
      have := ih i c c2 h
      omega

/-- Subtree surgery shifts the whole-tree count by the local count
difference. -/
theorem childrenCount_modifyAt (g : Item → Item) :
    ∀ (p : TPath) (t s : Item), getAt t p = some s →
      childrenCount (modifyAt g t p) + childrenCount s =
        childrenCount t + childrenCount (g s) := by
  intro p
  induction p with
  | nil =>
    intro t s h
    simp only [getAt_nil, Option.some.injEq] at h
    subst h
    rw [modifyAt_nil]
    omega
  | cons i p ih =>
    intro t s h
    cases hc : t.children[i]? with
    | none => rw [getAt_cons_none hc] at h; simp at h
    | some c =>
      rw [getAt_cons_some hc] at h
      rw [modifyAt_cons_some g hc]
      cases t with
      | node f cs =>
        simp only [childrenCount_node]
        rw [children_node] at hc ⊢
        have hlen : (cs.set i (modifyAt g c p)).length = cs.length := by
          simp
        rw [hlen]
        have hset := childrenCountL_set cs i c (modifyAt g c p) hc
        have hrec := ih c s h
        omega

/-- Counts add across list concatenation. -/
theorem childrenCountL_append : ∀ (l1 l2 : List Item),
    childrenCountL (l1 ++ l2) = childrenCountL l1 + childrenCountL l2 := by
  intro l1
  induction l1 with
  | nil => intro l2; simp [childrenCountL]
  | cons c rest ih =>
    intro l2
    simp only [List.cons_append, childrenCountL_cons]
    rw [ih]
    omega

/-- Erasing one child removes exactly its subtree from the count. -/
theorem childrenCountL_eraseIdx :
    ∀ (cs : List Item) (i : Nat) (c : Item), cs[i]? = some c →
      childrenCountL (cs.eraseIdx i) + childrenCount c = childrenCountL cs ∧
      (cs.eraseIdx i).length + 1 = cs.length := by
  intro cs
  induction cs with
  | nil => intro i c h; simp at h
  | cons d rest ih =>
    intro i c h
    cases i with
    | zero =>
      simp only [List.getElem?_cons_zero, Option.some.injEq] at h
      subst h
      simp only [List.eraseIdx_cons_zero]
      simp only [childrenCountL_cons]
      constructor
      · omega
      · simp
    | succ i =>
      simp only [List.getElem?_cons_succ] at h
      simp only [List.eraseIdx_cons_succ]
      simp only [childrenCountL_cons]
      obtain ⟨h1, h2⟩ := ih i c h
      constructor
      · omega
      · simpa using h2

/-- Length of the preorder listing of a forest. -/
theorem preorderL_length : ∀ cs : List Item,
    (preorderL cs).length = childrenCountL cs + cs.length := by
  intro cs
  induction cs with
  | nil => rfl
  | cons c rest ih =>
    unfold preorderL
    rw [List.length_append, preorder_length c, ih, childrenCountL_cons]
    simp only [List.length_cons]
    omega

/-- A leaf contributes no descendants. -/
theorem childrenCount_leaf (f : Fields) : childrenCount (.node f []) = 0 :=
  rfl

/-- Python `list.insert` always grows the subtree count by the inserted
subtree plus one, regardless of index clamping. -/
theorem pyInsert_count (f : Fields) (cs : List Item) (i : Nat) (x : Item) :
    childrenCount (.node f (pyInsert cs i x)) =
      childrenCount (.node f cs) + childrenCount x + 1 := by
  simp only [childrenCount_node, pyInsert]
  have hsplit : cs.take i ++ cs.drop i = cs := List.take_append_drop i cs
  have hccL : childrenCountL (cs.take i ++ x :: cs.drop i) =
      childrenCountL cs + childrenCount x := by
    rw [childrenCountL_append, childrenCountL_cons]
    have h2 := childrenCountL_append (cs.take i) (cs.drop i)
    rw [hsplit] at h2
    omega
  have hlen : (cs.take i ++ x :: cs.drop i).length = cs.length + 1 := by
    have h3 := congrArg List.length hsplit
    simp only [List.length_append] at h3
    simp only [List.length_append, List.length_cons]
    omega
  rw [hccL, hlen]
  omega

/-- The subtree delete trace is the preorder deletion events of the
children. -/
theorem deleteChildrenTrace_eq (it : Item) :
    deleteChildrenTrace it = (preorderL it.children).map .deleted := by
  cases it with
  | node f cs =>
    rw [children_node]
    show deleteChildrenTraceL cs = _
    exact deleteChildrenTraceL_eq cs

/-- An address into a tree splits into the parent address and a child
index. -/
theorem getAt_concat_split (t it : Item) (q : TPath) (i : Nat)
    (hg : getAt t (q ++ [i]) = some it) :
    ∃ par, getAt t q = some par ∧ par.children[i]? = some it := by
  rw [getAt_append] at hg
  cases hq : getAt t q with
  | none => rw [hq] at hg; simp at hg
  | some par =>
    rw [hq] at hg
    rw [Option.some_bind] at hg
    refine ⟨par, rfl, ?_⟩
    cases hci : par.children[i]? with
    | none => rw [getAt_cons_none hci] at hg; simp at hg
    | some c =>
      rw [getAt_cons_some hci, getAt_nil] at hg
      exact hg

/-- The new-anchor component of a non-root delete: the last child index
is erased inside the parent. -/
theorem deleteItemOp_cons_fst (t it : Item) (p : TPath) (hne : p ≠ [])
    (hg : getAt t p = some it) :
    (deleteItemOp t p).1 = some (modifyAt
      (fun par => .node par.fld (par.children.eraseIdx (p.getLastD 0)))
      t p.dropLast) := by
  unfold deleteItemOp
  rw [hg]
  cases p with
  | nil => exact absurd rfl hne
  | cons j r => rfl

/-- The event component of a delete at a resolvable address. -/
theorem deleteItemOp_snd (t it : Item) (p : TPath)
    (hg : getAt t p = some it) :
    (deleteItemOp t p).2 =
      deleteChildrenTrace it ++ [Evt.deleted it.fld.id] := by
  unfold deleteItemOp
  rw [hg]
  cases p with
  | nil => rfl
  | cons j r => rfl

/-- Unfolding equation for `GetCount` on a non-empty tree. -/
theorem getCount_some (a : Item) (hr : Bool) :
    getCount (some a) hr = childrenCount a + (if hr then 0 else 1) := rfl

/-- C8: `DoInsertItem` grows `GetCount` by exactly one per inserted
node, and `Delete` at any resolvable address fires exactly one
`EVT_TREE_DELETE_ITEM` per node of the removed subtree (its
recursively deleted children in preorder, then the item itself) and
shrinks `GetCount` by exactly that number of events; deleting the root
empties the tree.  Hence inserting N nodes and then deleting them
restores the count and fires exactly N deletion notifications. -/
theorem claim_C8 :
    (∀ (t : Item) (pp : TPath) (previous nid : Nat) (txt : String)
       (ctype : Nat) (sep : Bool) (t2 : Item) (hr : Bool),
       doInsertItem t pp previous nid txt ctype sep = some t2 →
       getCount (some t2) hr = getCount (some t) hr + 1) ∧
    (∀ (t : Item) (p : TPath) (it : Item) (hr : Bool),
       getAt t p = some it →
       (deleteItemOp t p).2 =
         (preorderL it.children).map Evt.deleted
           ++ [Evt.deleted it.fld.id] ∧
       (deleteItemOp t p).2.length = childrenCount it + 1 ∧
       (p = [] → (deleteItemOp t p).1 = none) ∧
       (∀ t2, (deleteItemOp t p).1 = some t2 → p ≠ [] →
         getCount (some t2) hr + (childrenCount it + 1) =
           getCount (some t) hr)) := by
  constructor
  · intro t pp previous nid txt ctype sep t2 hr h
    unfold doInsertItem at h
    split at h
    · exact absurd h (by simp)
    split at h
    · exact absurd h (by simp)
    cases hgp : getAt t pp with
    | none => rw [hgp] at h; exact absurd h (by simp)
    | some par =>
      rw [hgp] at h
      simp only [Option.some.injEq] at h
      subst h
      have hcm := childrenCount_modifyAt
        (fun x => Item.node x.fld (pyInsert x.children previous
          (Item.node (newItemF nid txt ctype sep par.fld) [])))
        pp t par hgp
      cases par with
      | node pf pcs =>
        have hg2 : childrenCount
            ((fun x => Item.node x.fld (pyInsert x.children previous
              (Item.node
                (newItemF nid txt ctype sep (Item.node pf pcs).fld) [])))
              (Item.node pf pcs)) =
            childrenCount (Item.node pf pcs) + 1 := by
          show childrenCount
            (Item.node pf (pyInsert pcs previous
              (Item.node
                (newItemF nid txt ctype sep (Item.node pf pcs).fld) []))) = _
          rw [pyInsert_count, childrenCount_leaf]
        rw [getCount_some, getCount_some]
        omega
  · intro t p it hr hg
    have hsnd := deleteItemOp_snd t it p hg
    have htr : (deleteItemOp t p).2 =
        (preorderL it.children).map Evt.deleted
          ++ [Evt.deleted it.fld.id] := by
      rw [hsnd, deleteChildrenTrace_eq]
    refine ⟨htr, ?_, ?_, ?_⟩
    · rw [htr]
      cases it with
      | node f cs =>
        rw [children_node, childrenCount_node]
        simp only [List.length_append, List.length_map, List.length_cons,
          List.length_nil, preorderL_length]
        omega
    · intro hp
      subst hp
      unfold deleteItemOp
      rw [hg]
    · intro t2 h1 hne
      rcases List.eq_nil_or_concat p with rfl | ⟨q, i, rfl⟩
      · exact absurd rfl hne
      · simp only [List.concat_eq_append] at hg h1 hne
        rw [deleteItemOp_cons_fst t it (q ++ [i]) hne hg] at h1
        simp only [List.dropLast_concat, List.getLastD_concat,
          Option.some.injEq] at h1
        subst h1
        obtain ⟨par, hq, hci⟩ := getAt_concat_split t it q i hg
        have hcm := childrenCount_modifyAt
          (fun par => Item.node par.fld (par.children.eraseIdx i))
          q t par hq
        cases par with
        | node pf pcs =>
          rw [children_node] at hci
          have hg2 : childrenCount
              ((fun par => Item.node par.fld (par.children.eraseIdx i))
                (Item.node pf pcs)) + (childrenCount it + 1) =
              childrenCount (Item.node pf pcs) := by
            show childrenCount (Item.node pf (pcs.eraseIdx i)) + _ = _
            rw [childrenCount_node, childrenCount_node]
            obtain ⟨he1, he2⟩ := childrenCountL_eraseIdx pcs i it hci
            omega
          rw [getCount_some, getCount_some]
          omega

/-- C8 witness: on the radio fixture, inserting one node under the
first child raises the count from 5 to 6, and deleting the second child
(one nested child inside) fires exactly the two deletion events
`[4, 2]` and lowers the count from 5 back to 3 = 5 - 2. -/
theorem claim_C8_witness :
    getCount (some ((doInsertItem exRadioTree [0] 0 9 "n" 0
        false).getD exRadioTree)) false =
      getCount (some exRadioTree) false + 1 ∧
    (deleteItemOp exRadioTree [1]).2 =
      [Evt.deleted 4, Evt.deleted 2] ∧
    (deleteItemOp exRadioTree [1]).2.length = 2 ∧
    getCount (some (Item.node (exF 0 0 0 true)
        [Item.node (exF 1 2 0 true) [Item.node (exF 3 0 0 true) []]]))
        false + 2 =
      getCount (some exRadioTree) false := by
  have hdel := claim_C8.2 exRadioTree [1]
    (Item.node (exF 2 2 1 true) [Item.node (exF 4 0 0 false) []])
    false rfl
  refine ⟨claim_C8.1 exRadioTree [0] 0 9 "n" 0 false _ false rfl,
    ?_, ?_, ?_⟩
  · rw [hdel.1]; rfl
  · rw [hdel.2.1]; rfl
  · exact hdel.2.2.2
      (Item.node (exF 0 0 0 true)
        [Item.node (exF 1 2 0 true) [Item.node (exF 3 0 0 true) []]])
      rfl (by decide)

/-- `EnableItem` never changes the item kind. -/
theorem enableItemF_ctype (f : Fields) (e : Bool) :
    (enableItemF f e).ctype = f.ctype := by
  unfold enableItemF
  split
  · rfl
  · dsimp only
    split <;> rfl

/-- `EnableItem` never changes the check state. -/
theorem enableItemF_checked (f : Fields) (e : Bool) :
    (enableItemF f e).checked = f.checked := by
  unfold enableItemF
  split
  · rfl
  · dsimp only
    split <;> rfl

/-- `EnableItem` never changes the hidden flag. -/
theorem enableItemF_hidden (f : Fields) (e : Bool) :
    (enableItemF f e).hidden = f.hidden := by
  unfold enableItemF
  split
  · rfl
  · dsimp only
    split <;> rfl

/-- `IsChecked` is invariant under `EnableItem`. -/
theorem isCheckedB_enableItemF (f : Fields) (e : Bool) :
    isCheckedB (enableItemF f e) = isCheckedB f := by
  unfold isCheckedB
  rw [enableItemF_checked]

/-- After `EnableItem(item, False)` the item reports disabled: either it
already did (possibly because it is hidden) or its enabled flag is
cleared. -/
theorem isEnabledF_enableItemF_false (f : Fields) :
    isEnabledF (enableItemF f false) = false := by
  unfold enableItemF
  split
  · simp_all
  · unfold isEnabledF
    split <;> simp_all

/-- After `EnableItem(item, True)` a non-hidden item reports enabled. -/
theorem isEnabledF_enableItemF_true (f : Fields) (hh : f.hidden = false) :
    isEnabledF (enableItemF f true) = true := by
  unfold enableItemF
  split
  · simp_all [isEnabledF]
  · unfold isEnabledF
    split <;> simp_all

/-- Walking below the root only looks at the children, not the root
record. -/
theorem getAt_node_swap (f : Fields) (t : Item) (q : TPath) (hne : q ≠ []) :
    getAt (.node f t.children) q = getAt t q := by
  cases q with
  | nil => exact absurd rfl hne
  | cons i r => rw [getAt_cons, getAt_cons, children_node]

/-- Blocking only looks at the children, not the root record. -/
theorem blockedAlong_node_swap (f : Fields) (t : Item) (q : TPath) :
    blockedAlong (.node f t.children) q = blockedAlong t q := by
  cases q with
  | nil => rfl
  | cons i r =>
    unfold blockedAlong
    rw [children_node]

/-- Unfolding equation for the `EnableChildren` loop. -/
theorem enableChildrenL_cons (c : Item) (rest : List Item) (e : Bool) :
    enableChildrenL (c :: rest) e =
      (let f1 := enableItemF c.fld e
       if f1.ctype == 2 && e && !isCheckedB f1 then Item.node f1 c.children
       else Item.node f1 (enableChildrenK c e)) :: enableChildrenL rest e :=
  rfl

/-- Unfolding equation for the recursive `EnableChildren` call. -/
theorem enableChildrenK_node (f : Fields) (cs : List Item) (e : Bool) :
    enableChildrenK (.node f cs) e = enableChildrenL cs e := rfl

/-- A disable pass never stops at the top guard. -/
theorem enableChildren_false_eq (it : Item) :
    enableChildren it false = .node it.fld (enableChildrenL it.children false)
    := by
  unfold enableChildren
  simp

/-- An enable pass whose top guard fails rewrites the children. -/
theorem enableChildren_true_eq (it : Item)
    (h : (it.fld.ctype == 2 && !isCheckedB it.fld) = false) :
    enableChildren it true = .node it.fld (enableChildrenL it.children true)
    := by
  unfold enableChildren
  simp [h]

/-- Elementwise action of the disable loop: each child is disabled and
its own children are recursively processed. -/
theorem enableChildrenL_false_get :
    ∀ (cs : List Item) (i : Nat) (c : Item), cs[i]? = some c →
      (enableChildrenL cs false)[i]? =
        some (.node (enableItemF c.fld false)
          (enableChildrenL c.children false)) := by
  intro cs
  induction cs with
  | nil => intro i c h; simp at h
  | cons d rest ih =>
    intro i c h
    rw [enableChildrenL_cons]
    cases i with
    | zero =>
      simp only [List.getElem?_cons_zero, Option.some.injEq] at h
      subst h
      cases d with
      | node f cs2 =>
        simp only [List.getElem?_cons_zero, Option.some.injEq]
        simp [enableChildrenK_node, children_node, fld_node]
    | succ i =>
      simp only [List.getElem?_cons_succ] at h ⊢
      exact ih i c h

/-- Elementwise action of the enable loop: each child is enabled, and
its own children are processed except under an unchecked radio child. -/
theorem enableChildrenL_true_get :
    ∀ (cs : List Item) (i : Nat) (c : Item), cs[i]? = some c →
      (enableChildrenL cs true)[i]? =
        some (if c.fld.ctype == 2 && !isCheckedB c.fld then
          .node (enableItemF c.fld true) c.children
        else
          .node (enableItemF c.fld true) (enableChildrenL c.children true))
    := by
  intro cs
  induction cs with
  | nil => intro i c h; simp at h
  | cons d rest ih =>
    intro i c h
    rw [enableChildrenL_cons]
    cases i with
    | zero =>
      simp only [List.getElem?_cons_zero, Option.some.injEq] at h
      subst h
      cases d with
      | node f cs2 =>
        simp only [List.getElem?_cons_zero, Option.some.injEq]
        simp only [fld_node, children_node, enableChildrenK_node,
          Bool.and_true, enableItemF_ctype, isCheckedB_enableItemF]
    | succ i =>
      simp only [List.getElem?_cons_succ] at h ⊢
      exact ih i c h

/-- `EnableChildren(item, False)` disables every proper descendant: the
descendant record passes through `EnableItem(child, False)` and then
reports `IsEnabled() = False`. -/
theorem enableChildren_false_fieldsAt :
    ∀ (q : TPath) (it c : Item), getAt it q = some c → q ≠ [] →
      fieldsAt (enableChildren it false) q = some (enableItemF c.fld false)
    := by
  intro q
  induction q with
  | nil => intro it c _ hne; exact absurd rfl hne
  | cons i rest ih =>
    intro it c hg _
    rw [enableChildren_false_eq]
    cases hci : it.children[i]? with
    | none => rw [getAt_cons_none hci] at hg; simp at hg
    | some ch =>
      rw [getAt_cons_some hci] at hg
      have hgi := enableChildrenL_false_get it.children i ch hci
      unfold fieldsAt
      rw [getAt_cons_some (by rw [children_node]; exact hgi)]
      cases rest with
      | nil =>
        rw [getAt_nil] at hg
        simp only [Option.some.injEq] at hg
        subst hg
        rw [getAt_nil, Option.map_some', fld_node]
      | cons j rest2 =>
        have hne2 : (j :: rest2 : TPath) ≠ [] := by simp
        have hch : enableChildrenL ch.children false =
            (enableChildren ch false).children := by
          rw [enableChildren_false_eq, children_node]
        rw [hch, getAt_node_swap _ _ _ hne2]
        have := ih ch c hg hne2
        unfold fieldsAt at this
        exact this

/-- `EnableChildren(item, True)` under a failing top guard: a proper
descendant is re-enabled unless some strict intermediate node is an
unchecked radio item, in which case its record is untouched. -/
theorem enableChildren_true_fieldsAt :
    ∀ (q : TPath) (it c : Item), getAt it q = some c → q ≠ [] →
      (it.fld.ctype == 2 && !isCheckedB it.fld) = false →
      fieldsAt (enableChildren it true) q =
        some (if blockedAlong it q then c.fld else enableItemF c.fld true)
    := by
  intro q
  induction q with
  | nil => intro it c _ hne; exact absurd rfl hne
  | cons i rest ih =>
    intro it c hg _ hguard
    rw [enableChildren_true_eq it hguard]
    cases hci : it.children[i]? with
    | none => rw [getAt_cons_none hci] at hg; simp at hg
    | some ch =>
      rw [getAt_cons_some hci] at hg
      have hgi := enableChildrenL_true_get it.children i ch hci
      have hblk : blockedAlong it (i :: rest) =
          (((!rest.isEmpty) && ch.fld.ctype == 2 && !isCheckedB ch.fld) ||
            blockedAlong ch rest) := by
        conv_lhs => unfold blockedAlong
        rw [hci]
      unfold fieldsAt
      cases hgch : (ch.fld.ctype == 2 && !isCheckedB ch.fld) with
      | true =>
        rw [hgch, if_pos rfl] at hgi
        rw [getAt_cons_some (by rw [children_node]; exact hgi)]
        cases rest with
        | nil =>
          rw [getAt_nil] at hg
          simp only [Option.some.injEq] at hg
          subst hg
          rw [getAt_nil, Option.map_some', fld_node]
          rw [hblk]
          simp [blockedAlong]
        | cons j rest2 =>
          have hne2 : (j :: rest2 : TPath) ≠ [] := by simp
          rw [getAt_node_swap _ _ _ hne2, hg, Option.map_some']
          rw [hblk]
          simp only [List.isEmpty_cons, Bool.not_false, Bool.true_and]
          rw [hgch]
          simp
      | false =>
        rw [hgch, if_neg (by simp)] at hgi
        rw [getAt_cons_some (by rw [children_node]; exact hgi)]
        cases rest with
        | nil =>
          rw [getAt_nil] at hg
          simp only [Option.some.injEq] at hg
          subst hg
          rw [getAt_nil, Option.map_some', fld_node]
          rw [hblk]
          simp [blockedAlong]
        | cons j rest2 =>
          have hne2 : (j :: rest2 : TPath) ≠ [] := by simp
          have hch : enableChildrenL ch.children true =
              (enableChildren ch true).children := by
            rw [enableChildren_true_eq ch hgch, children_node]
          rw [hch, getAt_node_swap _ _ _ hne2]
          have hrec := ih ch c hg hne2 hgch
          unfold fieldsAt at hrec
          rw [hrec, hblk]
          simp only [List.isEmpty_cons, Bool.not_false, Bool.true_and]
          rw [hgch]
          simp

/-- A non-vetoed `UnCheckRadioParent` rewrites the tree by storing the
check state and running `EnableChildren` at the target address. -/
theorem unCheckRadioParent_success (t : Item) (p : TPath) (it : Item)
    (c : Nat) (orc : List Bool) (hget : getAt t p = some it)
    (hok : (unCheckRadioParent t p c orc).2.2.2 = true) :
    (unCheckRadioParent t p c orc).1 =
      modifyAt
        (fun x => enableChildren (.node (checkF x.fld c) x.children)
          (c != 0)) t p := by
  unfold unCheckRadioParent at hok ⊢
  rw [hget] at hok ⊢
  dsimp only at hok ⊢
  by_cases hv : orc.headD false = true
  · rw [if_pos hv] at hok
    simp at hok
  · rw [if_neg hv]

/-- Fields below a modified address read through the modification. -/
theorem fieldsAt_modifyAt_append (g : Item → Item) (t it : Item)
    (p q : TPath) (hget : getAt t p = some it) :
    fieldsAt (modifyAt g t p) (p ++ q) = fieldsAt (g it) q := by
  unfold fieldsAt
  rw [getAt_append, getAt_modifyAt_self g p t it hget, Option.some_bind]

/-- C4: a disable pass (`EnableChildren(item, False)`, run when a radio
node becomes unchecked) passes every proper descendant through
`EnableItem(child, False)`, after which it reports disabled; an enable
pass (`EnableChildren(item, True)`, run when a radio node is
re-checked) re-enables exactly the proper descendants with no unchecked
radio node strictly between them and the root argument — descendants
below an unchecked sub-radio keep their record untouched, while a
re-enabled non-hidden descendant reports enabled.  The last two clauses
push this through `UnCheckRadioParent(item, checked)`, the operation
that stores the new radio state: on success the descendants of the
target are disabled (`checked = 0`) or selectively re-enabled
(`checked = 1`) as above. -/
theorem claim_C4 :
    (∀ (q : TPath) (it c : Item), getAt it q = some c → q ≠ [] →
      fieldsAt (enableChildren it false) q = some (enableItemF c.fld false)
        ∧ isEnabledF (enableItemF c.fld false) = false) ∧
    (∀ (q : TPath) (it c : Item), getAt it q = some c → q ≠ [] →
      (it.fld.ctype == 2 && !isCheckedB it.fld) = false →
      fieldsAt (enableChildren it true) q =
        some (if blockedAlong it q then c.fld else enableItemF c.fld true)
        ∧ (c.fld.hidden = false →
            isEnabledF (enableItemF c.fld true) = true)) ∧
    (∀ (t : Item) (p : TPath) (it : Item) (orc : List Bool) (q : TPath)
       (s : Item), getAt t p = some it → getAt it q = some s → q ≠ [] →
      (unCheckRadioParent t p 0 orc).2.2.2 = true →
      fieldsAt (unCheckRadioParent t p 0 orc).1 (p ++ q) =
        some (enableItemF s.fld false)) ∧
    (∀ (t : Item) (p : TPath) (it : Item) (orc : List Bool) (q : TPath)
       (s : Item), getAt t p = some it → getAt it q = some s → q ≠ [] →
      (unCheckRadioParent t p 1 orc).2.2.2 = true →
      fieldsAt (unCheckRadioParent t p 1 orc).1 (p ++ q) =
        some (if blockedAlong it q then s.fld
          else enableItemF s.fld true)) := by
  refine ⟨?_, ?_, ?_, ?_⟩
  · intro q it c hg hne
    exact ⟨enableChildren_false_fieldsAt q it c hg hne,
      isEnabledF_enableItemF_false c.fld⟩
  · intro q it c hg hne hguard
    exact ⟨enableChildren_true_fieldsAt q it c hg hne hguard,
      fun hh => isEnabledF_enableItemF_true c.fld hh⟩
  · intro t p it orc q s hget hgq hne hok
    rw [unCheckRadioParent_success t p it 0 orc hget hok]
    rw [fieldsAt_modifyAt_append _ t it p q hget]
    have hgq2 : getAt (.node (checkF it.fld 0) it.children) q = some s := by
      rw [getAt_node_swap _ _ _ hne]
      exact hgq
    exact enableChildren_false_fieldsAt q
      (.node (checkF it.fld 0) it.children) s hgq2 hne
  · intro t p it orc q s hget hgq hne hok
    rw [unCheckRadioParent_success t p it 1 orc hget hok]
    rw [fieldsAt_modifyAt_append _ t it p q hget]
    have hgq2 : getAt (.node (checkF it.fld 1) it.children) q = some s := by
      rw [getAt_node_swap _ _ _ hne]
      exact hgq
    have hguard : ((Item.node (checkF it.fld 1) it.children).fld.ctype == 2
        && !isCheckedB (Item.node (checkF it.fld 1) it.children).fld)
        = false := by
      simp [fld_node, checkF, isCheckedB]
    have h := enableChildren_true_fieldsAt q
      (.node (checkF it.fld 1) it.children) s hgq2 hne hguard
    rw [blockedAlong_node_swap _ it q] at h
    exact h

/-- C4 witness: disabling under the radio fixture disables the nested
grandchild; the enable pass on the checked-radio fixture re-enables the
plain child but leaves the grandchild under the unchecked sub-radio
untouched; a successful re-check via `UnCheckRadioParent` re-enables
the child below the target. -/
theorem claim_C4_witness :
    fieldsAt (enableChildren exRadioTree false) [1, 0] =
      some (enableItemF (exF 4 0 0 false) false) ∧
    isEnabledF (enableItemF (exF 4 0 0 false) false) = false ∧
    fieldsAt (enableChildren exC4Tree true) [1, 0] =
      some (exF 13 0 0 false) ∧
    fieldsAt (enableChildren exC4Tree true) [0] =
      some (enableItemF (exF 11 0 0 false) true) ∧
    fieldsAt (unCheckRadioParent exRadioTree [0] 1 []).1 [0, 0] =
      some (enableItemF (exF 3 0 0 true) true) := by
  have h1 := claim_C4.1 [1, 0] exRadioTree
    (Item.node (exF 4 0 0 false) []) rfl (by decide)
  have h2 := claim_C4.2.1 [1, 0] exC4Tree
    (Item.node (exF 13 0 0 false) []) rfl (by decide) rfl
  have h3 := claim_C4.2.1 [0] exC4Tree
    (Item.node (exF 11 0 0 false) []) rfl (by decide) rfl
  have h4 := claim_C4.2.2.2 exRadioTree [0]
    (Item.node (exF 1 2 0 true) [Item.node (exF 3 0 0 true) []]) []
    [0] (Item.node (exF 3 0 0 true) []) rfl rfl (by decide) rfl
  exact ⟨h1.1, h1.2, h2.1, h3.1, h4⟩

/-- Unfolding equation for the radio invariant at a node. -/
theorem radioInvB_node (f : Fields) (cs : List Item) :
    radioInvB (.node f cs) =
      (decide (radioCheckedCount cs ≤ 1) && radioInvL cs) := rfl

/-- Unfolding equation for the forest radio invariant. -/
theorem radioInvL_cons (c : Item) (cs : List Item) :
    radioInvL (c :: cs) = (radioInvB c && radioInvL cs) := rfl

/-- The radio invariant of a node ignores its own record. -/
theorem radioInvB_node_congr (f f2 : Fields) (cs : List Item) :
    radioInvB (.node f cs) = radioInvB (.node f2 cs) := by
  rw [radioInvB_node, radioInvB_node]

/-- Rewrapping the children of an item keeps its radio invariant. -/
theorem radioInvB_children (it : Item) (f : Fields) :
    radioInvB (.node f it.children) = radioInvB it := by
  cases it with
  | node g cs =>
    rw [children_node]
    exact radioInvB_node_congr f g cs

/-- Counting checked radio children, one element at a time. -/
theorem radioCheckedCount_cons (x : Item) (l : List Item) :
    radioCheckedCount (x :: l) =
      (if x.fld.ctype == 2 && x.fld.checked != 0 then 1 else 0) +
        radioCheckedCount l := by
  unfold radioCheckedCount
  rw [List.filter_cons]
  split
  · simp only [List.length_cons]
    omega
  · simp

/-- `CheckItem2` never changes the item kind. -/
theorem checkItem2F_ctype (f : Fields) (c : Nat) :
    (checkItem2F f c).ctype = f.ctype := by
  unfold checkItem2F checkF
  split <;> rfl

/-- Zeta-reduced unfolding equation for the `EnableChildren` loop. -/
theorem enableChildrenL_cons2 (c : Item) (rest : List Item) (e : Bool) :
    enableChildrenL (c :: rest) e =
      (if (enableItemF c.fld e).ctype == 2 && e &&
          !isCheckedB (enableItemF c.fld e) then
        Item.node (enableItemF c.fld e) c.children
      else Item.node (enableItemF c.fld e) (enableChildrenK c e)) ::
        enableChildrenL rest e := rfl

/-- One pass of the `EnableChildren` loop changes neither the checked
radio count nor the radio invariant of the processed forest. -/
theorem radio_ecl_step :
    ∀ (cs : List Item) (e : Bool),
      (∀ c ∈ cs, ∀ e2 : Bool,
        radioCheckedCount (enableChildrenL c.children e2) =
          radioCheckedCount c.children ∧
        radioInvL (enableChildrenL c.children e2) =
          radioInvL c.children) →
      radioCheckedCount (enableChildrenL cs e) = radioCheckedCount cs ∧
      radioInvL (enableChildrenL cs e) = radioInvL cs := by
  intro cs
  induction cs with
  | nil => intro e _; exact ⟨rfl, rfl⟩
  | cons c rest ih =>
    intro e hT
    obtain ⟨hcr, hir⟩ := ih e (fun c2 hc2 => hT c2 (by simp [hc2]))
    obtain ⟨hc1, hi1⟩ := hT c (by simp) e
    rw [enableChildrenL_cons2]
    have hK : enableChildrenK c e = enableChildrenL c.children e := by
      cases c with
      | node cf ccs => rw [children_node, enableChildrenK_node]
    have hpred : ∀ X : List Item,
        ((Item.node (enableItemF c.fld e) X).fld.ctype == 2 &&
          (Item.node (enableItemF c.fld e) X).fld.checked != 0) =
        (c.fld.ctype == 2 && c.fld.checked != 0) := by
      intro X
      rw [fld_node, enableItemF_ctype, enableItemF_checked]
    split
    · constructor
      · rw [radioCheckedCount_cons, radioCheckedCount_cons, hcr, hpred]
      · rw [radioInvL_cons, radioInvL_cons, hir,
          radioInvB_children c (enableItemF c.fld e)]
    · constructor
      · rw [radioCheckedCount_cons, radioCheckedCount_cons, hcr, hpred]
      · rw [radioInvL_cons, radioInvL_cons, hir, hK, radioInvB_node]
        rw [hc1, hi1]
        cases c with
        | node cf ccs =>
          rw [children_node, radioInvB_node]

/-- The `EnableChildren` loop preserves count and invariant below any
item. -/
theorem radio_ecl_all : ∀ (it : Item) (e : Bool),
    radioCheckedCount (enableChildrenL it.children e) =
      radioCheckedCount it.children ∧
    radioInvL (enableChildrenL it.children e) = radioInvL it.children := by
  apply Item.strongInd (fun it => ∀ e : Bool,
    radioCheckedCount (enableChildrenL it.children e) =
      radioCheckedCount it.children ∧
    radioInvL (enableChildrenL it.children e) = radioInvL it.children)
  intro f cs ih e
  rw [children_node]
  exact radio_ecl_step cs e (fun c hc e2 => ih c hc e2)

/-- `EnableChildren` preserves the radio invariant. -/
theorem radioInvB_enableChildren (it : Item) (e : Bool) :
    radioInvB (enableChildren it e) = radioInvB it := by
  unfold enableChildren
  split
  · rfl
  · rw [radioInvB_node]
    obtain ⟨h1, h2⟩ := radio_ecl_all it e
    rw [h1, h2]
    cases it with
    | node f cs =>
      rw [children_node, radioInvB_node]

/-- Unfolding equation for the `AutoCheckChild` loop. -/
theorem autoCheckChildL_cons (ch : Item) (rest : List Item) (c : Nat) :
    autoCheckChildL (ch :: rest) c =
      Item.node
        (if ch.fld.ctype == 1 && isEnabledF ch.fld then checkItem2F ch.fld c
         else ch.fld)
        (autoCheckChildK ch c) :: autoCheckChildL rest c := rfl

/-- Unfolding equation for the recursive `AutoCheckChild` call. -/
theorem autoCheckChildK_node (f : Fields) (cs : List Item) (c : Nat) :
    autoCheckChildK (.node f cs) c = autoCheckChildL cs c := rfl

/-- Unfolding equation for the `AutoToggleChild` loop. -/
theorem autoToggleChildL_cons (ch : Item) (rest : List Item) :
    autoToggleChildL (ch :: rest) =
      Item.node
        (if ch.fld.ctype == 1 && isEnabledF ch.fld then
          checkItem2F ch.fld (if isCheckedB ch.fld then 0 else 1)
        else ch.fld)
        (autoToggleChildK ch) :: autoToggleChildL rest := rfl

/-- Unfolding equation for the recursive `AutoToggleChild` call. -/
theorem autoToggleChildK_node (f : Fields) (cs : List Item) :
    autoToggleChildK (.node f cs) = autoToggleChildL cs := rfl

/-- The checkbox guard of the auto-check loops never produces a checked
radio record: the stored record keeps the checkbox kind. -/
theorem radioPred_autoHead (ch : Item) (g : Fields) (c : Nat)
    (hgd : (ch.fld.ctype == 1 && isEnabledF ch.fld) = true →
      g = checkItem2F ch.fld c)
    (hng : (ch.fld.ctype == 1 && isEnabledF ch.fld) = false → g = ch.fld) :
    (g.ctype == 2 && g.checked != 0) =
      (ch.fld.ctype == 2 && ch.fld.checked != 0) := by
  by_cases hc : (ch.fld.ctype == 1 && isEnabledF ch.fld) = true
  · rw [hgd hc, checkItem2F_ctype]
    have h1 : (ch.fld.ctype == 1) = true := by
      rw [Bool.and_eq_true] at hc
      exact hc.1
    have h2 : ch.fld.ctype = 1 := by simpa using h1
    rw [h2]
    simp
  · rw [hng (by simpa using hc)]

/-- One pass of the `AutoCheckChild` loop changes neither the checked
radio count nor the radio invariant of the processed forest. -/
theorem radio_acc_step :
    ∀ (cs : List Item) (c : Nat),
      (∀ ch ∈ cs, ∀ c2 : Nat,
        radioCheckedCount (autoCheckChildL ch.children c2) =
          radioCheckedCount ch.children ∧
        radioInvL (autoCheckChildL ch.children c2) =
          radioInvL ch.children) →
      radioCheckedCount (autoCheckChildL cs c) = radioCheckedCount cs ∧
      radioInvL (autoCheckChildL cs c) = radioInvL cs := by
  intro cs
  induction cs with
  | nil => intro c _; exact ⟨rfl, rfl⟩
  | cons ch rest ih =>
    intro c hT
    obtain ⟨hcr, hir⟩ := ih c (fun c2 hc2 => hT c2 (by simp [hc2]))
    obtain ⟨hc1, hi1⟩ := hT ch (by simp) c
    rw [autoCheckChildL_cons]
    have hK : autoCheckChildK ch c = autoCheckChildL ch.children c := by
      cases ch with
      | node cf ccs => rw [children_node, autoCheckChildK_node]
    constructor
    · rw [radioCheckedCount_cons, radioCheckedCount_cons, hcr, fld_node]
      rw [radioPred_autoHead ch _ c (fun h => by rw [if_pos h])
        (fun h => by rw [if_neg (by simp [h])])]
    · rw [radioInvL_cons, radioInvL_cons, hir, hK, radioInvB_node,
        hc1, hi1]
      cases ch with
      | node cf ccs =>
        rw [children_node, radioInvB_node]

/-- One pass of the `AutoToggleChild` loop changes neither the checked
radio count nor the radio invariant of the processed forest. -/
theorem radio_atc_step :
    ∀ (cs : List Item),
      (∀ ch ∈ cs,
        radioCheckedCount (autoToggleChildL ch.children) =
          radioCheckedCount ch.children ∧
        radioInvL (autoToggleChildL ch.children) =
          radioInvL ch.children) →
      radioCheckedCount (autoToggleChildL cs) = radioCheckedCount cs ∧
      radioInvL (autoToggleChildL cs) = radioInvL cs := by
  intro cs
  induction cs with
  | nil => intro _; exact ⟨rfl, rfl⟩
  | cons ch rest ih =>
    intro hT
    obtain ⟨hcr, hir⟩ := ih (fun c2 hc2 => hT c2 (by simp [hc2]))
    obtain ⟨hc1, hi1⟩ := hT ch (by simp)
    rw [autoToggleChildL_cons]
    have hK : autoToggleChildK ch = autoToggleChildL ch.children := by
      cases ch with
      | node cf ccs => rw [children_node, autoToggleChildK_node]
    constructor
    · rw [radioCheckedCount_cons, radioCheckedCount_cons, hcr, fld_node]
      rw [radioPred_autoHead ch _ (if isCheckedB ch.fld then 0 else 1)
        (fun h => by rw [if_pos h]) (fun h => by rw [if_neg (by simp [h])])]
    · rw [radioInvL_cons, radioInvL_cons, hir, hK, radioInvB_node,
        hc1, hi1]
      cases ch with
      | node cf ccs =>
        rw [children_node, radioInvB_node]

/-- The `AutoCheckChild` loop preserves count and invariant below any
item. -/
theorem radio_acc_all : ∀ (it : Item) (c : Nat),
    radioCheckedCount (autoCheckChildL it.children c) =
      radioCheckedCount it.children ∧
    radioInvL (autoCheckChildL it.children c) = radioInvL it.children := by
  apply Item.strongInd (fun it => ∀ c : Nat,
    radioCheckedCount (autoCheckChildL it.children c) =
      radioCheckedCount it.children ∧
    radioInvL (autoCheckChildL it.children c) = radioInvL it.children)
  intro f cs ih c
  rw [children_node]
  exact radio_acc_step cs c (fun ch hc c2 => ih ch hc c2)

/-- The `AutoToggleChild` loop preserves count and invariant below any
item. -/
theorem radio_atc_all : ∀ (it : Item),
    radioCheckedCount (autoToggleChildL it.children) =
      radioCheckedCount it.children ∧
    radioInvL (autoToggleChildL it.children) = radioInvL it.children := by
  apply Item.strongInd (fun it =>
    radioCheckedCount (autoToggleChildL it.children) =
      radioCheckedCount it.children ∧
    radioInvL (autoToggleChildL it.children) = radioInvL it.children)
  intro f cs ih
  rw [children_node]
  exact radio_atc_step cs (fun ch hc => ih ch hc)

/-- Every child of an invariant-satisfying forest satisfies the
invariant. -/
theorem radioInvB_idx : ∀ (cs : List Item) (i : Nat) (c : Item),
    cs[i]? = some c → radioInvL cs = true → radioInvB c = true := by
  intro cs
  induction cs with
  | nil => intro i c h; simp at h
  | cons d rest ih =>
    intro i c h hinv
    rw [radioInvL_cons, Bool.and_eq_true] at hinv
    cases i with
    | zero =>
      simp only [List.getElem?_cons_zero, Option.some.injEq] at h
      rw [← h]
      exact hinv.1
    | succ i =>
      exact ih i c (by simpa using h) hinv.2

/-- Replacing a child by one with the same checked-radio status keeps
the count. -/
theorem radioCheckedCount_set_congr :
    ∀ (cs : List Item) (i : Nat) (c x : Item), cs[i]? = some c →
      ((x.fld.ctype == 2 && x.fld.checked != 0) =
        (c.fld.ctype == 2 && c.fld.checked != 0)) →
      radioCheckedCount (cs.set i x) = radioCheckedCount cs := by
  intro cs
  induction cs with
  | nil => intro i c x h; simp at h
  | cons d rest ih =>
    intro i c x h hpred
    cases i with
    | zero =>
      simp only [List.getElem?_cons_zero, Option.some.injEq] at h
      subst h
      rw [List.set_cons_zero, radioCheckedCount_cons, radioCheckedCount_cons,
        hpred]
    | succ i =>
      simp only [List.getElem?_cons_succ] at h
      rw [List.set_cons_succ, radioCheckedCount_cons, radioCheckedCount_cons,
        ih i c x h hpred]

/-- Replacing a child by an invariant-satisfying one keeps the forest
invariant. -/
theorem radioInvL_set : ∀ (cs : List Item) (i : Nat) (x : Item),
    radioInvL cs = true → radioInvB x = true →
    radioInvL (cs.set i x) = true := by
  intro cs
  induction cs with
  | nil => intro i x _ _; rfl
  | cons d rest ih =>
    intro i x hinv hx
    rw [radioInvL_cons, Bool.and_eq_true] at hinv
    cases i with
    | zero =>
      rw [List.set_cons_zero, radioInvL_cons, Bool.and_eq_true]
      exact ⟨hx, hinv.2⟩
    | succ i =>
      rw [List.set_cons_succ, radioInvL_cons, Bool.and_eq_true]
      exact ⟨hinv.1, ih i x hinv.2 hx⟩

/-- The radio invariant restricts to every subtree. -/
theorem radioInvB_getAt : ∀ (p : TPath) (t s : Item),
    getAt t p = some s → radioInvB t = true → radioInvB s = true := by
  intro p
  induction p with
  | nil =>
    intro t s h ht
    rw [getAt_nil] at h
    simp only [Option.some.injEq] at h
    rw [← h]
    exact ht
  | cons i p ih =>
    intro t s h ht
    cases hc : t.children[i]? with
    | none => rw [getAt_cons_none hc] at h; simp at h
    | some ch =>
      rw [getAt_cons_some hc] at h
      cases t with
      | node f cs =>
        rw [children_node] at hc
        rw [radioInvB_node, Bool.and_eq_true] at ht
        exact ih ch s h (radioInvB_idx cs i ch hc ht.2)

/-- A surgery that preserves the local invariant and the checked-radio
status of the target preserves the global invariant. -/
theorem radioInvB_modifyAt_inv (g : Item → Item) :
    ∀ (p : TPath) (t s : Item), getAt t p = some s →
      radioInvB t = true →
      (radioInvB s = true → radioInvB (g s) = true) →
      (((g s).fld.ctype == 2 && (g s).fld.checked != 0) =
        (s.fld.ctype == 2 && s.fld.checked != 0)) →
      radioInvB (modifyAt g t p) = true := by
  intro p
  induction p with
  | nil =>
    intro t s h ht himp _
    rw [getAt_nil] at h
    simp only [Option.some.injEq] at h
    subst h
    rw [modifyAt_nil]
    exact himp ht
  | cons i p' ih =>
    intro t s h ht himp hpred
    cases hc : t.children[i]? with
    | none => rw [modifyAt_cons_none g hc]; exact ht
    | some ch =>
      rw [getAt_cons_some hc] at h
      rw [modifyAt_cons_some g hc]
      cases t with
      | node f cs =>
        rw [children_node] at hc
        rw [children_node]
        rw [radioInvB_node, Bool.and_eq_true] at ht
        have hchinv : radioInvB ch = true := radioInvB_idx cs i ch hc ht.2
        have hxinv : radioInvB (modifyAt g ch p') = true := by
          cases p' with
          | nil =>
            rw [getAt_nil] at h
            simp only [Option.some.injEq] at h
            subst h
            rw [modifyAt_nil]
            exact himp hchinv
          | cons j r => exact ih ch s h hchinv himp hpred
        have hxpred : ((modifyAt g ch p').fld.ctype == 2 &&
            (modifyAt g ch p').fld.checked != 0) =
            (ch.fld.ctype == 2 && ch.fld.checked != 0) := by
          cases p' with
          | nil =>
            rw [getAt_nil] at h
            simp only [Option.some.injEq] at h
            subst h
            rw [modifyAt_nil]
            exact hpred
          | cons j r => rw [fld_modifyAt]
        rw [radioInvB_node, Bool.and_eq_true]
        refine ⟨?_, radioInvL_set cs i (modifyAt g ch p') ht.2 hxinv⟩
        rw [radioCheckedCount_set_congr cs i ch (modifyAt g ch p') hc hxpred]
        exact ht.1

/-- Unfolding equation for the `CheckSameLevel` sibling loop. -/
theorem checkSameLevelL_cons (ch : Item) (rest : List Item)
    (j i c : Nat) :
    checkSameLevelL (ch :: rest) j i c =
      (if ch.fld.ctype == 2 && j != i then
        enableChildren (.node (checkItem2F ch.fld c) ch.children) (c != 0)
      else ch) :: checkSameLevelL rest (j + 1) i c := rfl

/-- A radio sibling silently unchecked by `CheckSameLevel` is not a
checked radio afterwards. -/
theorem radioPred_cslHead (ch : Item) (e : Bool)
    (h2 : (ch.fld.ctype == 2) = true) :
    ((enableChildren (.node (checkItem2F ch.fld 0) ch.children) e).fld.ctype
        == 2 &&
      (enableChildren (.node (checkItem2F ch.fld 0)
        ch.children) e).fld.checked != 0) = false := by
  rw [enableChildren_fld, fld_node]
  have hct : ch.fld.ctype = 2 := by simpa using h2
  simp [checkItem2F, checkF, hct]

/-- After the `CheckSameLevel` scan with target index `i`, at most the
element at `i` can remain a checked radio: the count is at most one,
and zero when the scan starts past the target. -/
theorem csl_count : ∀ (l : List Item) (j i : Nat),
    radioCheckedCount (checkSameLevelL l j i 0) ≤
      if j ≤ i then 1 else 0 := by
  intro l
  induction l with
  | nil =>
    intro j i
    split <;> simp [checkSameLevelL, radioCheckedCount]
  | cons ch rest ih =>
    intro j i
    rw [checkSameLevelL_cons, radioCheckedCount_cons]
    have hr := ih (j + 1) i
    by_cases hgd : (ch.fld.ctype == 2 && j != i) = true
    · rw [if_pos hgd]
      rw [Bool.and_eq_true] at hgd
      rw [radioPred_cslHead ch _ hgd.1, if_neg (by simp)]
      split <;> split at hr <;> omega
    · rw [if_neg hgd]
      by_cases hct : (ch.fld.ctype == 2) = true
      · have hji : j = i := by
          rw [Bool.and_eq_true] at hgd
          push_neg at hgd
          by_contra hne
          exact hgd (hct) (by simpa using hne)
        subst hji
        have hr2 : radioCheckedCount (checkSameLevelL rest (j + 1) j 0) = 0
            := by
          rw [if_neg (by omega)] at hr
          omega
        rw [hr2, if_pos (le_refl j)]
        split <;> omega
      · have hpr : (ch.fld.ctype == 2 && ch.fld.checked != 0) = false := by
          simp only [Bool.not_eq_true] at hct
          rw [hct, Bool.false_and]
        rw [hpr, if_neg (by simp)]
        split <;> split at hr <;> omega

/-- The `CheckSameLevel` scan preserves the forest invariant. -/
theorem csl_invL : ∀ (l : List Item) (j i c : Nat),
    radioInvL l = true → radioInvL (checkSameLevelL l j i c) = true := by
  intro l
  induction l with
  | nil => intro j i c _; rfl
  | cons ch rest ih =>
    intro j i c hinv
    rw [radioInvL_cons, Bool.and_eq_true] at hinv
    rw [checkSameLevelL_cons, radioInvL_cons, Bool.and_eq_true]
    refine ⟨?_, ih (j + 1) i c hinv.2⟩
    split
    · rw [radioInvB_enableChildren, radioInvB_children]
      exact hinv.1
    · exact hinv.1

/-- `Set3StateValue` never changes the item kind. -/
theorem set3StateValueF_ctype (f : Fields) (s : Nat) :
    (set3StateValueF f s).ctype = f.ctype := rfl

/-- `Check` never changes the item kind. -/
theorem checkF_ctype (f : Fields) (c : Nat) :
    (checkF f c).ctype = f.ctype := rfl

/-- Modification at an unresolvable address is the identity. -/
theorem modifyAt_getAt_none : ∀ (p : TPath) (t : Item) (g : Item → Item),
    getAt t p = none → modifyAt g t p = t := by
  intro p
  induction p with
  | nil => intro t g h; rw [getAt_nil] at h; exact absurd h (by simp)
  | cons i p ih =>
    intro t g h
    cases hc : t.children[i]? with
    | none => exact modifyAt_cons_none g hc p
    | some c =>
      rw [getAt_cons_some hc] at h
      rw [modifyAt_cons_some g hc, ih c g h]
      cases t with
      | node f cs =>
        rw [children_node] at hc
        rw [children_node, fld_node]
        have hset : cs.set i c = cs := by
          clear h ih
          induction cs generalizing i with
          | nil => simp at hc
          | cons d rest ihl =>
            cases i with
            | zero =>
              simp only [List.getElem?_cons_zero, Option.some.injEq] at hc
              rw [List.set_cons_zero, hc]
            | succ i =>
              simp only [List.getElem?_cons_succ] at hc
              rw [List.set_cons_succ, ihl i hc]
        rw [hset]

/-- The `AutoCheckChild` rewrap of an item preserves its radio
invariant. -/
theorem radioInvB_accNode (x : Item) (v : Nat) :
    radioInvB (.node x.fld (autoCheckChildL x.children v)) = radioInvB x
    := by
  rw [radioInvB_node]
  obtain ⟨a, b⟩ := radio_acc_all x v
  rw [a, b]
  cases x with
  | node f cs => rw [children_node, radioInvB_node]

/-- The `AutoToggleChild` rewrap of an item preserves its radio
invariant. -/
theorem radioInvB_atcNode (x : Item) :
    radioInvB (.node x.fld (autoToggleChildL x.children)) = radioInvB x
    := by
  rw [radioInvB_node]
  obtain ⟨a, b⟩ := radio_atc_all x
  rw [a, b]
  cases x with
  | node f cs => rw [children_node, radioInvB_node]

/-- The upward `AutoCheckParent` walk preserves the radio invariant. -/
theorem radioInvB_autoCheckParentRev :
    ∀ (rev : List Nat) (t : Item) (c : Nat),
      radioInvB t = true → radioInvB (autoCheckParentRev t rev c) = true
    := by
  intro rev
  induction rev with
  | nil => intro t c h; exact h
  | cons k restRev ih =>
    intro t c h
    rw [show autoCheckParentRev t (k :: restRev) c =
      (match getAt t restRev.reverse with
       | none => t
       | some par =>
         if par.fld.ctype != 1 then t
         else if allAgreeL par.children c then
           autoCheckParentRev
             (modifyAt (fun x => .node (checkItem2F x.fld c) x.children) t
               restRev.reverse) restRev c
         else t) from rfl]
    cases hg : getAt t restRev.reverse with
    | none => exact h
    | some par =>
      dsimp only
      by_cases h1 : (par.fld.ctype != 1) = true
      · rw [if_pos h1]; exact h
      · rw [if_neg h1]
        by_cases h2 : allAgreeL par.children c = true
        · rw [if_pos h2]
          apply ih
          apply radioInvB_modifyAt_inv _ restRev.reverse t par hg h
          · intro hp
            rw [radioInvB_children]
            exact hp
          · have hct : par.fld.ctype = 1 := by
              simp only [bne, Bool.not_eq_true, Bool.not_eq_true'] at h1
              simpa using h1
            rw [fld_node, checkItem2F_ctype, hct]
            simp
        · rw [if_neg h2]; exact h

/-- A failed `UnCheckRadioParent` (missing item or vetoed event) leaves
the tree unchanged. -/
theorem unCheckRadioParent_fail (t : Item) (p : TPath) (c : Nat)
    (orc : List Bool)
    (hf : (unCheckRadioParent t p c orc).2.2.2 = false) :
    (unCheckRadioParent t p c orc).1 = t := by
  unfold unCheckRadioParent at hf ⊢
  cases hg : getAt t p with
  | none => rfl
  | some it =>
    rw [hg] at hf
    dsimp only at hf ⊢
    by_cases hv : orc.headD false = true
    · rw [if_pos hv]
    · rw [if_neg hv] at hf
      simp at hf

/-- C1: every `CheckItem` call preserves the radio-exclusivity
invariant: in every children list of the resulting tree at most one
radio item is checked.  The radio branch re-establishes the bound at
the target level through `UnCheckRadioParent` and `CheckSameLevel`;
the checkbox branch and the optional `AutoCheckChild`,
`AutoCheckParent` and `AutoToggleChild` passes never touch a radio
check state. -/
theorem claim_C1 : ∀ (t : Item) (p : TPath) (c : Nat) (aC aP aT : Bool)
    (orc : List Bool), radioInvB t = true →
    radioInvB (checkItem t p c aC aP aT orc).1 = true := by
  intro t p c aC aP aT orc ht
  unfold checkItem
  cases hg : getAt t p with
  | none => exact ht
  | some it =>
    dsimp only
    by_cases h0 : (it.fld.ctype == 0) = true
    · rw [if_pos h0]; exact ht
    · rw [if_neg h0]
      by_cases h2 : (it.fld.ctype == 2) = true
      · rw [if_pos h2]
        by_cases h3 : (c == 0 && isCheckedB it.fld) = true
        · rw [if_pos h3]; exact ht
        · rw [if_neg h3]
          by_cases hv : (!(unCheckRadioParent t p c orc).2.2.2) = true
          · rw [if_pos hv]
            dsimp only
            rw [unCheckRadioParent_fail t p c orc (by simpa using hv)]
            exact ht
          · rw [if_neg hv]
            dsimp only
            have hok : (unCheckRadioParent t p c orc).2.2.2 = true := by
              simpa using hv
            rw [unCheckRadioParent_success t p it c orc hg hok]
            rcases List.eq_nil_or_concat p with rfl | ⟨q, i, hp⟩
            · rw [show ∀ x : Item, checkSameLevel x [] 0 = x
                from fun x => rfl]
              rw [modifyAt_nil]
              show radioInvB (enableChildren
                (Item.node (checkF t.fld c) t.children) (c != 0)) = true
              rw [radioInvB_enableChildren, radioInvB_children]
              exact ht
            · simp only [List.concat_eq_append] at hp
              subst hp
              rw [checkSameLevel_concat]
              rw [modifyAt_append _ q [i] t, modifyAt_modifyAt]
              obtain ⟨par, hq, hci⟩ := getAt_concat_split t it q i hg
              have hitinv : radioInvB it = true :=
                radioInvB_getAt _ t it hg ht
              apply radioInvB_modifyAt_inv _ q t par hq ht
              · intro hpar
                dsimp only
                rw [modifyAt_cons_some _ hci []]
                rw [modifyAt_nil]
                rw [fld_node, children_node]
                rw [radioInvB_node, Bool.and_eq_true]
                constructor
                · have hcnt := csl_count
                    (par.children.set i
                      (enableChildren
                        (Item.node (checkF it.fld c) it.children)
                        (c != 0))) 0 i
                  rw [if_pos (Nat.zero_le i)] at hcnt
                  exact decide_eq_true hcnt
                · apply csl_invL
                  apply radioInvL_set
                  · cases par with
                    | node pf pcs =>
                      rw [children_node]
                      rw [radioInvB_node, Bool.and_eq_true] at hpar
                      exact hpar.2
                  · rw [radioInvB_enableChildren, radioInvB_children]
                    exact hitinv
              · dsimp only
                rw [fld_node, fld_modifyAt]
      · rw [if_neg h2]
        by_cases hvk : orc.headD false = true
        · rw [if_pos hvk]; exact ht
        · rw [if_neg hvk]
          dsimp only
          have h1 : radioInvB (modifyAt
              (fun x => Item.node
                (if x.fld.is3State then set3StateValueF x.fld c
                 else checkF x.fld c) x.children) t p) = true := by
            apply radioInvB_modifyAt_inv _ p t it hg ht
            · intro hp2
              show radioInvB (Item.node
                (if it.fld.is3State then set3StateValueF it.fld c
                 else checkF it.fld c) it.children) = true
              rw [radioInvB_children]
              exact hp2
            · have hcf : (if it.fld.is3State then set3StateValueF it.fld c
                  else checkF it.fld c).ctype = it.fld.ctype := by
                split
                · exact set3StateValueF_ctype _ _
                · exact checkF_ctype _ _
              rw [fld_node, hcf]
              have h2f : (it.fld.ctype == 2) = false := by simpa using h2
              rw [h2f]
              simp
          have stage2 : ∀ u : Item, radioInvB u = true →
              radioInvB (if aC then
                match getAt u p with
                | some x => modifyAt
                    (fun y => Item.node y.fld (autoCheckChildL y.children
                      (getValueF x.fld))) u p
                | none => u
              else u) = true := by
            intro u hu
            by_cases haC : aC = true
            · rw [if_pos haC]
              cases hgx : getAt u p with
              | none => exact hu
              | some x =>
                apply radioInvB_modifyAt_inv _ p u x hgx hu
                · intro hx
                  rw [radioInvB_accNode]
                  exact hx
                · rw [fld_node]
            · rw [if_neg haC]; exact hu
          have stage3 : ∀ u : Item, radioInvB u = true →
              radioInvB (if aP then
                match getAt u p with
                | some x => autoCheckParentUp u p (getValueF x.fld)
                | none => u
              else if aT then
                modifyAt (fun y => Item.node y.fld
                  (autoToggleChildL y.children)) u p
              else u) = true := by
            intro u hu
            by_cases haP : aP = true
            · rw [if_pos haP]
              cases hgx : getAt u p with
              | none => exact hu
              | some x =>
                exact radioInvB_autoCheckParentRev p.reverse u
                  (getValueF x.fld) hu
            · rw [if_neg haP]
              by_cases haT : aT = true
              · rw [if_pos haT]
                cases hgy : getAt u p with
                | none => rw [modifyAt_getAt_none p u _ hgy]; exact hu
                | some y =>
                  apply radioInvB_modifyAt_inv _ p u y hgy hu
                  · intro hy
                    rw [radioInvB_atcNode]
                    exact hy
                  · rw [fld_node]
              · rw [if_neg haT]; exact hu
          exact stage3 _ (stage2 _ h1)

/-- C1 witness: the radio fixture satisfies the invariant, and checking
the first (unchecked) radio child keeps it satisfied. -/
theorem claim_C1_witness :
    radioInvB exRadioTree = true ∧
    radioInvB (checkItem exRadioTree [0] 1 false false false []).1 = true :=
  ⟨by decide, claim_C1 exRadioTree [0] 1 false false false [] (by decide)⟩

/-- Unfolding equation: the root address precedes everything. -/
theorem dfsLe_nil (q : TPath) : dfsLe [] q = true := rfl

/-- Unfolding equation: nothing below the root precedes it. -/
theorem dfsLe_cons_nil (a : Nat) (q : TPath) :
    dfsLe (a :: q) [] = false := rfl

/-- Unfolding equation for comparing two non-root addresses. -/
theorem dfsLe_cons_cons (a b : Nat) (q1 q2 : TPath) :
    dfsLe (a :: q1) (b :: q2) =
      if a < b then true else if b < a then false else dfsLe q1 q2 := rfl

/-- Depth-first order is reflexive. -/
theorem dfsLe_refl : ∀ q : TPath, dfsLe q q = true := by
  intro q
  induction q with
  | nil => rfl
  | cons a q ih =>
    rw [dfsLe_cons_cons, if_neg (lt_irrefl a), if_neg (lt_irrefl a)]
    exact ih

/-- Depth-first order is total. -/
theorem dfsLe_total : ∀ p q : TPath,
    dfsLe p q = false → dfsLe q p = true := by
  intro p
  induction p with
  | nil => intro q h; rw [dfsLe_nil] at h; exact absurd h (by simp)
  | cons a p ih =>
    intro q h
    cases q with
    | nil => rfl
    | cons b q2 =>
      rw [dfsLe_cons_cons] at h ⊢
      rcases lt_trichotomy a b with hab | hab | hab
      · rw [if_pos hab] at h; exact absurd h (by simp)
      · subst hab
        rw [if_neg (lt_irrefl a), if_neg (lt_irrefl a)] at h ⊢
        exact ih q2 h
      · rw [if_pos hab]

/-- Depth-first order is transitive. -/
theorem dfsLe_trans : ∀ a b c : TPath,
    dfsLe a b = true → dfsLe b c = true → dfsLe a c = true := by
  intro a
  induction a with
  | nil => intro b c _ _; rfl
  | cons x a2 ih =>
    intro b c h1 h2
    cases b with
    | nil => rw [dfsLe_cons_nil] at h1; exact absurd h1 (by simp)
    | cons y b2 =>
      cases c with
      | nil => rw [dfsLe_cons_nil] at h2; exact absurd h2 (by simp)
      | cons z c2 =>
        rw [dfsLe_cons_cons] at h1 h2 ⊢
        rcases lt_trichotomy x y with h | h | h
        · rcases lt_trichotomy y z with g | g | g
          · rw [if_pos (lt_trans h g)]
          · subst g; rw [if_pos h]
          · rw [if_neg (by omega), if_pos g] at h2
            exact absurd h2 (by simp)
        · subst h
          rcases lt_trichotomy x z with g | g | g
          · rw [if_pos g]
          · subst g
            rw [if_neg (lt_irrefl x), if_neg (lt_irrefl x)] at h1 h2 ⊢
            exact ih b2 c2 h1 h2
          · rw [if_neg (by omega), if_pos g] at h2
            exact absurd h2 (by simp)
        · rw [if_neg (by omega), if_pos h] at h1
          exact absurd h1 (by simp)

/-- Depth-first order is antisymmetric. -/
theorem dfsLe_antisymm : ∀ a b : TPath,
    dfsLe a b = true → dfsLe b a = true → a = b := by
  intro a
  induction a with
  | nil =>
    intro b h1 h2
    cases b with
    | nil => rfl
    | cons y b2 => rw [dfsLe_cons_nil] at h2; exact absurd h2 (by simp)
  | cons x a2 ih =>
    intro b h1 h2
    cases b with
    | nil => rw [dfsLe_cons_nil] at h1; exact absurd h1 (by simp)
    | cons y b2 =>
      rw [dfsLe_cons_cons] at h1 h2
      rcases lt_trichotomy x y with h | h | h
      · rw [if_neg (by omega), if_pos h] at h2
        exact absurd h2 (by simp)
      · subst h
        rw [if_neg (lt_irrefl x), if_neg (lt_irrefl x)] at h1 h2
        rw [ih b2 h1 h2]
      · rw [if_neg (by omega), if_pos h] at h1
        exact absurd h1 (by simp)

/-- Unfolding equation: the root address starts every address. -/
theorem isPfx_nil (l : TPath) : List.isPrefixOf ([] : TPath) l = true := by
  cases l <;> rfl

/-- Unfolding equation: a non-root address does not start the root. -/
theorem isPfx_cons_nil (a : Nat) (l : TPath) :
    List.isPrefixOf (a :: l) ([] : TPath) = false := rfl

/-- Unfolding equation for comparing two non-root address starts. -/
theorem isPfx_cons_cons (a b : Nat) (l1 l2 : TPath) :
    List.isPrefixOf (a :: l1) (b :: l2) =
      ((a == b) && List.isPrefixOf l1 l2) := rfl

/-- An address starts its own extensions. -/
theorem isPfx_append : ∀ p r : TPath, p.isPrefixOf (p ++ r) = true := by
  intro p
  induction p with
  | nil => intro r; exact isPfx_nil _
  | cons a p ih =>
    intro r
    rw [List.cons_append, isPfx_cons_cons, ih r]
    simp

/-- An address extends whatever starts it. -/
theorem eq_append_of_isPfx : ∀ p q : TPath, p.isPrefixOf q = true →
    q = p ++ q.drop p.length := by
  intro p
  induction p with
  | nil => intro q _; rfl
  | cons a p ih =>
    intro q h
    cases q with
    | nil => rw [isPfx_cons_nil] at h; exact absurd h (by simp)
    | cons b q2 =>
      rw [isPfx_cons_cons, Bool.and_eq_true] at h
      have hab : a = b := by simpa using h.1
      subst hab
      rw [List.cons_append, List.length_cons, List.drop_succ_cons]
      rw [← ih q2 h.2]

/-- An ancestor precedes its descendants in depth-first order. -/
theorem dfsLe_of_isPfx : ∀ p q : TPath, p.isPrefixOf q = true →
    dfsLe p q = true := by
  intro p
  induction p with
  | nil => intro q _; rfl
  | cons a p ih =>
    intro q h
    cases q with
    | nil => rw [isPfx_cons_nil] at h; exact absurd h (by simp)
    | cons b q2 =>
      rw [isPfx_cons_cons, Bool.and_eq_true] at h
      have hab : a = b := by simpa using h.1
      subst hab
      rw [dfsLe_cons_cons, if_neg (lt_irrefl a), if_neg (lt_irrefl a)]
      exact ih q2 h.2

/-- Depth-first comparison cancels a common ancestor. -/
theorem dfsLe_append_cancel : ∀ (p r1 r2 : TPath),
    dfsLe (p ++ r1) (p ++ r2) = dfsLe r1 r2 := by
  intro p
  induction p with
  | nil => intro r1 r2; rfl
  | cons a p ih =>
    intro r1 r2
    rw [List.cons_append, List.cons_append, dfsLe_cons_cons,
      if_neg (lt_irrefl a), if_neg (lt_irrefl a)]
    exact ih r1 r2

/-- Address starts cancel a common ancestor. -/
theorem isPfx_append_cancel : ∀ (p r1 r2 : TPath),
    (p ++ r1).isPrefixOf (p ++ r2) = r1.isPrefixOf r2 := by
  intro p
  induction p with
  | nil => intro r1 r2; rfl
  | cons a p ih =>
    intro r1 r2
    rw [List.cons_append, List.cons_append, isPfx_cons_cons, ih r1 r2]
    simp

/-- An address between an address and one of its descendants is itself a
descendant. -/
theorem dfsLe_between_isPfx : ∀ (pp a q b : TPath),
    dfsLe (pp ++ a) q = true → dfsLe q (pp ++ b) = true →
    pp.isPrefixOf q = true := by
  intro pp
  induction pp with
  | nil => intro a q b _ _; exact isPfx_nil _
  | cons x pp2 ih =>
    intro a q b h1 h2
    cases q with
    | nil =>
      rw [List.cons_append, dfsLe_cons_nil] at h1
      exact absurd h1 (by simp)
    | cons y q2 =>
      rw [List.cons_append, dfsLe_cons_cons] at h1 h2
      rcases lt_trichotomy x y with h | h | h
      · rw [if_neg (by omega), if_pos h] at h2
        exact absurd h2 (by simp)
      · subst h
        rw [if_neg (lt_irrefl x), if_neg (lt_irrefl x)] at h1 h2
        rw [isPfx_cons_cons, ih a q2 b h1 h2]
        simp
      · rw [if_neg (by omega), if_pos h] at h1
        exact absurd h1 (by simp)

/-- Extending an address does not change its comparison with addresses
that diverge from it. -/
theorem dfsLe_divergent_append : ∀ (q p s : TPath),
    q.isPrefixOf p = false → p.isPrefixOf q = false →
    dfsLe q (p ++ s) = dfsLe q p := by
  intro q
  induction q with
  | nil => intro p s h1 _; rw [isPfx_nil] at h1; exact absurd h1 (by simp)
  | cons a q2 ih =>
    intro p s h1 h2
    cases p with
    | nil => rw [isPfx_nil] at h2; exact absurd h2 (by simp)
    | cons b p2 =>
      rw [isPfx_cons_cons] at h1 h2
      rw [List.cons_append, dfsLe_cons_cons, dfsLe_cons_cons]
      rcases lt_trichotomy a b with h | h | h
      · rw [if_pos h, if_pos h]
      · subst h
        rw [if_neg (lt_irrefl a), if_neg (lt_irrefl a),
          if_neg (lt_irrefl a), if_neg (lt_irrefl a)]
        have hb : (a == a) = true := by simp
        rw [hb, Bool.true_and] at h1 h2
        exact ih p2 s h1 h2
      · rw [if_neg (show ¬ a < b by omega),
          if_neg (show ¬ a < b by omega), if_pos h, if_pos h]

/-- Nothing is strictly past the whole tree. -/
theorem afterSubB_nil (q : TPath) : afterSubB [] q = false := by
  unfold afterSubB
  rw [isPfx_nil]
  simp

/-- Being past a subtree cancels a common ancestor. -/
theorem afterSubB_append_cancel (pp a r : TPath) :
    afterSubB (pp ++ a) (pp ++ r) = afterSubB a r := by
  unfold afterSubB
  rw [dfsLe_append_cancel, isPfx_append_cancel]

/-- Unfolding equation for restriction at the subtree root. -/
theorem liftP_nil (ψ : TPath → Bool) (q : TPath) : liftP [] ψ q = ψ q :=
  rfl

/-- A restricted predicate recovers the original inside the subtree. -/
theorem liftP_append : ∀ (p : TPath) (ψ : TPath → Bool) (r : TPath),
    liftP p ψ (p ++ r) = ψ r := by
  intro p
  induction p with
  | nil => intro ψ r; rfl
  | cons i p ih =>
    intro ψ r
    rw [List.cons_append]
    show (if i = i then liftP p ψ (p ++ r) else false) = ψ r
    rw [if_pos rfl]
    exact ih ψ r

/-- A restricted predicate vanishes outside the subtree. -/
theorem liftP_not_pfx : ∀ (p : TPath) (ψ : TPath → Bool) (q : TPath),
    p.isPrefixOf q = false → liftP p ψ q = false := by
  intro p
  induction p with
  | nil => intro ψ q h; rw [isPfx_nil] at h; exact absurd h (by simp)
  | cons i p ih =>
    intro ψ q h
    cases q with
    | nil => rfl
    | cons j q2 =>
      rw [isPfx_cons_cons] at h
      show (if i = j then liftP p ψ q2 else false) = false
      by_cases hij : i = j
      · rw [if_pos hij]
        subst hij
        have hb : (i == i) = true := by simp
        rw [hb, Bool.true_and] at h
        exact ih ψ q2 h
      · rw [if_neg hij]

/-- Unfolding equation for the reference tagger at a node. -/
theorem mapWhere_node (sel : Bool) (φ : TPath → Bool) (f : Fields)
    (cs : List Item) :
    mapWhere sel φ (.node f cs) =
      .node (if φ [] then { f with hilight := sel } else f)
        (mapWhereL sel φ 0 cs) := rfl

/-- Unfolding equation for the reference tagger on a forest. -/
theorem mapWhereL_cons (sel : Bool) (φ : TPath → Bool) (i : Nat)
    (c : Item) (rest : List Item) :
    mapWhereL sel φ i (c :: rest) =
      mapWhere sel (fun r => φ (i :: r)) c ::
        mapWhereL sel φ (i + 1) rest := rfl

/-- Elementwise description of the forest tagger. -/
theorem mapWhereL_getElem : ∀ (cs : List Item) (sel : Bool)
    (φ : TPath → Bool) (i0 j : Nat),
    (mapWhereL sel φ i0 cs)[j]? =
      (cs[j]?).map (mapWhere sel (fun r => φ ((i0 + j) :: r))) := by
  intro cs
  induction cs with
  | nil => intro sel φ i0 j; simp [mapWhereL]
  | cons c rest ih =>
    intro sel φ i0 j
    rw [mapWhereL_cons]
    cases j with
    | zero =>
      simp only [List.getElem?_cons_zero, Option.map_some', Nat.add_zero]
    | succ j =>
      simp only [List.getElem?_cons_succ]
      rw [ih]
      simp only [show i0 + 1 + j = i0 + (j + 1) from by omega]

/-- The tagger only reads the predicate pointwise (forest form, with
possibly different starting indices). -/
theorem mapWhereL_congr_aux : ∀ (cs : List Item),
    (∀ c ∈ cs, ∀ (sel : Bool) (φ ψ : TPath → Bool),
      (∀ r, φ r = ψ r) → mapWhere sel φ c = mapWhere sel ψ c) →
    ∀ (sel : Bool) (φ ψ : TPath → Bool) (i0 j0 : Nat),
    (∀ (k : Nat) (r : TPath), φ ((i0 + k) :: r) = ψ ((j0 + k) :: r)) →
    mapWhereL sel φ i0 cs = mapWhereL sel ψ j0 cs := by
  intro cs
  induction cs with
  | nil => intro _ sel φ ψ i0 j0 _; rfl
  | cons c rest ih =>
    intro hmem sel φ ψ i0 j0 hk
    rw [mapWhereL_cons, mapWhereL_cons]
    congr 1
    · apply hmem c (by simp) sel
      intro r
      have := hk 0 r
      simpa using this
    · apply ih (fun c2 hc2 => hmem c2 (by simp [hc2])) sel φ ψ (i0 + 1)
        (j0 + 1)
      intro k r
      have := hk (k + 1) r
      simpa [show i0 + (k + 1) = i0 + 1 + k from by omega,
        show j0 + (k + 1) = j0 + 1 + k from by omega] using this

/-- The tagger only reads the predicate pointwise. -/
theorem mapWhere_congr : ∀ (t : Item) (sel : Bool) (φ ψ : TPath → Bool),
    (∀ r, φ r = ψ r) → mapWhere sel φ t = mapWhere sel ψ t := by
  apply Item.strongInd (fun t => ∀ (sel : Bool) (φ ψ : TPath → Bool),
    (∀ r, φ r = ψ r) → mapWhere sel φ t = mapWhere sel ψ t)
  intro f cs ih sel φ ψ h
  rw [mapWhere_node, mapWhere_node, h []]
  congr 1
  exact mapWhereL_congr_aux cs ih sel φ ψ 0 0 (fun k r => h ((0 + k) :: r))

/-- Tagging nothing is the identity. -/
theorem mapWhere_false : ∀ (t : Item) (sel : Bool) (φ : TPath → Bool),
    (∀ r, φ r = false) → mapWhere sel φ t = t := by
  apply Item.strongInd (fun t => ∀ (sel : Bool) (φ : TPath → Bool),
    (∀ r, φ r = false) → mapWhere sel φ t = t)
  intro f cs ih sel φ h
  rw [mapWhere_node, h [], if_neg (by simp)]
  congr 1
  have aux : ∀ (cs2 : List Item),
      (∀ c ∈ cs2, ∀ (sel2 : Bool) (φ2 : TPath → Bool),
        (∀ r, φ2 r = false) → mapWhere sel2 φ2 c = c) →
      ∀ i0, (∀ (k : Nat) (r : TPath), φ ((i0 + k) :: r) = false) →
      mapWhereL sel φ i0 cs2 = cs2 := by
    intro cs2
    induction cs2 with
    | nil => intro _ i0 _; rfl
    | cons c rest ihl =>
      intro hmem i0 hk
      rw [mapWhereL_cons]
      congr 1
      · apply hmem c (by simp) sel
        intro r
        have := hk 0 r
        simpa using this
      · apply ihl (fun c2 hc2 => hmem c2 (by simp [hc2])) (i0 + 1)
        intro k r
        have := hk (k + 1) r
        simpa [show i0 + (k + 1) = i0 + 1 + k from by omega] using this
  exact aux cs ih 0 (fun k r => h ((0 + k) :: r))

/-- Two tagging passes with the same value merge into one pass on the
union of the regions. -/
theorem mapWhere_compose : ∀ (t : Item) (sel : Bool)
    (φ ψ : TPath → Bool),
    mapWhere sel ψ (mapWhere sel φ t) =
      mapWhere sel (fun r => φ r || ψ r) t := by
  apply Item.strongInd (fun t => ∀ (sel : Bool) (φ ψ : TPath → Bool),
    mapWhere sel ψ (mapWhere sel φ t) =
      mapWhere sel (fun r => φ r || ψ r) t)
  intro f cs ih sel φ ψ
  rw [mapWhere_node, mapWhere_node, mapWhere_node]
  congr 1
  · by_cases hφ : φ [] = true <;> by_cases hψ : ψ [] = true <;>
      simp [hφ, hψ]
  · have aux : ∀ (cs2 : List Item),
        (∀ c ∈ cs2, ∀ (sel2 : Bool) (φ2 ψ2 : TPath → Bool),
          mapWhere sel2 ψ2 (mapWhere sel2 φ2 c) =
            mapWhere sel2 (fun r => φ2 r || ψ2 r) c) →
        ∀ i0, mapWhereL sel ψ i0 (mapWhereL sel φ i0 cs2) =
          mapWhereL sel (fun r => φ r || ψ r) i0 cs2 := by
      intro cs2
      induction cs2 with
      | nil => intro _ i0; rfl
      | cons c rest ihl =>
        intro hmem i0
        rw [mapWhereL_cons, mapWhereL_cons, mapWhereL_cons]
        congr 1
        · exact hmem c (by simp) sel (fun r => φ (i0 :: r))
            (fun r => ψ (i0 :: r))
        · exact ihl (fun c2 hc2 => hmem c2 (by simp [hc2])) (i0 + 1)
    exact aux cs ih 0

/-- Subtrees of a tagged tree are tagged subtrees (with the predicate
shifted by the address). -/
theorem getAt_mapWhere : ∀ (q : TPath) (t : Item) (sel : Bool)
    (φ : TPath → Bool),
    getAt (mapWhere sel φ t) q =
      (getAt t q).map (fun s => mapWhere sel (fun r => φ (q ++ r)) s)
    := by
  intro q
  induction q with
  | nil => intro t sel φ; rfl
  | cons i q2 ih =>
    intro t sel φ
    cases t with
    | node f cs =>
      rw [mapWhere_node]
      cases hc : cs[i]? with
      | none =>
        have h2 : (mapWhereL sel φ 0 cs)[i]? = none := by
          rw [mapWhereL_getElem, hc]
          rfl
        rw [getAt_cons_none (by rw [children_node]; exact h2),
          getAt_cons_none (by rw [children_node]; exact hc)]
        rfl
      | some c =>
        have h2 : (mapWhereL sel φ 0 cs)[i]? =
            some (mapWhere sel (fun r => φ ((0 + i) :: r)) c) := by
          rw [mapWhereL_getElem, hc]
          rfl
        rw [getAt_cons_some (by rw [children_node]; exact h2),
          getAt_cons_some (by rw [children_node]; exact hc)]
        rw [ih]
        simp only [Nat.zero_add]
        rfl

/-- The record of a tagged node: only the hilight flag can change. -/
theorem mapWhere_fld (t : Item) (sel : Bool) (φ : TPath → Bool) :
    (mapWhere sel φ t).fld =
      if φ [] then { t.fld with hilight := sel } else t.fld := by
  cases t with
  | node f cs => rw [mapWhere_node, fld_node, fld_node]

/-- Tagging never changes an item id. -/
theorem mapWhere_fld_id (t : Item) (sel : Bool) (φ : TPath → Bool) :
    (mapWhere sel φ t).fld.id = t.fld.id := by
  rw [mapWhere_fld]
  split <;> rfl

/-- Per-node reading of the reference tagger. -/
theorem fieldsAt_mapWhere : ∀ (q : TPath) (t : Item) (sel : Bool)
    (φ : TPath → Bool) (c : Item), getAt t q = some c →
    fieldsAt (mapWhere sel φ t) q =
      some (if φ q then { c.fld with hilight := sel } else c.fld) := by
  intro q t sel φ c hg
  unfold fieldsAt
  rw [getAt_mapWhere, hg, Option.map_some', Option.map_some',
    mapWhere_fld]
  rw [List.append_nil]

/-- Forest version of `mapWhere_false`. -/
theorem mapWhereL_false : ∀ (cs : List Item) (sel : Bool)
    (φ : TPath → Bool) (i0 : Nat),
    (∀ (k : Nat) (r : TPath), φ ((i0 + k) :: r) = false) →
    mapWhereL sel φ i0 cs = cs := by
  intro cs
  induction cs with
  | nil => intro sel φ i0 _; rfl
  | cons c rest ih =>
    intro sel φ i0 hk
    rw [mapWhereL_cons]
    congr 1
    · apply mapWhere_false c sel
      intro r
      have := hk 0 r
      simpa using this
    · apply ih sel φ (i0 + 1)
      intro k r
      have := hk (k + 1) r
      simpa [show i0 + (k + 1) = i0 + 1 + k from by omega] using this

/-- Tagging restricted to the subtree at child index `i` rewrites only
that child. -/
theorem mapWhereL_liftP : ∀ (cs : List Item) (sel : Bool) (p2 : TPath)
    (ψ : TPath → Bool) (i i0 : Nat) (ci : Item),
    i0 ≤ i → cs[i - i0]? = some ci →
    mapWhereL sel (liftP (i :: p2) ψ) i0 cs =
      cs.set (i - i0) (mapWhere sel (liftP p2 ψ) ci) := by
  intro cs
  induction cs with
  | nil => intro sel p2 ψ i i0 ci _ hc; simp at hc
  | cons c rest ih =>
    intro sel p2 ψ i i0 ci hle hc
    rw [mapWhereL_cons]
    by_cases h : i0 = i
    · subst h
      rw [Nat.sub_self] at hc ⊢
      simp only [List.getElem?_cons_zero, Option.some.injEq] at hc
      subst hc
      rw [List.set_cons_zero]
      congr 1
      · apply mapWhere_congr
        intro r
        show (if i0 = i0 then liftP p2 ψ r else false) = liftP p2 ψ r
        rw [if_pos rfl]
      · apply mapWhereL_false
        intro k r
        show (if i0 = i0 + 1 + k then liftP p2 ψ r else false) = false
        rw [if_neg (by omega)]
    · have hlt : i0 < i := by omega
      have hsub : i - i0 = (i - (i0 + 1)) + 1 := by omega
      rw [hsub] at hc ⊢
      simp only [List.getElem?_cons_succ] at hc
      rw [List.set_cons_succ]
      congr 1
      · apply mapWhere_false
        intro r
        show (if i = i0 then liftP p2 ψ r else false) = false
        rw [if_neg (by omega)]
      · exact ih sel p2 ψ i (i0 + 1) ci (by omega) hc

/-- Replacing the subtree at `p` by its tagged version tags the whole
tree on the region lifted to `p`. -/
theorem setAt_mapWhere : ∀ (p : TPath) (t sub : Item) (sel : Bool)
    (ψ : TPath → Bool), getAt t p = some sub →
    setAt t p (mapWhere sel ψ sub) =
      mapWhere sel (liftP p ψ) t := by
  intro p
  induction p with
  | nil =>
    intro t sub sel ψ hget
    rw [getAt_nil] at hget
    simp only [Option.some.injEq] at hget
    subst hget
    show mapWhere sel ψ t = mapWhere sel (liftP [] ψ) t
    apply mapWhere_congr
    intro r
    rw [liftP_nil]
  | cons i p2 ih =>
    intro t sub sel ψ hget
    cases hc : t.children[i]? with
    | none => rw [getAt_cons_none hc] at hget; simp at hget
    | some ci =>
      rw [getAt_cons_some hc] at hget
      show modifyAt _ t (i :: p2) = _
      rw [modifyAt_cons_some _ hc]
      cases t with
      | node f cs =>
        rw [children_node] at hc
        rw [children_node, fld_node, mapWhere_node]
        have hroot : liftP (i :: p2) ψ [] = false := rfl
        rw [hroot, if_neg (by simp)]
        congr 1
        have hIH := ih ci sub sel ψ hget
        have hc0 : cs[i - 0]? = some ci := by
          rw [Nat.sub_zero]
          exact hc
        rw [mapWhereL_liftP cs sel p2 ψ i 0 ci (Nat.zero_le i) hc0]
        rw [Nat.sub_zero, ← hIH]
        rfl

/-- Unfolding equation for `TagAllChildrenUntilLast` at a node. -/
theorem tagAll_node (f : Fields) (cs : List Item) (lastId : Nat)
    (sel : Bool) :
    tagAll (.node f cs) lastId sel =
      if f.id == lastId then (.node { f with hilight := sel } cs, true)
      else (.node { f with hilight := sel } (tagAllL cs lastId sel).1,
        (tagAllL cs lastId sel).2) := rfl

/-- Unfolding equation for the `TagAllChildrenUntilLast` child loop. -/
theorem tagAllL_cons (c : Item) (rest : List Item) (lastId : Nat)
    (sel : Bool) :
    tagAllL (c :: rest) lastId sel =
      if (tagAll c lastId sel).2 then ((tagAll c lastId sel).1 :: rest, true)
      else ((tagAll c lastId sel).1 :: (tagAllL rest lastId sel).1,
        (tagAllL rest lastId sel).2) := rfl

/-- `TagAllChildrenUntilLast` child loop when the last item is in none
of the children: everything is tagged and the scan reports not found. -/
theorem tagAllL_notIn_aux : ∀ (cs : List Item) (lastId : Nat)
    (sel : Bool),
    (∀ c ∈ cs, tagAll c lastId sel =
      (mapWhere sel (fun _ => true) c, false)) →
    ∀ i0, tagAllL cs lastId sel =
      (mapWhereL sel (fun _ => true) i0 cs, false) := by
  intro cs
  induction cs with
  | nil => intro lastId sel _ i0; rfl
  | cons c rest ih =>
    intro lastId sel hmem i0
    rw [tagAllL_cons, hmem c (by simp)]
    rw [ih lastId sel (fun c2 hc2 => hmem c2 (by simp [hc2])) (i0 + 1)]
    rw [mapWhereL_cons]
    simp

/-- `TagAllChildrenUntilLast` on a subtree that does not contain the
last item: the whole subtree is tagged and the call reports not
found. -/
theorem tagAll_notIn : ∀ (sub : Item) (lastId : Nat) (sel : Bool),
    (∀ (q : TPath) (c : Item), getAt sub q = some c →
      (c.fld.id == lastId) = false) →
    tagAll sub lastId sel = (mapWhere sel (fun _ => true) sub, false) := by
  apply Item.strongInd (fun sub => ∀ (lastId : Nat) (sel : Bool),
    (∀ (q : TPath) (c : Item), getAt sub q = some c →
      (c.fld.id == lastId) = false) →
    tagAll sub lastId sel = (mapWhere sel (fun _ => true) sub, false))
  intro f cs ih lastId sel h
  have hroot : (f.id == lastId) = false := by
    have := h [] (.node f cs) (getAt_nil _)
    rw [fld_node] at this
    exact this
  rw [tagAll_node, if_neg (by simp [hroot]), mapWhere_node,
    if_pos rfl]
  have hchildren : ∀ c ∈ cs, tagAll c lastId sel =
      (mapWhere sel (fun _ => true) c, false) := by
    intro c hc
    obtain ⟨j, hj⟩ := List.getElem?_of_mem hc
    apply ih c hc lastId sel
    intro q cq hq
    apply h (j :: q) cq
    rw [getAt_cons_some (by rw [children_node]; exact hj)]
    exact hq
  rw [tagAllL_notIn_aux cs lastId sel hchildren 0]

/-- `TagAllChildrenUntilLast` child loop when the last item first
occurs inside child `i` at relative address `ql2`: earlier children are
fully tagged, child `i` is tagged up to the hit, later children are
untouched, and the scan reports found. -/
theorem tagAllL_found_aux : ∀ (cs : List Item) (i i0 : Nat) (ci : Item)
    (ql2 : TPath) (lastId : Nat) (sel : Bool),
    i0 ≤ i → cs[i - i0]? = some ci →
    (∀ (j : Nat) (c : Item), j < i - i0 → cs[j]? = some c →
      tagAll c lastId sel = (mapWhere sel (fun _ => true) c, false)) →
    tagAll ci lastId sel =
      (mapWhere sel (fun q => dfsLe q ql2) ci, true) →
    tagAllL cs lastId sel =
      (mapWhereL sel (fun q => dfsLe q (i :: ql2)) i0 cs, true) := by
  intro cs
  induction cs with
  | nil => intro i i0 ci ql2 lastId sel _ hc; simp at hc
  | cons c rest ih =>
    intro i i0 ci ql2 lastId sel hle hc hbefore hfound
    rw [tagAllL_cons, mapWhereL_cons]
    by_cases h0 : i0 = i
    · subst h0
      rw [Nat.sub_self] at hc hbefore
      simp only [List.getElem?_cons_zero, Option.some.injEq] at hc
      subst hc
      rw [hfound]
      rw [if_pos (show ((mapWhere sel (fun q => dfsLe q ql2) c, true) :
        Item × Bool).2 = true from rfl)]
      congr 2
      · apply (mapWhere_congr _ _ _ _ ?_).symm
        intro r
        show dfsLe (i0 :: r) (i0 :: ql2) = dfsLe r ql2
        rw [dfsLe_cons_cons, if_neg (lt_irrefl i0), if_neg (lt_irrefl i0)]
      · symm
        apply mapWhereL_false
        intro k r
        show dfsLe ((i0 + 1 + k) :: r) (i0 :: ql2) = false
        rw [dfsLe_cons_cons, if_neg (by omega), if_pos (by omega)]
    · have hlt : i0 < i := by omega
      have hsub : i - i0 = (i - (i0 + 1)) + 1 := by omega
      have hbef0 : tagAll c lastId sel =
          (mapWhere sel (fun _ => true) c, false) := by
        apply hbefore 0 c (by omega)
        simp
      have hc2 : rest[i - (i0 + 1)]? = some ci := by
        have h3 := hc
        rw [hsub, List.getElem?_cons_succ] at h3
        exact h3
      rw [hbef0]
      rw [ih i (i0 + 1) ci ql2 lastId sel (by omega) hc2
        (fun j c2 hj hcj => hbefore (j + 1) c2 (by omega)
          (by rw [List.getElem?_cons_succ]; exact hcj))
        hfound]
      simp only [Bool.false_eq_true, if_false]
      congr 2
      apply (mapWhere_congr _ _ _ _ ?_).symm
      intro r
      show dfsLe (i0 :: r) (i :: ql2) = true
      rw [dfsLe_cons_cons, if_pos hlt]

/-- `TagAllChildrenUntilLast` on a subtree whose depth-first first
occurrence of the last item is at address `ql`: the subtree is tagged
exactly on the addresses up to `ql`, and the call reports found. -/
theorem tagAll_found : ∀ (sub : Item) (ql : TPath) (lnode : Item)
    (lastId : Nat) (sel : Bool),
    getAt sub ql = some lnode → (lnode.fld.id == lastId) = true →
    (∀ (q : TPath) (c : Item), getAt sub q = some c →
      (c.fld.id == lastId) = true → dfsLe ql q = true) →
    tagAll sub lastId sel =
      (mapWhere sel (fun q => dfsLe q ql) sub, true) := by
  apply Item.strongInd (fun sub => ∀ (ql : TPath) (lnode : Item)
    (lastId : Nat) (sel : Bool),
    getAt sub ql = some lnode → (lnode.fld.id == lastId) = true →
    (∀ (q : TPath) (c : Item), getAt sub q = some c →
      (c.fld.id == lastId) = true → dfsLe ql q = true) →
    tagAll sub lastId sel =
      (mapWhere sel (fun q => dfsLe q ql) sub, true))
  intro f cs ih ql lnode lastId sel hql hid hfirst
  cases ql with
  | nil =>
    rw [getAt_nil] at hql
    simp only [Option.some.injEq] at hql
    rw [tagAll_node, if_pos (by rw [← fld_node f cs, hql]; simpa using hid)]
    rw [mapWhere_node, if_pos (dfsLe_nil [])]
    rw [mapWhereL_false cs sel _ 0 (fun k r => rfl)]
  | cons i ql2 =>
    have hroot : (f.id == lastId) = false := by
      cases hb : (f.id == lastId) with
      | false => rfl
      | true =>
        have := hfirst [] (.node f cs) (getAt_nil _)
          (by rw [fld_node]; exact hb)
        rw [dfsLe_cons_nil] at this
        exact absurd this (by simp)
    cases hc : cs[i]? with
    | none =>
      rw [getAt_cons_none (by rw [children_node]; exact hc)] at hql
      exact absurd hql (by simp)
    | some ci =>
      rw [getAt_cons_some (by rw [children_node]; exact hc)] at hql
      rw [tagAll_node, if_neg (by simp [hroot])]
      rw [mapWhere_node, if_pos (dfsLe_nil (i :: ql2))]
      have hbefore : ∀ (j : Nat) (c : Item), j < i → cs[j]? = some c →
          tagAll c lastId sel =
            (mapWhere sel (fun _ => true) c, false) := by
        intro j c hj hcj
        apply tagAll_notIn c lastId sel
        intro q cq hq
        cases hm : (cq.fld.id == lastId) with
        | false => rfl
        | true =>
          have := hfirst (j :: q) cq
            (by rw [getAt_cons_some (by rw [children_node]; exact hcj)]
                exact hq) hm
          rw [dfsLe_cons_cons, if_neg (by omega), if_pos hj] at this
          exact absurd this (by simp)
      have hfound : tagAll ci lastId sel =
          (mapWhere sel (fun q => dfsLe q ql2) ci, true) := by
        apply ih ci (List.getElem?_mem hc) ql2 lnode lastId sel hql hid
        intro q cq hq hm
        have := hfirst (i :: q) cq
          (by rw [getAt_cons_some (by rw [children_node]; exact hc)]
              exact hq) hm
        rw [dfsLe_cons_cons, if_neg (lt_irrefl i),
          if_neg (lt_irrefl i)] at this
        exact this
      rw [tagAllL_found_aux cs i 0 ci ql2 lastId sel (Nat.zero_le i)
        (by rw [Nat.sub_zero]; exact hc)
        (by rw [Nat.sub_zero]; exact hbefore) hfound]

/-- Extending an address does not change how it compares to addresses
that diverge from it (left version). -/
theorem dfsLe_divergent_append_left : ∀ (p q s : TPath),
    q.isPrefixOf p = false → p.isPrefixOf q = false →
    dfsLe (p ++ s) q = dfsLe p q := by
  intro p
  induction p with
  | nil => intro q s _ h2; rw [isPfx_nil] at h2; exact absurd h2 (by simp)
  | cons a p2 ih =>
    intro q s h1 h2
    cases q with
    | nil =>
      rw [List.cons_append, dfsLe_cons_nil, dfsLe_cons_nil]
    | cons b q2 =>
      rw [isPfx_cons_cons] at h1 h2
      rw [List.cons_append, dfsLe_cons_cons, dfsLe_cons_cons]
      rcases lt_trichotomy a b with h | h | h
      · rw [if_pos h, if_pos h]
      · subst h
        rw [if_neg (lt_irrefl a), if_neg (lt_irrefl a),
          if_neg (lt_irrefl a), if_neg (lt_irrefl a)]
        have hb : (a == a) = true := by simp
        rw [hb, Bool.true_and] at h1 h2
        exact ih q2 s h1 h2
      · rw [if_neg (show ¬ a < b by omega),
          if_neg (show ¬ a < b by omega), if_pos h, if_pos h]

/-- A start of an address also starts its extensions. -/
theorem isPfx_trans_append (q pp s : TPath)
    (h : q.isPrefixOf pp = true) : q.isPrefixOf (pp ++ s) = true := by
  have h2 := eq_append_of_isPfx q pp h
  rw [h2, List.append_assoc]
  exact isPfx_append q _

/-- Reading the components of being past a subtree. -/
theorem afterSubB_iff (a q : TPath) : afterSubB a q = true ↔
    (dfsLe q a = false ∧ a.isPrefixOf q = false) := by
  unfold afterSubB
  rw [Bool.and_eq_true, Bool.not_eq_true', Bool.not_eq_true']

/-- Everything inside a subtree precedes anything past the subtree. -/
theorem afterSub_under_le (a p r : TPath) (h : afterSubB a p = true) :
    dfsLe (a ++ r) p = true := by
  rw [afterSubB_iff] at h
  have hpa : p.isPrefixOf a = false := by
    cases hb : p.isPrefixOf a with
    | false => rfl
    | true =>
      have := dfsLe_of_isPfx p a hb
      rw [this] at h
      exact absurd h.1 (by simp)
  rw [dfsLe_divergent_append_left a p r hpa h.2]
  exact dfsLe_total p a h.1

/-- Being past a subtree does not depend on the last step of the
subtree address, for addresses outside the parent subtree. -/
theorem afterSub_extend_eq (pp q : TPath) (a : Nat)
    (h : pp.isPrefixOf q = false) :
    afterSubB (pp ++ [a]) q = afterSubB pp q := by
  unfold afterSubB
  have hpfx : (pp ++ [a]).isPrefixOf q = false := by
    cases hb : (pp ++ [a]).isPrefixOf q with
    | false => rfl
    | true =>
      have h2 := eq_append_of_isPfx _ q hb
      rw [h2, List.append_assoc, isPfx_append] at h
      exact absurd h (by simp)
  rw [hpfx, h]
  cases hqp : q.isPrefixOf pp with
  | true =>
    rw [dfsLe_of_isPfx q pp hqp,
      dfsLe_of_isPfx q (pp ++ [a]) (isPfx_trans_append q pp [a] hqp)]
  | false =>
    rw [dfsLe_divergent_append q pp [a] hqp h]

/-- Being past a subtree implies being past any deeper subtree. -/
theorem afterSub_extend (pp q : TPath) (a : Nat)
    (h : afterSubB pp q = true) : afterSubB (pp ++ [a]) q = true := by
  rw [afterSub_extend_eq pp q a ((afterSubB_iff pp q).mp h).2]
  exact h

/-- A forest tagging pass that skips the first `m` elements splits into
the untouched front and the tagged remainder. -/
theorem mapWhereL_split : ∀ (m : Nat) (cs : List Item) (sel : Bool)
    (φ : TPath → Bool) (i0 : Nat),
    (∀ (k : Nat) (r : TPath), k < m → φ ((i0 + k) :: r) = false) →
    mapWhereL sel φ i0 cs =
      cs.take m ++ mapWhereL sel φ (i0 + m) (cs.drop m) := by
  intro m
  induction m with
  | zero =>
    intro cs sel φ i0 _
    rw [List.take_zero, List.drop_zero, List.nil_append, Nat.add_zero]
  | succ m ih =>
    intro cs sel φ i0 h
    cases cs with
    | nil => rfl
    | cons c rest =>
      rw [List.take_succ_cons, List.drop_succ_cons, mapWhereL_cons,
        List.cons_append]
      congr 1
      · apply mapWhere_false
        intro r
        have := h 0 r (by omega)
        simpa using this
      · rw [ih rest sel φ (i0 + 1)
          (fun k r hk => by
            have := h (k + 1) r (by omega)
            simpa [show i0 + (k + 1) = i0 + 1 + k from by omega]
              using this)]
        rw [show i0 + 1 + m = i0 + (m + 1) from by omega]

/-- A later sibling subtree is past the subtree of child `idx`. -/
theorem afterSub_single_gt (idx j2 : Nat) (r : TPath) (h : idx < j2) :
    afterSubB [idx] (j2 :: r) = true := by
  rw [afterSubB_iff]
  constructor
  · rw [dfsLe_cons_cons, if_neg (by omega), if_pos (by omega)]
  · rw [isPfx_cons_cons, isPfx_nil]
    have hne : (idx == j2) = false := by
      simp only [beq_eq_false_iff_ne]
      omega
    rw [hne, Bool.false_and]

/-- The subtree of child `idx` and everything before it is not past
that child. -/
theorem afterSub_single_le (idx kk : Nat) (r : TPath) (h : kk ≤ idx) :
    afterSubB [idx] (kk :: r) = false := by
  unfold afterSubB
  by_cases hlt : kk < idx
  · rw [dfsLe_cons_cons, if_pos hlt]
    rfl
  · have hk : kk = idx := by omega
    subst hk
    rw [isPfx_cons_cons, isPfx_nil]
    have hb : (kk == kk) = true := by simp
    rw [hb, Bool.true_and, Bool.not_true, Bool.and_false]

/-- No address is past the subtree it starts. -/
theorem afterSub_self_append (a r : TPath) :
    afterSubB a (a ++ r) = false := by
  unfold afterSubB
  rw [isPfx_append, Bool.not_true, Bool.and_false]

/-- `TagNextChildren` when the last item lies strictly past the subtree
of the current item and the current item's address is valid: the sweep
tags exactly the addresses past that subtree and up to the first
occurrence of the last item, and reports found. -/
theorem tagNextRev_found : ∀ (rev : List Nat) (t : Item) (p2 : TPath)
    (lastId : Nat) (sel : Bool) (cur lnode : Item),
    getAt t rev.reverse = some cur →
    getAt t p2 = some lnode → (lnode.fld.id == lastId) = true →
    afterSubB rev.reverse p2 = true →
    (∀ (q : TPath) (c : Item), getAt t q = some c →
      (c.fld.id == lastId) = true → afterSubB rev.reverse q = true →
      dfsLe p2 q = true) →
    tagNextRev t rev lastId sel =
      (mapWhere sel (fun q => afterSubB rev.reverse q && dfsLe q p2) t,
        true) := by
  intro rev
  induction rev with
  | nil =>
    intro t p2 lastId sel cur lnode _ _ _ hAfter _
    rw [List.reverse_nil, afterSubB_nil] at hAfter
    exact absurd hAfter (by simp)
  | cons idx restRev ih =>
    intro t p2 lastId sel cur lnode hcur hp2 hid hAfter hfirst
    rw [List.reverse_cons] at hcur hAfter hfirst ⊢
    obtain ⟨par, hq, hci⟩ :=
      getAt_concat_split t cur restRev.reverse idx hcur
    rw [show tagNextRev t (idx :: restRev) lastId sel =
      (match getAt t restRev.reverse with
       | none => (t, false)
       | some par =>
         if (tagAllL (par.children.drop (idx + 1)) lastId sel).2 then
           (setAt t restRev.reverse
             (.node par.fld (par.children.take (idx + 1) ++
               (tagAllL (par.children.drop (idx + 1)) lastId sel).1)),
             true)
         else
           tagNextRev
             (setAt t restRev.reverse
               (.node par.fld (par.children.take (idx + 1) ++
                 (tagAllL (par.children.drop (idx + 1)) lastId sel).1)))
             restRev lastId sel) from rfl]
    rw [hq]
    dsimp only
    by_cases hin : restRev.reverse.isPrefixOf p2 = true
    · -- the last item is below a later sibling of the current item
      have hp2eq := eq_append_of_isPfx _ p2 hin
      cases hr2 : p2.drop restRev.reverse.length with
      | nil =>
        rw [hr2, List.append_nil] at hp2eq
        have hcontra := ((afterSubB_iff _ _).mp hAfter).1
        rw [hp2eq, dfsLe_of_isPfx _ _ (isPfx_append _ _)] at hcontra
        exact absurd hcontra (by simp)
      | cons k tail =>
        rw [hr2] at hp2eq
        have hAfter2 : afterSubB [idx] (k :: tail) = true := by
          have h3 := hAfter
          rw [hp2eq, afterSubB_append_cancel] at h3
          exact h3
        have hk : idx < k := by
          rw [afterSubB_iff] at hAfter2
          obtain ⟨hd, hpf⟩ := hAfter2
          rw [dfsLe_cons_cons] at hd
          rw [isPfx_cons_cons, isPfx_nil] at hpf
          rcases lt_trichotomy k idx with h | h | h
          · rw [if_pos h] at hd; exact absurd hd (by simp)
          · subst h; simp at hpf
          · exact h
        have hp2' : getAt par (k :: tail) = some lnode := by
          have h3 := hp2
          rw [hp2eq, getAt_append, hq, Option.some_bind] at h3
          exact h3
        cases hck : par.children[k]? with
        | none =>
          rw [getAt_cons_none hck] at hp2'
          exact absurd hp2' (by simp)
        | some ck =>
          rw [getAt_cons_some hck] at hp2'
          have hcs : (par.children.drop (idx + 1))[k - (idx + 1)]? =
              some ck := by
            rw [List.getElem?_drop,
              show (idx + 1) + (k - (idx + 1)) = k from by omega]
            exact hck
          have hbef : ∀ (j : Nat) (c : Item), j < k - (idx + 1) →
              (par.children.drop (idx + 1))[j]? = some c →
              tagAll c lastId sel =
                (mapWhere sel (fun _ => true) c, false) := by
            intro j c hj hcj
            rw [List.getElem?_drop] at hcj
            apply tagAll_notIn
            intro qx cq hqx
            cases hm : (cq.fld.id == lastId) with
            | false => rfl
            | true =>
              exfalso
              have hga : getAt t
                  (restRev.reverse ++ (idx + 1 + j) :: qx) = some cq := by
                rw [getAt_append, hq, Option.some_bind,
                  getAt_cons_some hcj]
                exact hqx
              have hAf : afterSubB (restRev.reverse ++ [idx])
                  (restRev.reverse ++ (idx + 1 + j) :: qx) = true := by
                rw [afterSubB_append_cancel]
                exact afterSub_single_gt idx (idx + 1 + j) qx (by omega)
              have h4 := hfirst _ cq hga hm hAf
              rw [hp2eq, dfsLe_append_cancel, dfsLe_cons_cons,
                if_neg (by omega), if_pos (by omega)] at h4
              exact absurd h4 (by simp)
          have hfnd : tagAll ck lastId sel =
              (mapWhere sel (fun q => dfsLe q tail) ck, true) := by
            apply tagAll_found ck tail lnode lastId sel hp2' hid
            intro qx cq hqx hm
            have hga : getAt t (restRev.reverse ++ k :: qx) = some cq
                := by
              rw [getAt_append, hq, Option.some_bind,
                getAt_cons_some hck]
              exact hqx
            have hAf : afterSubB (restRev.reverse ++ [idx])
                (restRev.reverse ++ k :: qx) = true := by
              rw [afterSubB_append_cancel]
              exact afterSub_single_gt idx k qx hk
            have h4 := hfirst _ cq hga hm hAf
            rw [hp2eq, dfsLe_append_cancel, dfsLe_cons_cons,
              if_neg (lt_irrefl k), if_neg (lt_irrefl k)] at h4
            exact h4
          rw [tagAllL_found_aux (par.children.drop (idx + 1)) k (idx + 1)
            ck tail lastId sel (by omega) hcs hbef hfnd]
          rw [if_pos (show ((mapWhereL sel (fun q => dfsLe q (k :: tail))
            (idx + 1) (par.children.drop (idx + 1)), true) :
            List Item × Bool).2 = true from rfl)]
          have hnode : Item.node par.fld (par.children.take (idx + 1) ++
              (mapWhereL sel (fun q => dfsLe q (k :: tail)) (idx + 1)
                (par.children.drop (idx + 1)))) =
              mapWhere sel
                (fun q => afterSubB [idx] q && dfsLe q (k :: tail)) par
              := by
            cases par with
            | node pf pcs =>
              rw [mapWhere_node, children_node, fld_node]
              have hroot : (afterSubB [idx] [] &&
                  dfsLe [] (k :: tail)) = false := by
                rw [show afterSubB [idx] ([] : TPath) = false from by
                  unfold afterSubB
                  rw [dfsLe_nil]
                  rfl]
                rw [Bool.false_and]
              rw [if_neg (by rw [hroot]; simp)]
              congr 1
              rw [mapWhereL_split (idx + 1) pcs sel _ 0
                (fun kk r hkk => by
                  rw [show afterSubB [idx] ((0 + kk) :: r) = false from
                    afterSub_single_le idx (0 + kk) r (by omega),
                    Bool.false_and])]
              congr 1
              rw [Nat.zero_add]
              apply mapWhereL_congr_aux _ (fun c _ => mapWhere_congr c)
                sel _ _ (idx + 1) (idx + 1)
              intro kk r
              rw [show afterSubB [idx] (((idx + 1) + kk) :: r) = true from
                afterSub_single_gt idx ((idx + 1) + kk) r (by omega),
                Bool.true_and]
          rw [hnode, setAt_mapWhere _ t par sel _ hq]
          congr 1
          apply mapWhere_congr
          intro q
          by_cases hpq : restRev.reverse.isPrefixOf q = true
          · have hqeq := eq_append_of_isPfx _ q hpq
            rw [hqeq, liftP_append, afterSubB_append_cancel, hp2eq,
              dfsLe_append_cancel]
          · rw [liftP_not_pfx _ _ q (Bool.eq_false_iff.mpr hpq)]
            symm
            cases hAq : afterSubB (restRev.reverse ++ [idx]) q with
            | false => rw [Bool.false_and]
            | true =>
              cases hdq : dfsLe q p2 with
              | false => rw [Bool.and_false]
              | true =>
                exfalso
                have h1 : dfsLe (restRev.reverse ++ [idx]) q = true :=
                  dfsLe_total _ _ ((afterSubB_iff _ _).mp hAq).1
                have h2 : dfsLe q (restRev.reverse ++ (k :: tail)) = true
                    := by rw [← hp2eq]; exact hdq
                have h3 := dfsLe_between_isPfx restRev.reverse [idx] q
                  (k :: tail) h1 h2
                exact hpq h3
    · -- the last item is past the parent subtree: recurse upward
      have hinb : restRev.reverse.isPrefixOf p2 = false :=
        Bool.eq_false_iff.mpr hin
      have hAfterPP : afterSubB restRev.reverse p2 = true := by
        rw [afterSubB_iff]
        refine ⟨?_, hinb⟩
        cases hb : dfsLe p2 restRev.reverse with
        | false => rfl
        | true =>
          have hx : dfsLe p2 (restRev.reverse ++ [idx]) = true :=
            dfsLe_trans p2 restRev.reverse (restRev.reverse ++ [idx]) hb
              (dfsLe_of_isPfx _ _ (isPfx_append _ _))
          have h3 := ((afterSubB_iff _ _).mp hAfter).1
          rw [hx] at h3
          exact absurd h3 (by simp)
      have hAllMiss : ∀ c ∈ par.children.drop (idx + 1),
          tagAll c lastId sel =
            (mapWhere sel (fun _ => true) c, false) := by
        intro c hcmem
        obtain ⟨j, hj⟩ := List.getElem?_of_mem hcmem
        rw [List.getElem?_drop] at hj
        apply tagAll_notIn
        intro qx cq hqx
        cases hm : (cq.fld.id == lastId) with
        | false => rfl
        | true =>
          exfalso
          have hga : getAt t (restRev.reverse ++ (idx + 1 + j) :: qx) =
              some cq := by
            rw [getAt_append, hq, Option.some_bind, getAt_cons_some hj]
            exact hqx
          have hAf : afterSubB (restRev.reverse ++ [idx])
              (restRev.reverse ++ (idx + 1 + j) :: qx) = true := by
            rw [afterSubB_append_cancel]
            exact afterSub_single_gt idx (idx + 1 + j) qx (by omega)
          have hd := hfirst _ cq hga hm hAf
          have h1 : dfsLe (restRev.reverse ++ [idx]) p2 = true :=
            dfsLe_total _ _ ((afterSubB_iff _ _).mp hAfter).1
          have h3 := dfsLe_between_isPfx restRev.reverse [idx] p2
            ((idx + 1 + j) :: qx) h1 hd
          rw [h3] at hinb
          exact absurd hinb (by simp)
      rw [tagAllL_notIn_aux (par.children.drop (idx + 1)) lastId sel
        hAllMiss (idx + 1)]
      rw [if_neg (show ¬ (((mapWhereL sel (fun _ => true) (idx + 1)
        (par.children.drop (idx + 1)), false) :
        List Item × Bool).2 = true) from by simp)]
      have hnode : Item.node par.fld (par.children.take (idx + 1) ++
          mapWhereL sel (fun _ => true) (idx + 1)
            (par.children.drop (idx + 1))) =
          mapWhere sel (fun q => afterSubB [idx] q) par := by
        cases par with
        | node pf pcs =>
          rw [mapWhere_node, children_node, fld_node]
          rw [if_neg (show ¬ (afterSubB [idx] ([] : TPath) = true) from by
            rw [show afterSubB [idx] ([] : TPath) = false from by
              unfold afterSubB
              rw [dfsLe_nil]
              rfl]
            simp)]
          congr 1
          rw [mapWhereL_split (idx + 1) pcs sel _ 0
            (fun kk r hkk =>
              afterSub_single_le idx (0 + kk) r (by omega))]
          congr 1
          rw [Nat.zero_add]
          apply mapWhereL_congr_aux _ (fun c _ => mapWhere_congr c)
            sel _ _ (idx + 1) (idx + 1)
          intro kk r
          rw [afterSub_single_gt idx ((idx + 1) + kk) r (by omega)]
      rw [hnode, setAt_mapWhere _ t par sel _ hq]
      have hcur2 : getAt (mapWhere sel
          (liftP restRev.reverse (fun q => afterSubB [idx] q)) t)
          restRev.reverse = some (mapWhere sel
            (fun r => liftP restRev.reverse (fun q => afterSubB [idx] q)
              (restRev.reverse ++ r)) par) := by
        rw [getAt_mapWhere, hq, Option.map_some']
      have hp2t1 : getAt (mapWhere sel
          (liftP restRev.reverse (fun q => afterSubB [idx] q)) t) p2 =
          some (mapWhere sel
            (fun r => liftP restRev.reverse (fun q => afterSubB [idx] q)
              (p2 ++ r)) lnode) := by
        rw [getAt_mapWhere, hp2, Option.map_some']
      have hid2 : ((mapWhere sel
          (fun r => liftP restRev.reverse (fun q => afterSubB [idx] q)
            (p2 ++ r)) lnode).fld.id == lastId) = true := by
        rw [mapWhere_fld_id]
        exact hid
      have hfirst2 : ∀ (q : TPath) (c : Item),
          getAt (mapWhere sel
            (liftP restRev.reverse (fun q => afterSubB [idx] q)) t) q =
            some c →
          (c.fld.id == lastId) = true →
          afterSubB restRev.reverse q = true → dfsLe p2 q = true := by
        intro q c hgc hmc hAq
        rw [getAt_mapWhere] at hgc
        cases hgt : getAt t q with
        | none => rw [hgt] at hgc; simp at hgc
        | some c0 =>
          rw [hgt, Option.map_some'] at hgc
          simp only [Option.some.injEq] at hgc
          rw [← hgc, mapWhere_fld_id] at hmc
          exact hfirst q c0 hgt hmc
            (by rw [afterSub_extend_eq _ _ _
              ((afterSubB_iff _ _).mp hAq).2]
                exact hAq)
      rw [ih (mapWhere sel
          (liftP restRev.reverse (fun q => afterSubB [idx] q)) t) p2
        lastId sel _ _ hcur2 hp2t1 hid2 hAfterPP hfirst2]
      rw [mapWhere_compose]
      congr 1
      apply mapWhere_congr
      intro q
      by_cases hpq : restRev.reverse.isPrefixOf q = true
      · have hqeq := eq_append_of_isPfx _ q hpq
        rw [hqeq, liftP_append, afterSub_self_append, Bool.false_and,
          Bool.or_false, afterSubB_append_cancel]
        cases hx : afterSubB [idx] (q.drop restRev.reverse.length) with
        | false => rw [Bool.false_and]
        | true =>
          rw [Bool.true_and,
            afterSub_under_le restRev.reverse p2 _ hAfterPP]
      · have hpqf : restRev.reverse.isPrefixOf q = false :=
          Bool.eq_false_iff.mpr hpq
        rw [liftP_not_pfx _ _ q hpqf, Bool.false_or,
          afterSub_extend_eq _ _ _ hpqf]

/-- An address starts itself. -/
theorem isPfx_refl (l : TPath) : l.isPrefixOf l = true := by
  have h := isPfx_append l []
  rwa [List.append_nil] at h

/-- C6: in multi-select mode (`TR_MULTIPLE` or `TR_EXTENDED`),
`SelectItemRange(item1, item2)` sets the hilight of exactly the
depth-first span of items between the two nodes, inclusive of both
endpoints, to the current item's selection state, and no item outside
that span changes at all.  Hypotheses: both addresses resolve, the
vertical layout order of the two items matches (`GetY` ordering is how
the source picks the start of the range), the second item comes later
in depth-first order, and its id first occurs at its own address among
the addresses from the first item onward (automatic when ids are
unique). -/
theorem claim_C6 : ∀ (t : Item) (p1 p2 : TPath) (curSel m e : Bool)
    (it1 it2 : Item),
    (m || e) = true →
    getAt t p1 = some it1 → getAt t p2 = some it2 →
    it1.fld.y < it2.fld.y →
    dfsLe p1 p2 = true →
    (∀ (q : TPath) (c : Item), getAt t q = some c →
      (c.fld.id == it2.fld.id) = true → dfsLe p1 q = true →
      dfsLe p2 q = true) →
    selectItemRange t p1 p2 curSel m e =
      some (mapWhere curSel (fun q => dfsLe p1 q && dfsLe q p2) t) ∧
    (∀ (q : TPath) (c : Item), getAt t q = some c →
      fieldsAt (mapWhere curSel (fun q => dfsLe p1 q && dfsLe q p2) t) q
        = some (if dfsLe p1 q && dfsLe q p2 then
            { c.fld with hilight := curSel } else c.fld)) := by
  intro t p1 p2 curSel m e it1 it2 hme hg1 hg2 hy hdfs hfirst
  refine ⟨?_, fun q c hg => fieldsAt_mapWhere q t curSel _ c hg⟩
  have hguard : (!m && !e) = false := by
    cases m <;> cases e <;> simp_all
  unfold selectItemRange
  rw [if_neg (by rw [hguard]; simp)]
  rw [hg1, hg2]
  dsimp only
  simp only [if_pos hy]
  rw [hg1]
  dsimp only
  by_cases hin : p1.isPrefixOf p2 = true
  · -- the last item is inside the first item's subtree
    have hp2eq := eq_append_of_isPfx _ p2 hin
    have hgetrest : getAt it1 (p2.drop p1.length) = some it2 := by
      have h3 := hg2
      rw [hp2eq, getAt_append, hg1, Option.some_bind] at h3
      exact h3
    have hfnd : tagAll it1 it2.fld.id curSel =
        (mapWhere curSel (fun q => dfsLe q (p2.drop p1.length)) it1,
          true) := by
      apply tagAll_found it1 _ it2 it2.fld.id curSel hgetrest (by simp)
      intro qx cq hqx hm
      have hga : getAt t (p1 ++ qx) = some cq := by
        rw [getAt_append, hg1, Option.some_bind]
        exact hqx
      have h4 := hfirst (p1 ++ qx) cq hga hm
        (dfsLe_of_isPfx _ _ (isPfx_append _ _))
      rw [hp2eq, dfsLe_append_cancel] at h4
      exact h4
    rw [hfnd]
    rw [if_pos (show ((mapWhere curSel
      (fun q => dfsLe q (p2.drop p1.length)) it1, true) :
      Item × Bool).2 = true from rfl)]
    rw [show ((mapWhere curSel
      (fun q => dfsLe q (p2.drop p1.length)) it1, true) :
      Item × Bool).1 = mapWhere curSel
        (fun q => dfsLe q (p2.drop p1.length)) it1 from rfl]
    rw [setAt_mapWhere _ t it1 curSel _ hg1]
    congr 1
    apply mapWhere_congr
    intro q
    by_cases hpq : p1.isPrefixOf q = true
    · have hqeq := eq_append_of_isPfx _ q hpq
      rw [hqeq, liftP_append, dfsLe_of_isPfx _ _ (isPfx_append _ _),
        Bool.true_and, hp2eq, dfsLe_append_cancel, List.drop_left]
    · rw [liftP_not_pfx _ _ q (Bool.eq_false_iff.mpr hpq)]
      symm
      cases hd1 : dfsLe p1 q with
      | false => rw [Bool.false_and]
      | true =>
        cases hd2 : dfsLe q p2 with
        | false => rw [Bool.and_false]
        | true =>
          exfalso
          have h1 : dfsLe (p1 ++ []) q = true := by
            rw [List.append_nil]
            exact hd1
          have h2 : dfsLe q (p1 ++ p2.drop p1.length) = true := by
            rw [← hp2eq]
            exact hd2
          exact hpq (dfsLe_between_isPfx p1 [] q _ h1 h2)
  · -- the last item is past the first item's subtree
    have hinb : p1.isPrefixOf p2 = false := Bool.eq_false_iff.mpr hin
    have hAfter : afterSubB p1 p2 = true := by
      rw [afterSubB_iff]
      refine ⟨?_, hinb⟩
      cases hb : dfsLe p2 p1 with
      | false => rfl
      | true =>
        have heq := dfsLe_antisymm p2 p1 hb hdfs
        rw [heq, isPfx_refl] at hinb
        exact absurd hinb (by simp)
    have hmiss : tagAll it1 it2.fld.id curSel =
        (mapWhere curSel (fun _ => true) it1, false) := by
      apply tagAll_notIn
      intro qx cq hqx
      cases hm : (cq.fld.id == it2.fld.id) with
      | false => rfl
      | true =>
        exfalso
        have hga : getAt t (p1 ++ qx) = some cq := by
          rw [getAt_append, hg1, Option.some_bind]
          exact hqx
        have h4 := hfirst (p1 ++ qx) cq hga hm
          (dfsLe_of_isPfx _ _ (isPfx_append _ _))
        have h1 : dfsLe (p1 ++ []) p2 = true := by
          rw [List.append_nil]
          exact hdfs
        have h3 := dfsLe_between_isPfx p1 [] p2 qx h1 h4
        rw [h3] at hinb
        exact absurd hinb (by simp)
    rw [hmiss]
    rw [if_neg (show ¬ (((mapWhere curSel (fun _ => true) it1, false) :
      Item × Bool).2 = true) from by simp)]
    rw [show ((mapWhere curSel (fun _ => true) it1, false) :
      Item × Bool).1 = mapWhere curSel (fun _ => true) it1 from rfl]
    rw [setAt_mapWhere _ t it1 curSel _ hg1]
    have hrr : p1.reverse.reverse = p1 := List.reverse_reverse p1
    have hcur2 : getAt (mapWhere curSel (liftP p1 (fun _ => true)) t)
        p1.reverse.reverse = some (mapWhere curSel
          (fun r => liftP p1 (fun _ => true) (p1 ++ r)) it1) := by
      rw [hrr, getAt_mapWhere, hg1, Option.map_some']
    have hp2t1 : getAt (mapWhere curSel (liftP p1 (fun _ => true)) t)
        p2 = some (mapWhere curSel
          (fun r => liftP p1 (fun _ => true) (p2 ++ r)) it2) := by
      rw [getAt_mapWhere, hg2, Option.map_some']
    have hid2 : ((mapWhere curSel
        (fun r => liftP p1 (fun _ => true) (p2 ++ r)) it2).fld.id ==
          it2.fld.id) = true := by
      rw [mapWhere_fld_id]
      simp
    have hAfter2 : afterSubB p1.reverse.reverse p2 = true := by
      rw [hrr]
      exact hAfter
    have hfirst2 : ∀ (q : TPath) (c : Item),
        getAt (mapWhere curSel (liftP p1 (fun _ => true)) t) q = some c →
        (c.fld.id == it2.fld.id) = true →
        afterSubB p1.reverse.reverse q = true → dfsLe p2 q = true := by
      intro q c hgc hmc hAq
      rw [hrr] at hAq
      rw [getAt_mapWhere] at hgc
      cases hgt : getAt t q with
      | none => rw [hgt] at hgc; simp at hgc
      | some c0 =>
        rw [hgt, Option.map_some'] at hgc
        simp only [Option.some.injEq] at hgc
        rw [← hgc, mapWhere_fld_id] at hmc
        apply hfirst q c0 hgt hmc
        exact dfsLe_total _ _ ((afterSubB_iff _ _).mp hAq).1
    have hTN := tagNextRev_found p1.reverse
      (mapWhere curSel (liftP p1 (fun _ => true)) t) p2 it2.fld.id
      curSel _ _ hcur2 hp2t1 hid2 hAfter2 hfirst2
    simp only [hrr] at hTN
    rw [show tagNext (mapWhere curSel (liftP p1 (fun _ => true)) t) p1
      it2.fld.id curSel = tagNextRev
        (mapWhere curSel (liftP p1 (fun _ => true)) t) p1.reverse
        it2.fld.id curSel from rfl]
    rw [hTN]
    rw [show ((mapWhere curSel
      (fun q => afterSubB p1 q && dfsLe q p2)
      (mapWhere curSel (liftP p1 (fun _ => true)) t), true) :
      Item × Bool).1 = mapWhere curSel
        (fun q => afterSubB p1 q && dfsLe q p2)
        (mapWhere curSel (liftP p1 (fun _ => true)) t) from rfl]
    rw [mapWhere_compose]
    congr 1
    apply mapWhere_congr
    intro q
    by_cases hpq : p1.isPrefixOf q = true
    · have hqeq := eq_append_of_isPfx _ q hpq
      rw [hqeq, liftP_append, Bool.true_or,
        dfsLe_of_isPfx _ _ (isPfx_append _ _), Bool.true_and,
        afterSub_under_le p1 p2 _ hAfter]
    · have hpqf : p1.isPrefixOf q = false := Bool.eq_false_iff.mpr hpq
      rw [liftP_not_pfx _ _ q hpqf, Bool.false_or]
      unfold afterSubB
      rw [hpqf, Bool.not_false, Bool.and_true]
      cases hd : dfsLe q p1 with
      | true =>
        rw [Bool.not_true, Bool.false_and]
        cases he : dfsLe p1 q with
        | false => rw [Bool.false_and]
        | true =>
          exfalso
          have heq := dfsLe_antisymm p1 q he hd
          rw [heq, isPfx_refl] at hpqf
          exact absurd hpqf (by simp)
      | false =>
        rw [Bool.not_false, dfsLe_total q p1 hd]

/-- A preorder id of a child is a preorder id of the forest. -/
theorem mem_preorderL_of_child : ∀ (cs : List Item) (i : Nat)
    (ci : Item) (x : Nat), cs[i]? = some ci → x ∈ preorder ci →
    x ∈ preorderL cs := by
  intro cs
  induction cs with
  | nil => intro i ci x h; simp at h
  | cons c rest ih =>
    intro i ci x h hx
    unfold preorderL
    rw [List.mem_append]
    cases i with
    | zero =>
      simp only [List.getElem?_cons_zero, Option.some.injEq] at h
      subst h
      exact Or.inl hx
    | succ i =>
      simp only [List.getElem?_cons_succ] at h
      exact Or.inr (ih i ci x h hx)

/-- The id of any reachable item is a preorder id. -/
theorem getAt_mem_preorder : ∀ (p : TPath) (t c : Item),
    getAt t p = some c → c.fld.id ∈ preorder t := by
  intro p
  induction p with
  | nil =>
    intro t c h
    rw [getAt_nil] at h
    simp only [Option.some.injEq] at h
    subst h
    cases t with
    | node f cs =>
      unfold preorder
      rw [fld_node]
      exact List.mem_cons_self _ _
  | cons i r ih =>
    intro t c h
    cases hc : t.children[i]? with
    | none => rw [getAt_cons_none hc] at h; simp at h
    | some ci =>
      rw [getAt_cons_some hc] at h
      cases t with
      | node f cs =>
        rw [children_node] at hc
        unfold preorder
        exact List.mem_cons_of_mem _
          (mem_preorderL_of_child cs i ci _ hc (ih ci c h))

/-- Distinct ids propagate to every child subtree. -/
theorem nodup_child : ∀ (cs : List Item) (i : Nat) (ci : Item),
    (preorderL cs).Nodup → cs[i]? = some ci → (preorder ci).Nodup := by
  intro cs
  induction cs with
  | nil => intro i ci _ h; simp at h
  | cons c rest ih =>
    intro i ci hnd h
    unfold preorderL at hnd
    rw [List.nodup_append] at hnd
    cases i with
    | zero =>
      simp only [List.getElem?_cons_zero, Option.some.injEq] at h
      subst h
      exact hnd.1
    | succ i =>
      simp only [List.getElem?_cons_succ] at h
      exact ih i ci hnd.2.1 h

/-- With distinct ids, two different children share no preorder id. -/
theorem disjoint_children : ∀ (cs : List Item) (i j : Nat)
    (ci cj : Item) (x : Nat), (preorderL cs).Nodup → i < j →
    cs[i]? = some ci → cs[j]? = some cj →
    x ∈ preorder ci → x ∈ preorder cj → False := by
  intro cs
  induction cs with
  | nil => intro i j ci cj x _ _ h; simp at h
  | cons c rest ih =>
    intro i j ci cj x hnd hij hi hj hxi hxj
    unfold preorderL at hnd
    rw [List.nodup_append] at hnd
    cases i with
    | zero =>
      simp only [List.getElem?_cons_zero, Option.some.injEq] at hi
      subst hi
      cases j with
      | zero => omega
      | succ j =>
        simp only [List.getElem?_cons_succ] at hj
        exact hnd.2.2 hxi (mem_preorderL_of_child rest j cj x hj hxj)
    | succ i =>
      cases j with
      | zero => omega
      | succ j =>
        simp only [List.getElem?_cons_succ] at hi hj
        exact ih i j ci cj x hnd.2.1 (by omega) hi hj hxi hxj

/-- With globally distinct ids, an id determines the address. -/
theorem getAt_id_unique : ∀ (p : TPath) (t : Item) (q : TPath)
    (a b : Item), (preorder t).Nodup → getAt t p = some a →
    getAt t q = some b → a.fld.id = b.fld.id → p = q := by
  intro p
  induction p with
  | nil =>
    intro t q a b hnd hpa hqb heq
    rw [getAt_nil] at hpa
    simp only [Option.some.injEq] at hpa
    subst hpa
    cases q with
    | nil => rfl
    | cons j s =>
      exfalso
      cases hcj : t.children[j]? with
      | none => rw [getAt_cons_none hcj] at hqb; simp at hqb
      | some cj =>
        rw [getAt_cons_some hcj] at hqb
        cases t with
        | node f cs =>
          rw [children_node] at hcj
          unfold preorder at hnd
          rw [List.nodup_cons] at hnd
          rw [fld_node] at heq
          apply hnd.1
          rw [heq]
          exact mem_preorderL_of_child cs j cj _ hcj
            (getAt_mem_preorder s cj b hqb)
  | cons i r ih =>
    intro t q a b hnd hpa hqb heq
    cases hci : t.children[i]? with
    | none => rw [getAt_cons_none hci] at hpa; simp at hpa
    | some ci =>
      rw [getAt_cons_some hci] at hpa
      cases q with
      | nil =>
        exfalso
        rw [getAt_nil] at hqb
        simp only [Option.some.injEq] at hqb
        subst hqb
        cases t with
        | node f cs =>
          rw [children_node] at hci
          unfold preorder at hnd
          rw [List.nodup_cons] at hnd
          rw [fld_node] at heq
          apply hnd.1
          rw [← heq]
          exact mem_preorderL_of_child cs i ci _ hci
            (getAt_mem_preorder r ci a hpa)
      | cons j s =>
        cases hcj : t.children[j]? with
        | none => rw [getAt_cons_none hcj] at hqb; simp at hqb
        | some cj =>
          rw [getAt_cons_some hcj] at hqb
          cases t with
          | node f cs =>
            rw [children_node] at hci hcj
            unfold preorder at hnd
            rw [List.nodup_cons] at hnd
            by_cases hij : i = j
            · subst hij
              rw [hci] at hcj
              simp only [Option.some.injEq] at hcj
              subst hcj
              rw [ih ci s a b (nodup_child cs i ci hnd.2 hci) hpa hqb heq]
            · exfalso
              rcases lt_or_gt_of_ne hij with h | h
              · exact disjoint_children cs i j ci cj _ hnd.2 h hci hcj
                  (getAt_mem_preorder r ci a hpa)
                  (by rw [heq]; exact getAt_mem_preorder s cj b hqb)
              · exact disjoint_children cs j i cj ci _ hnd.2 h hcj hci
                  (getAt_mem_preorder s cj b hqb)
                  (by rw [← heq]; exact getAt_mem_preorder r ci a hpa)

/-- C6 witness: on the layout fixture, selecting the range from the
first child to the middle child's first grandchild hilights the span
(the middle child included) and leaves the later grandchild
untouched. -/
theorem claim_C6_witness :
    selectItemRange exC6Tree [0] [1, 0] true true false =
      some (mapWhere true (fun q => dfsLe [0] q && dfsLe q [1, 0])
        exC6Tree) ∧
    fieldsAt (mapWhere true (fun q => dfsLe [0] q && dfsLe q [1, 0])
      exC6Tree) [1] =
      some { exF 22 0 0 true with y := 20, hilight := true } ∧
    fieldsAt (mapWhere true (fun q => dfsLe [0] q && dfsLe q [1, 0])
      exC6Tree) [1, 1] = some { exF 24 0 0 true with y := 40 } := by
  have h := claim_C6 exC6Tree [0] [1, 0] true true false
    (Item.node { exF 21 0 0 true with y := 10 } [])
    (Item.node { exF 23 0 0 true with y := 30 } [])
    rfl rfl rfl (by decide) (by decide)
    (fun q c hg hm _ => by
      have hq := getAt_id_unique q exC6Tree [1, 0] c
        (Item.node { exF 23 0 0 true with y := 30 } [])
        (by decide) hg rfl (by simpa using hm)
      rw [hq]
      exact dfsLe_refl _)
  refine ⟨h.1, ?_, ?_⟩
  · have h2 := h.2 [1]
      (Item.node { exF 22 0 0 true with y := 20 }
        [Item.node { exF 23 0 0 true with y := 30 } [],
         Item.node { exF 24 0 0 true with y := 40 } []]) rfl
    rw [h2]
    rfl
  · have h3 := h.2 [1, 1]
      (Item.node { exF 24 0 0 true with y := 40 } []) rfl
    rw [h3]
    rfl
